import Mathlib

/-!
# goRunner macro engine (`src/macro.go`)

A shallow embedding of the macro-expansion engine of goRunner and the
properties of it that have been checked against the specification.

Conventions of the embedding.

* A Go `string` is a `List Char`; one list element stands for one byte of the
  Go string.  All the regular expressions of `macro.go` only distinguish ASCII
  characters, so lengths, indices and slices agree with Go on ASCII text.
* Go `int` and `int64` are `Int` reduced with `wrap64` wherever the source
  arithmetic can overflow (a 64-bit platform is assumed for `int`).
* The package-level variables of `macro.go` are the fields of `State`.
* A Go map is an association list (`GoMap`) with at most one entry per key.
* Run-time panics and non-termination are explicit results (`Res`).
-/

namespace GoRunner

/-- Go `string`: a sequence of bytes, one `Char` per byte. -/
abbrev GoString := List Char

/-! ## Machine integers -/

/-- Two's complement reduction of an integer to the range of `int64`. -/
def wrap64 (x : Int) : Int :=
  (x + 2 ^ 63) % 2 ^ 64 - 2 ^ 63

/-- Largest `int64`. -/
def maxInt64 : Int := 2 ^ 63 - 1

/-- Smallest `int64`. -/
def minInt64 : Int := -(2 ^ 63)

/-! ## Go maps -/

/-- Go `map[string]V` as an association list. -/
abbrev GoMap (V : Type) := List (GoString × V)

/-- Map read `m[k]` with the presence flag. -/
def mapGet {V : Type} : GoMap V → GoString → Option V
  | [], _ => none
  | (k1, v) :: m, k => if k = k1 then some v else mapGet m k

/-- Map write `m[k] = v`. -/
def mapSet {V : Type} : GoMap V → GoString → V → GoMap V
  | [], k, v => [(k, v)]
  | (k1, v1) :: m, k, v => if k = k1 then (k, v) :: m else (k1, v1) :: mapSet m k v

/-- Read of a slice-valued map: a missing key reads as the nil slice. -/
def mapSlice (m : GoMap (List GoString)) (k : GoString) : List GoString :=
  (mapGet m k).getD []

/-! ## `strings` package -/

/-- Model of `strings.HasPrefix`. -/
def hasPrefix (s pre : GoString) : Bool := pre.isPrefixOf s

/-- Model of `strings.HasSuffix`. -/
def hasSuffix (s suf : GoString) : Bool := suf.isSuffixOf s

/-- Cut `s` at the first occurrence of the non-empty `sep`: the text before the
occurrence and the text after it (`strings.Index` followed by the two slices). -/
def cutAt (sep : GoString) : GoString → Option (GoString × GoString)
  | [] => none
  | c :: cs =>
    if sep.isPrefixOf (c :: cs) then some ([], (c :: cs).drop sep.length)
    else (cutAt sep cs).map (fun p => (c :: p.1, p.2))

/-- Loop of `strings.Split` for a non-empty separator; the counter bounds the
number of pieces and is never exhausted when it starts above `s.length`. -/
def splitLoop (sep : GoString) : Nat → GoString → List GoString
  | 0, s => [s]
  | k + 1, s =>
    match cutAt sep s with
    | none => [s]
    | some (a, rest) => a :: splitLoop sep k rest

/-- Model of `strings.Split(s, sep)`.  An empty separator explodes the string
into its characters (and the empty string into the empty slice). -/
def stringsSplit (s sep : GoString) : List GoString :=
  if sep = [] then s.map (fun c => [c]) else splitLoop sep (s.length + 1) s

/-- Loop of `strings.Replace` for a non-empty `old`: at most `k` replacements. -/
def replaceLoop (old new : GoString) : Nat → GoString → GoString
  | 0, s => s
  | k + 1, s =>
    match cutAt old s with
    | none => s
    | some (a, rest) => a ++ new ++ replaceLoop old new k rest

/-- Loop of `strings.Replace` for an empty `old`: `new` is inserted before the
first character and after each character, at most `k` times in all. -/
def replaceEmptyLoop (new : GoString) : Nat → GoString → GoString
  | 0, s => s
  | _ + 1, [] => new
  | k + 1, c :: cs => new ++ c :: replaceEmptyLoop new k cs

/-- Model of `strings.Replace(s, old, new, n)`; a negative `n` means no limit. -/
def stringsReplace (s old new : GoString) (n : Int) : GoString :=
  let k : Nat := if n < 0 then s.length + 1 else min n.toNat (s.length + 1)
  if old = new then s
  else if old = [] then replaceEmptyLoop new k s
  else replaceLoop old new k s

/-! ## Regular expressions of `macro.go`

Each pattern is modelled by a matcher for one starting position and a
left-to-right search for the leftmost position at which it matches. -/

/-- Tail of the token pattern, `.*?\}`: the shortest run of characters other
than a newline that is followed by a closing brace.  Returns the matched text
and the text after it. -/
def lazyToBrace : GoString → Option (GoString × GoString)
  | [] => none
  | c :: cs =>
    if c = '}' then some ([c], cs)
    else if c = '\n' then none
    else (lazyToBrace cs).map (fun p => (c :: p.1, p.2))

/-- Match of `\{%.*?\}` (sigil `%`) or `\{\$.*?\}` (sigil `$`) at the head of
the text. -/
def tokenAt (sigil : Char) : GoString → Option (GoString × GoString)
  | c0 :: c1 :: rest =>
    if c0 = '{' ∧ c1 = sigil then
      (lazyToBrace rest).map (fun p => (c0 :: c1 :: p.1, p.2))
    else none
  | _ => none

/-- Search loop of `FindAllString(field, -1)` for a token pattern: successive
non-overlapping leftmost matches.  Each step consumes a character, so a counter
of `field.length` is never exhausted. -/
def findAllLoop (sigil : Char) : Nat → GoString → List GoString
  | 0, _ => []
  | _ + 1, [] => []
  | k + 1, c :: cs =>
    match tokenAt sigil (c :: cs) with
    | some (m, rest) => m :: findAllLoop sigil k rest
    | none => findAllLoop sigil k cs

/-- Model of `rx.FindAllString(field, -1)` for the two token patterns. -/
def findAllTokens (sigil : Char) (field : GoString) : List GoString :=
  findAllLoop sigil field.length field

/-! ## Package state -/

/-- Compiled time macro (`type UnixtimeMacro struct`). -/
structure UnixtimeMacro where
  duration : Int
  format : GoString
  deriving DecidableEq, Repr

/-- The package-level variables of `macro.go`. -/
structure State where
  Md5Inputs : GoMap GoString
  Base64Inputs : GoMap GoString
  UnixtimeMacros : GoMap UnixtimeMacro
  PrintTimeMacros : GoMap UnixtimeMacro
  CommandMacros : GoMap (List GoString)
  Md5Macros : GoMap (List GoString)
  Base64Macros : GoMap (List GoString)
  KvDelimeter : GoString
  inputColHeaders : GoMap Int
  deriving DecidableEq, Repr

/-- Initial values of the package-level variables. -/
def State.initial : State :=
  { Md5Inputs := [], Base64Inputs := [], UnixtimeMacros := [], PrintTimeMacros := [],
    CommandMacros := [], Md5Macros := [], Base64Macros := [],
    KvDelimeter := [','], inputColHeaders := [] }

/-! ## Macro registry -/

/-- Linear search of `arrayContains`. -/
def arrayContains : List GoString → GoString → Bool
  | [], _ => false
  | a :: arr, str => if str = a then true else arrayContains arr str

/-- Body shared by `addCommandMacro`, `addMd5Macro` and `addBase64Macro` on the
slice-valued map they update. -/
def addMacroTo (m : GoMap (List GoString)) (cmd tok : GoString) : GoMap (List GoString) :=
  if !arrayContains (mapSlice m cmd) tok then mapSet m cmd (mapSlice m cmd ++ [tok]) else m

/-- Embedding of `addCommandMacro`. -/
def addCommandMacro (st : State) (cmd tok : GoString) : State :=
  { st with CommandMacros := addMacroTo st.CommandMacros cmd tok }

/-- Embedding of `addMd5Macro`. -/
def addMd5Macro (st : State) (cmd tok : GoString) : State :=
  { st with Md5Macros := addMacroTo st.Md5Macros cmd tok }

/-- Embedding of `addBase64Macro`. -/
def addBase64Macro (st : State) (cmd tok : GoString) : State :=
  { st with Base64Macros := addMacroTo st.Base64Macros cmd tok }

/-- Embedding of `InitMacros`. -/
def InitMacros (st : State) (cmd field : GoString) : State :=
  let st0 : State :=
    match mapGet st.CommandMacros cmd with
    | some _ => st
    | none => { st with CommandMacros := mapSet st.CommandMacros cmd [] }
  let st1 := (findAllTokens '%' field).foldl (fun s tok => addCommandMacro s cmd tok) st0
  (findAllTokens '$' field).foldl (fun s tok => addCommandMacro s cmd tok) st1

/-- Name of the reserved session-log command, a newline followed by `SessionLog`. -/
def sessionLogCommand : GoString := '\n' :: "SessionLog".toList

/-- Embedding of `InitSessionLogMacros`. -/
def InitSessionLogMacros (st : State) (sessionLog : GoString) : State :=
  InitMacros st sessionLogCommand sessionLog

/-- Embedding of `InitMd5Macro`. -/
def InitMd5Macro (st : State) (cmd md5Input : GoString) : State :=
  if md5Input.length = 0 then st
  else
    let st0 : State :=
      { st with Md5Inputs := mapSet st.Md5Inputs cmd md5Input,
                Md5Macros := mapSet st.Md5Macros cmd [] }
    let st1 := (findAllTokens '%' md5Input).foldl (fun s tok => addMd5Macro s cmd tok) st0
    (findAllTokens '$' md5Input).foldl (fun s tok => addMd5Macro s cmd tok) st1

/-- Embedding of `InitBase64Macro`. -/
def InitBase64Macro (st : State) (cmd base64Input : GoString) : State :=
  if base64Input.length = 0 then st
  else
    let st0 : State :=
      { st with Base64Inputs := mapSet st.Base64Inputs cmd base64Input,
                Base64Macros := mapSet st.Base64Macros cmd [] }
    let st1 :=
      (findAllTokens '%' base64Input).foldl (fun s tok => addBase64Macro s cmd tok) st0
    (findAllTokens '$' base64Input).foldl (fun s tok => addBase64Macro s cmd tok) st1

/-! ## Column-header index -/

/-- Embedding of `HasInputColHeaders`. -/
def HasInputColHeaders (st : State) : Bool :=
  decide (st.inputColHeaders.length > 0)

/-- Loop of `HeadInputColumns`: the values from position `i` on. -/
def headLoop (cols : GoMap Int) : Nat → List GoString → GoMap Int
  | _, [] => cols
  | i, val :: vals =>
    headLoop (mapSet cols ('{' :: '%' :: val ++ ['}']) (Int.ofNat i)) (i + 1) vals

/-- Embedding of `HeadInputColumns`. -/
def HeadInputColumns (st : State) (kvText : GoString) : State :=
  { st with inputColHeaders :=
      headLoop st.inputColHeaders 0 (stringsSplit kvText st.KvDelimeter) }

/-- Embedding of `inputColumnIndex`. -/
def inputColumnIndex (st : State) (macroDeclaration : GoString) : Int :=
  match mapGet st.inputColHeaders macroDeclaration with
  | some i => i
  | none => -1

/-! ## `strconv.Atoi` -/

/-- Digit loop of `strconv.ParseUint` in base 10 with 64 bits: `none` is a
syntax error, and the loop stops with the largest `uint64` as soon as the
accumulated value overflows. -/
def parseUintLoop : Nat → GoString → Option Nat
  | n, [] => some n
  | n, c :: cs =>
    if c.isDigit then
      let n1 := 10 * n + (c.toNat - 48)
      if n1 ≥ 2 ^ 64 then some (2 ^ 64 - 1) else parseUintLoop n1 cs
    else none

/-- Value of an unsigned digit string as `Atoi` sees it, already clamped to the
`int64` range for the given sign; a syntax error gives 0. -/
def atoiMagnitude (neg : Bool) (ds : GoString) : Int :=
  if ds = [] then 0
  else
    match parseUintLoop 0 ds with
    | none => 0
    | some un =>
      if neg then (if un > 2 ^ 63 then minInt64 else -(Int.ofNat un))
      else (if un ≥ 2 ^ 63 then maxInt64 else Int.ofNat un)

/-- Value returned by `strconv.Atoi` (its error is discarded at every call site
of `macro.go`): 0 on a syntax error, the nearest `int64` on a range error. -/
def strconvAtoi : GoString → Int
  | [] => 0
  | c :: cs =>
    if c = '-' then atoiMagnitude true cs
    else if c = '+' then atoiMagnitude false cs
    else atoiMagnitude false (c :: cs)

/-! ## `fmt.Sprintf` on the formats of `macro.go` -/

/-- Left padding of a digit string with a fill character up to a width. -/
def padLeft (fill : Char) (width : Nat) (s : GoString) : GoString :=
  List.replicate (width - s.length) fill ++ s

/-- Integer formatting of package `fmt` (`fmtInteger`) for the verbs `d` and `x`
with an optional zero flag and width: the zero flag pads the digits up to the
width, leaving room for the sign; otherwise blanks pad on the left. -/
def fmtInteger (base : Nat) (zero : Bool) (wid : Option Nat) (v : Int) : GoString :=
  let digits := Nat.toDigits base v.natAbs
  let prec : Nat :=
    match wid with
    | some w => if zero then (if v < 0 then w - 1 else w) else 0
    | none => 0
  let body := padLeft '0' prec digits
  let signed := if v < 0 then '-' :: body else body
  match wid with
  | some w => padLeft ' ' w signed
  | none => signed

/-- Width parser of package `fmt` (`parsenum`) on a run of digits: it gives up
once the number read so far exceeds one million. -/
def parsenum : Nat → GoString → Option Nat
  | n, [] => some n
  | n, c :: cs => if n > 1000000 then none else parsenum (10 * n + (c.toNat - 48)) cs

/-- Text written by `fmt` for a format without a verb and an unused `int64`
operand. -/
def noVerbExtra (v : Int) : GoString :=
  "%!(NOVERB)%!(EXTRA int64=".toList ++ fmtInteger 10 false none v ++ [')']

/-- Model of `fmt.Sprintf(format, v)` for an `int64` operand on the formats that
`macro.go` uses: the decimal format, and a percent sign, a run of digits and the
verb `x`.  Leading zeros of the run are the zero flag and the rest is the width.
No other format is ever stored by `initUnixtimeMacro`; the model gives the
empty string for them. -/
def fmtSprintf (format : GoString) (v : Int) : GoString :=
  if format = ['%', 'd'] then fmtInteger 10 false none v
  else
    match format with
    | '%' :: rest =>
      let ds := rest.takeWhile Char.isDigit
      if rest.dropWhile Char.isDigit = ['x'] then
        let zeros := ds.takeWhile (fun c => c = '0')
        let width := ds.dropWhile (fun c => c = '0')
        if width = [] then fmtInteger 16 (decide (zeros ≠ [])) none v
        else
          match parsenum 0 width with
          | some w => fmtInteger 16 (decide (zeros ≠ [])) (some w) v
          | none => noVerbExtra v
      else []
    | _ => []

/-! ## Remaining regular expressions -/

/-- Match of `([\+\-]\d+)(.*)` at the head of the text: the sign with the
longest run of digits after it, and the rest of the line. -/
def modifierAt : GoString → Option (GoString × GoString)
  | [] => none
  | c :: cs =>
    if (c = '+' ∨ c = '-') ∧ cs.takeWhile Char.isDigit ≠ [] then
      some (c :: cs.takeWhile Char.isDigit,
            (cs.dropWhile Char.isDigit).takeWhile (fun d => d ≠ '\n'))
    else none

/-- Leftmost match of `([\+\-]\d+)(.*)` (`FindStringSubmatch`): groups 1 and 2. -/
def findModifier : GoString → Option (GoString × GoString)
  | [] => none
  | c :: cs =>
    match modifierAt (c :: cs) with
    | some r => some r
    | none => findModifier cs

/-- Match of `%(\d+)?x` at the head of the text: the matched text. -/
def hexMarkerAt : GoString → Option GoString
  | [] => none
  | c :: cs =>
    if c = '%' ∧ (cs.dropWhile Char.isDigit).head? = some 'x' then
      some (c :: cs.takeWhile Char.isDigit ++ ['x'])
    else none

/-- Leftmost match of `%(\d+)?x` (`FindString`); the empty string when there is
no match. -/
def findHexMarker : GoString → GoString
  | [] => []
  | c :: cs =>
    match hexMarkerAt (c :: cs) with
    | some m => m
    | none => findHexMarker cs

/-- Leftmost match of `%(\d+)x` (`FindStringSubmatch`): group 1, the width. -/
def findHexWidth : GoString → Option GoString
  | [] => none
  | c :: cs =>
    if c = '%' ∧ cs.takeWhile Char.isDigit ≠ [] ∧
        (cs.dropWhile Char.isDigit).head? = some 'x' then
      some (cs.takeWhile Char.isDigit)
    else findHexWidth cs

/-- Opening text of the indexed column form, a brace, `%CSV` and a bracket. -/
def csvOpen : GoString := "\x7b%CSV[".toList

/-- Leftmost match of `csvrx` (`FindStringSubmatch`): group 1, the index. -/
def findCsvIndex : GoString → Option GoString
  | [] => none
  | c :: cs =>
    if csvOpen.isPrefixOf (c :: cs) ∧
        ((c :: cs).drop csvOpen.length).takeWhile Char.isDigit ≠ [] ∧
        [']', '}'].isPrefixOf (((c :: cs).drop csvOpen.length).dropWhile Char.isDigit) then
      some (((c :: cs).drop csvOpen.length).takeWhile Char.isDigit)
    else findCsvIndex cs

/-- Match of the slice annotation pattern `\[(\d+):(\d+)\]}` at the head of the
text: the two bounds. -/
def sliceAt : GoString → Option (GoString × GoString)
  | [] => none
  | c :: cs =>
    let a := cs.takeWhile Char.isDigit
    let r1 := cs.dropWhile Char.isDigit
    let b := (r1.drop 1).takeWhile Char.isDigit
    let r2 := (r1.drop 1).dropWhile Char.isDigit
    if c = '[' ∧ a ≠ [] ∧ r1.head? = some ':' ∧ b ≠ [] ∧ [']', '}'].isPrefixOf r2 then
      some (a, b)
    else none

/-- Leftmost match of the slice annotation pattern (`FindStringSubmatch`):
groups 1 and 2; group 0 is rebuilt by `sliceText`. -/
def findSlice : GoString → Option (GoString × GoString)
  | [] => none
  | c :: cs =>
    match sliceAt (c :: cs) with
    | some r => some r
    | none => findSlice cs

/-- Text of a slice annotation with the given bounds (group 0 of the match). -/
def sliceText (a b : GoString) : GoString :=
  '[' :: a ++ ':' :: b ++ [']', '}']

/-! ## Time-modifier parser and time-macro compiler -/

/-- Nanoseconds of `time.Second`. -/
def timeSecond : Int := 1000000000

/-- Nanoseconds of `time.Minute`. -/
def timeMinute : Int := 60 * timeSecond

/-- Nanoseconds of `time.Hour`. -/
def timeHour : Int := 60 * timeMinute

/-- Error text built by `parseTimeModifier`. -/
def notSupported (arg : GoString) : GoString :=
  "time modifier ".toList ++ arg ++ " is not supported".toList

/-- Result pair of `parseTimeModifier`: a duration in nanoseconds with a nil
error, or an error with its message. -/
inductive Parsed where
  | ok (duration : Int)
  | error (msg : GoString)
  deriving DecidableEq, Repr

/-- Embedding of `parseTimeModifier`. -/
def parseTimeModifier (arg : GoString) : Parsed :=
  if arg.length = 0 then .ok 0
  else
    match findModifier arg with
    | none => .error (notSupported arg)
    | some (g1, g2) =>
      let mult := strconvAtoi g1
      if g2 = "MONTH".toList ∨ g2 = "MONTHS".toList then
        .ok (wrap64 (wrap64 (wrap64 (mult * 30) * 24) * timeHour))
      else if g2 = "DAY".toList ∨ g2 = "DAYS".toList then
        .ok (wrap64 (wrap64 (mult * 24) * timeHour))
      else if g2 = "HOUR".toList ∨ g2 = "HOURS".toList then
        .ok (wrap64 (mult * timeHour))
      else if g2 = "MINUTE".toList ∨ g2 = "MINUTES".toList then
        .ok (wrap64 (mult * timeMinute))
      else if g2 = "SECOND".toList ∨ g2 = "SECONDS".toList then
        .ok (wrap64 (mult * timeSecond))
      else .error (notSupported arg)

/-- Go slice expression `s[lo:hi]` on a string; `none` is the bounds panic. -/
def goSlice (s : GoString) (lo hi : Int) : Option GoString :=
  if 0 ≤ lo ∧ lo ≤ hi ∧ hi ≤ (s.length : Int) then
    some ((s.drop lo.toNat).take (hi.toNat - lo.toNat))
  else none

/-- Go index expression `arr[i]` on a slice of strings; `none` is the index
panic. -/
def goIndex (arr : List GoString) (i : Int) : Option GoString :=
  if 0 ≤ i then arr[i.toNat]? else none

/-- Outcome of a step of initialization: the new state, the process exit of
`log.Fatalf` with its message, or a run-time panic. -/
inductive InitRes where
  | ok (st : State)
  | fatal (msg : GoString)
  | panic
  deriving DecidableEq, Repr

/-- Embedding of `initUnixtimeMacro`. -/
def initUnixtimeMacro (st : State) (tok : GoString) : InitRes :=
  match goSlice tok 2 ((tok.length : Int) - 1) with
  | none => .panic
  | some declaration =>
    if hasPrefix declaration "UNIXTIME".toList then
      let arg := declaration.drop 8
      let fmtmatch := findHexMarker arg
      let format := if fmtmatch.length > 0 then fmtmatch else ['%', 'd']
      let arg1 := if fmtmatch.length > 0 then stringsReplace arg fmtmatch [] (-1) else arg
      match parseTimeModifier arg1 with
      | .error e =>
        .fatal ("UNIXTIME macro ".toList ++ declaration ++ [':', ' '] ++ e)
      | .ok duration =>
        .ok { st with UnixtimeMacros := mapSet st.UnixtimeMacros tok ⟨duration, format⟩ }
    else .ok st

/-- Layout of the calendar macros. -/
def printTimeLayout : GoString := "2006-01-02 15:04:05".toList

/-- Embedding of `initPrintTimeMacro`. -/
def initPrintTimeMacro (st : State) (tok : GoString) : InitRes :=
  match goSlice tok 2 ((tok.length : Int) - 1) with
  | none => .panic
  | some declaration =>
    if hasPrefix declaration "TIME".toList then
      let arg := declaration.drop 4
      match parseTimeModifier arg with
      | .error e =>
        .fatal ("TIME macro ".toList ++ declaration ++ [':', ' '] ++ e)
      | .ok duration =>
        .ok { st with
              PrintTimeMacros := mapSet st.PrintTimeMacros tok ⟨duration, printTimeLayout⟩ }
    else .ok st

/-! ## Macro resolver -/

/-- Library functions and process environment that the resolver reads; they are
not part of the repository and stay parameters of the embedding. -/
structure Ext where
  /-- Lower-case hexadecimal text of `md5.Sum` of the bytes. -/
  md5Hex : GoString → GoString
  /-- Standard base-64 encoding `base64.StdEncoding.EncodeToString`. -/
  base64Encode : GoString → GoString
  /-- Process environment `os.Getenv`. -/
  getenv : GoString → GoString
  /-- Calendar rendering `Time.Format` of a time given in nanoseconds since the
  epoch, with a layout. -/
  timeFormat : Int → GoString → GoString
  /-- Pattern escaping `regexp.QuoteMeta`. -/
  quoteMeta : GoString → GoString

/-- Outcome of a resolution: a string, a run-time panic (index or slice bounds
out of range), or a nesting of `runnerMacro` deeper than the budget. -/
inductive Res where
  | ok (s : GoString)
  | panic
  | diverge
  deriving DecidableEq, Repr

/-- Substitution loop shared by `RunnerMacros`, `RunnerMacrosRegexp` and the
checksum and encoding branches of the resolver: for each token in turn, resolve
it with `rm`, post-process the value and replace every occurrence of the token
text in the current field. -/
def substLoop (rm : GoString → Res) (post : GoString → GoString) :
    List GoString → GoString → Res
  | [], field => .ok field
  | tok :: toks, field =>
    match rm tok with
    | .ok v => substLoop rm post toks (stringsReplace field tok (post v) (-1))
    | .panic => .panic
    | .diverge => .diverge

/-- Whether a declaration starts with a brace and `%` or `$` and ends with a
closing brace (the guard at the head of `runnerMacro` and `_runnerMacro`). -/
def wellFormed (declaration : GoString) : Bool :=
  (hasPrefix declaration ['{', '%'] || hasPrefix declaration ['{', '$']) &&
    hasSuffix declaration ['}']

/-- Milliseconds since the epoch of `reqTime.Add(duration)`, both in
nanoseconds: `UnixNano` wraps to `int64`, the division truncates. -/
def unixMillis (reqTime duration : Int) : Int :=
  Int.tdiv (wrap64 (reqTime + duration)) 1000000

/-- Embedding of `_runnerMacro`.  The nested calls of `runnerMacro` go through
the parameter `rm`; the reference time is in nanoseconds since the epoch. -/
def _runnerMacro (ext : Ext) (rm : GoString → Res) (st : State)
    (command declaration inputData : GoString) (sessionVars : GoMap GoString)
    (reqTime : Int) : Res :=
  if !wellFormed declaration then .ok []
  else
    match mapGet st.UnixtimeMacros declaration, mapGet st.PrintTimeMacros declaration with
    | some uxt, _ =>
      let timestamp := unixMillis reqTime uxt.duration
      match findHexWidth uxt.format with
      | none => .ok (fmtSprintf uxt.format timestamp)
      | some digits =>
        let fmtnum := strconvAtoi digits
        if fmtnum ≥ 12 then .ok (fmtSprintf uxt.format timestamp)
        else
          match goSlice (fmtSprintf "%012x".toList timestamp) 0 fmtnum with
          | some r => .ok r
          | none => .panic
    | none, some prt => .ok (ext.timeFormat (reqTime + prt.duration) prt.format)
    | none, none =>
      if declaration = "\x7b%KEY\x7d".toList then
        match goIndex (stringsSplit inputData st.KvDelimeter) 0 with
        | some r => .ok r
        | none => .panic
      else if declaration = "\x7b%VAL\x7d".toList then
        let arr := stringsSplit inputData st.KvDelimeter
        if arr.length > 1 then
          match goIndex arr 1 with
          | some r => .ok r
          | none => .panic
        else .ok []
      else if declaration = "\x7b%MD5SUM\x7d".toList then
        match substLoop rm id (mapSlice st.Md5Macros command)
            ((mapGet st.Md5Inputs command).getD []) with
        | .ok testMd5 => .ok ((ext.md5Hex testMd5).map Char.toUpper)
        | .panic => .panic
        | .diverge => .diverge
      else if declaration = "\x7b%BASE64ENC\x7d".toList then
        match substLoop rm id (mapSlice st.Base64Macros command)
            ((mapGet st.Base64Inputs command).getD []) with
        | .ok base64In => .ok (ext.base64Encode base64In)
        | .panic => .panic
        | .diverge => .diverge
      else if hasPrefix declaration ['{', '$'] then
        match goSlice declaration 2 ((declaration.length : Int) - 1) with
        | some name => .ok (ext.getenv name)
        | none => .panic
      else
        let i : Int :=
          match findCsvIndex declaration with
          | some digits => strconvAtoi digits
          | none => inputColumnIndex st declaration
        if i ≥ 0 then
          match goIndex (stringsSplit inputData st.KvDelimeter) i with
          | some r => .ok r
          | none => .panic
        else if declaration[1]? = some '%' then
          match goSlice declaration 2 ((declaration.length : Int) - 1) with
          | some session_var =>
            match mapGet sessionVars session_var with
            | some val => .ok val
            | none => .ok []
          | none => .panic
        else .ok []

/-- Embedding of `runnerMacro`.  The first argument bounds the nesting depth of
`runnerMacro` activations (the checksum and encoding branches of `_runnerMacro`
call it again); `Res.diverge` reports that the bound was reached. -/
def runnerMacro (ext : Ext) : Nat → State → GoString → GoString → GoString →
    GoMap GoString → Int → Res
  | 0, _, _, _, _, _, _ => .diverge
  | depth + 1, st, command, declaration, inputData, sessionVars, reqTime =>
    if !wellFormed declaration then .ok []
    else
      let rm : GoString → Res :=
        fun tok => runnerMacro ext depth st command tok inputData sessionVars reqTime
      match findSlice declaration with
      | none => _runnerMacro ext rm st command declaration inputData sessionVars reqTime
      | some (a, b) =>
        let declaration1 := stringsReplace declaration (sliceText a b) ['}'] 1
        match _runnerMacro ext rm st command declaration1 inputData sessionVars reqTime with
        | .ok result =>
          match goSlice result (strconvAtoi a) (strconvAtoi b) with
          | some r => .ok r
          | none => .panic
        | .panic => .panic
        | .diverge => .diverge

/-! ## Field renderer -/

/-- Embedding of `RunnerMacros`, with the nesting budget of `runnerMacro`. -/
def RunnerMacros (ext : Ext) (depth : Nat) (st : State) (command inputData : GoString)
    (sessionVars : GoMap GoString) (reqTime : Int) (field : GoString) : Res :=
  substLoop (fun tok => runnerMacro ext depth st command tok inputData sessionVars reqTime)
    id (mapSlice st.CommandMacros command) field

/-- Embedding of `RunnerMacrosRegexp`. -/
def RunnerMacrosRegexp (ext : Ext) (depth : Nat) (st : State) (command inputData : GoString)
    (sessionVars : GoMap GoString) (reqTime : Int) (field : GoString) : Res :=
  substLoop (fun tok => runnerMacro ext depth st command tok inputData sessionVars reqTime)
    ext.quoteMeta (mapSlice st.CommandMacros command) field

/-- Embedding of `SessionLogMacros`. -/
def SessionLogMacros (ext : Ext) (depth : Nat) (st : State) (inputData : GoString)
    (sessionVars : GoMap GoString) (logTime : Int) (initial : GoString) : Res :=
  RunnerMacros ext depth st sessionLogCommand inputData sessionVars logTime initial

/-- An environment for evaluating examples: checksum and encoding are tagged
copies of their input, the process environment is empty. -/
def Ext.sample : Ext :=
  { md5Hex := fun s => "md5:".toList ++ s,
    base64Encode := fun s => "b64:".toList ++ s,
    getenv := fun _ => [],
    timeFormat := fun _ layout => layout,
    quoteMeta := fun s => s }

/-! ## Specification-side definitions -/

/-- Update of one token list by `addCommandMacro` and its two siblings. -/
def addUnique (l : List GoString) (tok : GoString) : List GoString :=
  if arrayContains l tok then l else l ++ [tok]

/-- Distinct elements of a list in the order of their first occurrence. -/
def firstSeen : List GoString → List GoString
  | [] => []
  | x :: xs => x :: (firstSeen xs).filter (fun y => decide (y ≠ x))

/-- One call of the registry-building interface. -/
inductive InitCall where
  | initMacros (cmd field : GoString)
  | initSessionLogMacros (sessionLog : GoString)
  | initMd5Macro (cmd md5Input : GoString)
  | initBase64Macro (cmd base64Input : GoString)
  deriving DecidableEq, Repr

/-- Effect of one registry-building call on the package state. -/
def InitCall.apply (st : State) : InitCall → State
  | .initMacros cmd field => InitMacros st cmd field
  | .initSessionLogMacros sessionLog => InitSessionLogMacros st sessionLog
  | .initMd5Macro cmd md5Input => InitMd5Macro st cmd md5Input
  | .initBase64Macro cmd base64Input => InitBase64Macro st cmd base64Input

/-- State reached from the initial one by a sequence of registry-building calls. -/
def runCalls (calls : List InitCall) : State :=
  calls.foldl InitCall.apply State.initial

/-- Every list stored in a slice-valued map is free of duplicates. -/
def AllNodup (m : GoMap (List GoString)) : Prop :=
  ∀ p ∈ m, p.2.Nodup

/-- Every list of the three registries is free of duplicates. -/
def RegistriesNodup (st : State) : Prop :=
  AllNodup st.CommandMacros ∧ AllNodup st.Md5Macros ∧ AllNodup st.Base64Macros

/-- Whether a resolution returned a string. -/
def Res.isOk : Res → Bool
  | .ok _ => true
  | _ => false

/-- String returned by a resolution (empty when it did not return). -/
def Res.value : Res → GoString
  | .ok s => s
  | _ => []

/-- Sequential substitution: one replace-all pass per token, in list order, each
pass working on the output of the previous one. -/
def substSequential (value : GoString → GoString) (toks : List GoString)
    (field : GoString) : GoString :=
  toks.foldl (fun f tok => stringsReplace f tok (value tok) (-1)) field

/-- Simultaneous substitution of the tokens of a list of token and value pairs:
the text is read once from left to right; where a token occurs its value is
written and reading resumes after the occurrence, so that a written value is
never read again.  The counter bounds the number of steps. -/
def substSimultaneous (pairs : List (GoString × GoString)) : Nat → GoString → GoString
  | 0, s => s
  | _ + 1, [] => []
  | k + 1, c :: cs =>
    match pairs.find? (fun p => decide (p.1 ≠ []) && p.1.isPrefixOf (c :: cs)) with
    | some p => p.2 ++ substSimultaneous pairs k ((c :: cs).drop p.1.length)
    | none => c :: substSimultaneous pairs k cs

/-- Session variables of the re-expansion example: `A` holds the text of the
token `{%B}` and `B` holds `x`. -/
def reexpandVars : GoMap GoString :=
  [("A".toList, "\x7b%B\x7d".toList), ("B".toList, "x".toList)]

/-- State of the re-expansion example: command `c` with one registered field
made of the tokens `{%A}` and `{%B}`. -/
def reexpandState : State :=
  InitMacros State.initial "c".toList ("\x7b%A\x7d".toList ++ "\x7b%B\x7d".toList)

/-- Value of a string of decimal digits. -/
def decimalValue (ds : GoString) : Nat :=
  ds.foldl (fun n c => 10 * n + (c.toNat - 48)) 0

/-- Units of the time-modifier grammar with their length in nanoseconds:
second, minute of 60 s, hour of 3600 s, day of 24 h, month of 30 days. -/
def timeUnits : List (GoString × Int) :=
  [("SECOND".toList, 1000000000), ("SECONDS".toList, 1000000000),
   ("MINUTE".toList, 60 * 1000000000), ("MINUTES".toList, 60 * 1000000000),
   ("HOUR".toList, 3600 * 1000000000), ("HOURS".toList, 3600 * 1000000000),
   ("DAY".toList, 24 * (3600 * 1000000000)), ("DAYS".toList, 24 * (3600 * 1000000000)),
   ("MONTH".toList, 720 * (3600 * 1000000000)), ("MONTHS".toList, 720 * (3600 * 1000000000))]

/-- Sign character of a time modifier. -/
def signChar (neg : Bool) : Char := if neg then '-' else '+'

/-- Sign factor of a time modifier. -/
def signFactor (neg : Bool) : Int := if neg then -1 else 1

/-- State of the column-header example: the header line `id,name,amount` read
into the initial state. -/
def headerState : State :=
  HeadInputColumns State.initial "id,name,amount".toList

/-- The separator `sep` occurs in `s`. -/
def Occurs (sep s : GoString) : Prop :=
  ∃ p q, s = p ++ sep ++ q

/-- The string `s` is `a`, then the first occurrence of `sep` in `s`, then `b`. -/
def FirstCut (sep s a b : GoString) : Prop :=
  s = a ++ sep ++ b ∧ ∀ p q, s = p ++ sep ++ q → a.length ≤ p.length

/-- Keys of the two time-macro maps are tokens whose inner declaration starts
with `UNIXTIME`, respectively `TIME`: the only entries that `initUnixtimeMacro`
and `initPrintTimeMacro` write. -/
def TimeKeysCompiled (st : State) : Prop :=
  (∀ k u, mapGet st.UnixtimeMacros k = some u →
      hasPrefix (k.drop 2) "UNIXTIME".toList = true) ∧
  (∀ k u, mapGet st.PrintTimeMacros k = some u →
      hasPrefix (k.drop 2) "TIME".toList = true)

/-- The token `{%KEY}`. -/
def keyToken : GoString := "\x7b%KEY\x7d".toList

/-- The token `{%VAL}`. -/
def valToken : GoString := "\x7b%VAL\x7d".toList

/-- Hexadecimal text of an integer, zero padded to 12 characters, the sign
included in the width (what the format `%012x` denotes). -/
def zeroPaddedHex12 (v : Int) : GoString :=
  if v < 0 then '-' :: padLeft '0' 11 (Nat.toDigits 16 v.natAbs)
  else padLeft '0' 12 (Nat.toDigits 16 v.natAbs)

/-- Decimal text of an integer (what the format `%d` denotes). -/
def decimalText (v : Int) : GoString :=
  if v < 0 then '-' :: Nat.toDigits 10 v.natAbs else Nat.toDigits 10 v.natAbs

/-- State of the epoch-macro examples: one macro with a four-hour offset and the
format `%8x`, compiled from the initial state. -/
def hexState : State :=
  match initUnixtimeMacro State.initial "\x7b%UNIXTIME+4HOURS%8x\x7d".toList with
  | .ok st => st
  | _ => State.initial

/-- The text holds a format marker: a percent sign, a run of decimal digits
(possibly empty) and the letter `x`. -/
def HasHexMarker (arg : GoString) : Prop :=
  ∃ pre N post, (∀ c ∈ N, c.isDigit = true) ∧ arg = pre ++ '%' :: (N ++ 'x' :: post)

/-- The text holds a format marker with a width: a percent sign, a non-empty
run of decimal digits and the letter `x`. -/
def HasHexWidthMarker (arg : GoString) : Prop :=
  ∃ pre N post, N ≠ [] ∧ (∀ c ∈ N, c.isDigit = true) ∧ arg = pre ++ '%' :: (N ++ 'x' :: post)

/-- The token whose inner declaration is `UNIXTIME` followed by `arg`. -/
def unixtimeToken (arg : GoString) : GoString :=
  "\x7b%UNIXTIME".toList ++ arg ++ ['}']

/-- State of the bare-marker example: the macro `{%UNIXTIME%x}` compiled from
the initial state. -/
def bareHexState : State :=
  match initUnixtimeMacro State.initial (unixtimeToken "%x".toList) with
  | .ok st => st
  | _ => State.initial

/-! ## `InitUnixtimeMacros` -/

/-- Body of the inner loops of `InitUnixtimeMacros`: `initUnixtimeMacro` and then
`initPrintTimeMacro` on one token; `log.Fatalf` and a panic stop the process. -/
def compileToken (st : State) (tok : GoString) : InitRes :=
  match initUnixtimeMacro st tok with
  | .ok st1 => initPrintTimeMacro st1 tok
  | .fatal msg => .fatal msg
  | .panic => .panic

/-- Inner loop of `InitUnixtimeMacros` over the token list of one command. -/
def compileTokens : List GoString → State → InitRes
  | [], st => .ok st
  | tok :: toks, st =>
    match compileToken st tok with
    | .ok st1 => compileTokens toks st1
    | .fatal msg => .fatal msg
    | .panic => .panic

/-- Outer loop of `InitUnixtimeMacros` over the entries of one registry, in the
order in which they are listed. -/
def compileRegistry : GoMap (List GoString) → State → InitRes
  | [], st => .ok st
  | (_, toks) :: m, st =>
    match compileTokens toks st with
    | .ok st1 => compileRegistry m st1
    | .fatal msg => .fatal msg
    | .panic => .panic

/-- Embedding of `InitUnixtimeMacros`.  Go does not fix the order in which
`range` visits the entries of a map: the first three arguments list the entries
of `CommandMacros`, `Base64Macros` and `Md5Macros` in the order of the visit. -/
def InitUnixtimeMacrosIn (oc ob om : GoMap (List GoString)) (st : State) : InitRes :=
  let st0 : State := { st with PrintTimeMacros := [], UnixtimeMacros := [] }
  match compileRegistry oc st0 with
  | .ok st1 =>
    match compileRegistry ob st1 with
    | .ok st2 => compileRegistry om st2
    | .fatal msg => .fatal msg
    | .panic => .panic
  | .fatal msg => .fatal msg
  | .panic => .panic

/-- The visit of `InitUnixtimeMacros` in the order in which the association lists
store the entries. -/
def InitUnixtimeMacros (st : State) : InitRes :=
  InitUnixtimeMacrosIn st.CommandMacros st.Base64Macros st.Md5Macros st

/-- The three lists are a visiting order of the three registries of the state. -/
def VisitOrder (oc ob om : GoMap (List GoString)) (st : State) : Prop :=
  oc.Perm st.CommandMacros ∧ ob.Perm st.Base64Macros ∧ om.Perm st.Md5Macros

/-- All tokens stored in a registry. -/
def flatTokens (m : GoMap (List GoString)) : List GoString :=
  (m.map (fun p => p.2)).flatten

/-- All tokens of the main, encoding-scoped and checksum-scoped registries. -/
def registryTokens (st : State) : List GoString :=
  flatTokens st.CommandMacros ++ flatTokens st.Base64Macros ++ flatTokens st.Md5Macros

/-- Inner declaration of a token: the text between its first two characters and
its last one. -/
def innerDecl (tok : GoString) : GoString :=
  (tok.drop 2).dropLast

/-- Modifier of a `UNIXTIME` declaration: the text after the name, with every
occurrence of the format marker removed. -/
def unixtimeModifier (decl : GoString) : GoString :=
  if (findHexMarker (decl.drop 8)).length > 0 then
    stringsReplace (decl.drop 8) (findHexMarker (decl.drop 8)) [] (-1)
  else decl.drop 8

/-- Format of a `UNIXTIME` declaration: its marker, or the decimal format. -/
def unixtimeFormat (decl : GoString) : GoString :=
  if (findHexMarker (decl.drop 8)).length > 0 then findHexMarker (decl.drop 8) else ['%', 'd']

/-- Whether `parseTimeModifier` rejects the text. -/
def rejected (arg : GoString) : Bool :=
  match parseTimeModifier arg with
  | .ok _ => false
  | .error _ => true

/-- Whether the token is a `UNIXTIME` macro with a rejected modifier. -/
def badUnixtime (tok : GoString) : Bool :=
  hasPrefix (innerDecl tok) "UNIXTIME".toList && rejected (unixtimeModifier (innerDecl tok))

/-- Whether the token is a `TIME` macro with a rejected modifier. -/
def badPrintTime (tok : GoString) : Bool :=
  hasPrefix (innerDecl tok) "TIME".toList && rejected ((innerDecl tok).drop 4)

/-- Message of `log.Fatalf` for a `UNIXTIME` macro with a rejected modifier. -/
def unixtimeFatal (tok : GoString) : GoString :=
  "UNIXTIME macro ".toList ++ innerDecl tok ++ [':', ' '] ++
    notSupported (unixtimeModifier (innerDecl tok))

/-- Message of `log.Fatalf` for a `TIME` macro with a rejected modifier. -/
def printTimeFatal (tok : GoString) : GoString :=
  "TIME macro ".toList ++ innerDecl tok ++ [':', ' '] ++ notSupported ((innerDecl tok).drop 4)

/-- The time-macro maps of the state hold the entry of the token: for a
`UNIXTIME` declaration the parsed offset and its format in `UnixtimeMacros`, for
a `TIME` declaration the parsed offset and the calendar layout in
`PrintTimeMacros`. -/
def Compiled (st : State) (tok : GoString) : Prop :=
  (hasPrefix (innerDecl tok) "UNIXTIME".toList = true →
    ∃ d, parseTimeModifier (unixtimeModifier (innerDecl tok)) = .ok d ∧
      mapGet st.UnixtimeMacros tok = some ⟨d, unixtimeFormat (innerDecl tok)⟩) ∧
  (hasPrefix (innerDecl tok) "TIME".toList = true →
    ∃ d, parseTimeModifier ((innerDecl tok).drop 4) = .ok d ∧
      mapGet st.PrintTimeMacros tok = some ⟨d, printTimeLayout⟩)

/-- The characters that `regexp.QuoteMeta` escapes. -/
def regexpMeta : GoString :=
  ['\\', '.', '+', '*', '?', '(', ')', '|', '[', ']', '{', '}', '^', '$']

/-- Model of `regexp.QuoteMeta`: a backslash is put before every metacharacter. -/
def regexpQuoteMeta (s : GoString) : GoString :=
  s.flatMap (fun c => if c ∈ regexpMeta then ['\\', c] else [c])

/-- Post-processing of the string returned by a resolution. -/
def Res.map (f : GoString → GoString) : Res → Res
  | .ok s => .ok (f s)
  | .panic => .panic
  | .diverge => .diverge

/-- The sample environment with the model of `regexp.QuoteMeta` for its pattern
escaping. -/
def Ext.quoting : Ext :=
  { Ext.sample with quoteMeta := regexpQuoteMeta }

/-- Session variables of the escaping example: `A` holds `a.b` and `B` holds
`x`. -/
def quotingVars : GoMap GoString :=
  [("A".toList, "a.b".toList), ("B".toList, "x".toList)]

/-- State of the time-macro examples: command `c` with a field that holds an
epoch macro, a calendar macro and `{%KEY}`. -/
def timeState : State :=
  InitMacros State.initial "c".toList
    "\x7b%UNIXTIME+4HOURS%8x\x7d \x7b%TIME-2DAYS\x7d \x7b%KEY\x7d".toList

/-- The state of the time-macro examples after `InitUnixtimeMacros`. -/
def compiledTimeState : State :=
  match InitUnixtimeMacros timeState with
  | .ok st => st
  | _ => State.initial

/-- The sample environment with the variable `TIME` set to `noon`. -/
def Ext.withEnv : Ext :=
  { Ext.sample with getenv := fun name => if name = "TIME".toList then "noon".toList else [] }

/-- State of the environment-macro example: command `c` with a field made of the
token `{$TIME}`. -/
def envTimeState : State :=
  InitMacros State.initial "c".toList "\x7b$TIME\x7d".toList

/-- The state of the environment-macro example after `InitUnixtimeMacros`. -/
def compiledEnvTimeState : State :=
  match InitUnixtimeMacros envTimeState with
  | .ok st => st
  | _ => State.initial

/-- The token that `HeadInputColumns` builds from a header name. -/
def colToken (v : GoString) : GoString :=
  '{' :: '%' :: v ++ ['}']

/-- The indexed column form with the given digits. -/
def csvToken (ds : GoString) : GoString :=
  csvOpen ++ ds ++ [']', '}']

/-- Names of the built-in macros that the resolver handles before the columns. -/
def builtinNames : List GoString :=
  ["KEY".toList, "VAL".toList, "MD5SUM".toList, "BASE64ENC".toList]

/-- State of the sliced-header example: the header line `a[0:1],b` read into the
initial state. -/
def sliceHeaderState : State :=
  HeadInputColumns State.initial "a[0:1],b".toList

/-- The token `{%MD5SUM}`. -/
def md5sumToken : GoString := "\x7b%MD5SUM\x7d".toList

/-- The token `{%BASE64ENC}`. -/
def base64Token : GoString := "\x7b%BASE64ENC\x7d".toList

/-- The lower-case hexadecimal digits. -/
def lowerHexDigits : GoString := "0123456789abcdef".toList

/-- The upper-case hexadecimal digits. -/
def upperHexDigits : GoString := "0123456789ABCDEF".toList

/-- The checksum of the environment is the text of a 128-bit digest: 32
lower-case hexadecimal digits (what `fmt.Sprintf("%x", md5.Sum(b))` returns). -/
def HexDigest (ext : Ext) : Prop :=
  ∀ s, (ext.md5Hex s).length = 32 ∧ ∀ c ∈ ext.md5Hex s, c ∈ lowerHexDigits

/-- The sample environment with a toy digest of 32 hexadecimal digits, which
only tells texts of even length from texts of odd length. -/
def Ext.digest : Ext :=
  { Ext.sample with
    md5Hex := fun s => List.replicate 32 (if s.length % 2 = 0 then 'a' else '0') }

/-- State of the checksum example: command `c` with the checksum input template
`{%KEY}-secret`. -/
def md5State : State :=
  InitMd5Macro State.initial "c".toList "\x7b%KEY\x7d-secret".toList

/-- Base form of a token: the token with its slice annotation, if it carries
one, replaced by the closing brace (the declaration that `runnerMacro` hands to
`_runnerMacro`). -/
def baseForm (tok : GoString) : GoString :=
  match findSlice tok with
  | none => tok
  | some (a, b) => stringsReplace tok (sliceText a b) ['}'] 1

/-- No token of the command's checksum-scoped and encoding-scoped lists has the
checksum or the encoding macro for its base form. -/
def NoCompositeNesting (st : State) (command : GoString) : Prop :=
  ∀ t ∈ mapSlice st.Md5Macros command ++ mapSlice st.Base64Macros command,
    baseForm t ≠ md5sumToken ∧ baseForm t ≠ base64Token

/-- State of the nesting example: command `c` with the checksum template
`{%KEY}-secret`, the encoding template `{%VAL[0:1]}` and a field that uses both
composite macros. -/
def nestingState : State :=
  InitMacros
    (InitBase64Macro (InitMd5Macro State.initial "c".toList "\x7b%KEY\x7d-secret".toList)
      "c".toList "\x7b%VAL[0:1]\x7d".toList)
    "c".toList "\x7b%MD5SUM\x7d \x7b%BASE64ENC\x7d".toList

/-- Whether the token is a time macro with a rejected modifier. -/
def badTimeToken (tok : GoString) : Bool :=
  badUnixtime tok || badPrintTime tok

/-- The message is the one that `log.Fatalf` writes for the token: the token is
a time macro with a rejected modifier, and the message names its declaration
and the modifier. -/
def FatalFor (tok msg : GoString) : Prop :=
  (badUnixtime tok = true ∧ msg = unixtimeFatal tok) ∨
  (badPrintTime tok = true ∧ msg = printTimeFatal tok)

/-- The modifier text of a time macro that is handed to `parseTimeModifier`. -/
def offendingModifier (tok : GoString) : GoString :=
  if hasPrefix (innerDecl tok) "UNIXTIME".toList then unixtimeModifier (innerDecl tok)
  else (innerDecl tok).drop 4

/-- State of the rejected-modifier example: command `c` with a field that holds
`{%KEY}` and the calendar macro `{%TIME+4BANANAS}`. -/
def badTimeState : State :=
  InitMacros State.initial "c".toList "\x7b%KEY\x7d \x7b%TIME+4BANANAS\x7d".toList

/-- Shape of a token found by scanning a field: the opening brace, the sigil `%`
or `$`, a body without closing brace and without newline, the closing brace. -/
def Scanned (tok : GoString) : Prop :=
  ∃ sigil body, tok = '{' :: sigil :: (body ++ ['}']) ∧ (sigil = '%' ∨ sigil = '$') ∧
    '}' ∉ body ∧ '\n' ∉ body

/-- Every token stored in a slice-valued map has the shape of a scanned token. -/
def AllScanned (m : GoMap (List GoString)) : Prop :=
  ∀ p ∈ m, ∀ t ∈ p.2, Scanned t

/-- Registration calls of the sliced time-macro example: command `c` with a field
made of the token `{%UNIXTIME[0:10]}`. -/
def slicedTimeCalls : List InitCall :=
  [.initMacros "c".toList "\x7b%UNIXTIME[0:10]\x7d".toList]

/-- Sequencing of two steps of initialization: the second runs on the state
that the first returns. -/
def InitRes.andThen (r : InitRes) (f : State → InitRes) : InitRes :=
  match r with
  | .ok st => f st
  | .fatal msg => .fatal msg
  | .panic => .panic

/-- Text of a slice annotation with the given bounds, up to its closing bracket
(the brace that ends the token left out). -/
def sliceBrackets (a b : GoString) : GoString :=
  '[' :: a ++ ':' :: b ++ [']']

/-- State of the self-referring checksum example: command `c` with the checksum
input template `{%MD5SUM}`. -/
def selfMd5State : State :=
  InitMd5Macro State.initial "c".toList "\x7b%MD5SUM\x7d".toList

/-- State of the short-row checksum example: command `c` with the checksum input
template `{%CSV[9]}`. -/
def shortRowMd5State : State :=
  InitMd5Macro State.initial "c".toList "\x7b%CSV[9]\x7d".toList

/-! # Properties -/

/-! ## Go maps -/

theorem mapGet_mapSet_same {V : Type} (m : GoMap V) (k : GoString) (v : V) :
    mapGet (mapSet m k v) k = some v := by
  induction m with
  | nil => simp [mapSet, mapGet]
  | cons p m ih =>
    obtain ⟨k1, v1⟩ := p
    by_cases h : k = k1
    · simp [mapSet, mapGet, h]
    · simp [mapSet, mapGet, h, ih]

theorem mapGet_mapSet_other {V : Type} (m : GoMap V) {k k2 : GoString} (h : k2 ≠ k) (v : V) :
    mapGet (mapSet m k v) k2 = mapGet m k2 := by
  induction m with
  | nil => simp [mapSet, mapGet, h]
  | cons p m ih =>
    obtain ⟨k1, v1⟩ := p
    by_cases h1 : k = k1
    · subst h1
      simp [mapSet, mapGet, h]
    · by_cases h2 : k2 = k1
      · simp [mapSet, mapGet, h1, h2]
      · simp [mapSet, mapGet, h1, h2, ih]

theorem mem_of_mapGet {V : Type} (m : GoMap V) (k : GoString) (v : V)
    (h : mapGet m k = some v) : ∃ k1, (k1, v) ∈ m := by
  induction m with
  | nil => simp [mapGet] at h
  | cons p m ih =>
    obtain ⟨k1, v1⟩ := p
    by_cases hk : k = k1
    · simp [mapGet, hk] at h
      exact ⟨k1, by simp [h]⟩
    · simp [mapGet, hk] at h
      obtain ⟨k2, h2⟩ := ih h
      exact ⟨k2, List.mem_cons_of_mem _ h2⟩

theorem mem_mapSet {V : Type} (m : GoMap V) (k : GoString) (v : V) (p : GoString × V)
    (h : p ∈ mapSet m k v) : p = (k, v) ∨ p ∈ m := by
  induction m with
  | nil => simpa [mapSet] using h
  | cons q m ih =>
    obtain ⟨k1, v1⟩ := q
    by_cases hk : k = k1
    · simp [mapSet, hk] at h
      rcases h with h | h
      · left; simp [h, hk]
      · right; exact List.mem_cons_of_mem _ h
    · simp [mapSet, hk] at h
      rcases h with h | h
      · right; simp [h]
      · rcases ih h with h1 | h1
        · left; exact h1
        · right; exact List.mem_cons_of_mem _ h1

theorem mapSlice_mapSet_same (m : GoMap (List GoString)) (k : GoString) (v : List GoString) :
    mapSlice (mapSet m k v) k = v := by
  simp [mapSlice, mapGet_mapSet_same]

theorem mapSlice_mapSet_other (m : GoMap (List GoString)) {k k2 : GoString} (h : k2 ≠ k)
    (v : List GoString) : mapSlice (mapSet m k v) k2 = mapSlice m k2 := by
  simp [mapSlice, mapGet_mapSet_other m h]

/-! ## Registry updates -/

theorem arrayContains_iff (l : List GoString) (t : GoString) :
    arrayContains l t = true ↔ t ∈ l := by
  induction l with
  | nil => simp [arrayContains]
  | cons a l ih =>
    by_cases h : t = a
    · simp [arrayContains, h]
    · simp [arrayContains, h, ih]

theorem mapSlice_addMacroTo_same (m : GoMap (List GoString)) (cmd t : GoString) :
    mapSlice (addMacroTo m cmd t) cmd = addUnique (mapSlice m cmd) t := by
  unfold addMacroTo addUnique
  by_cases h : arrayContains (mapSlice m cmd) t = true
  · simp [h]
  · simp [h, mapSlice_mapSet_same]

theorem mapSlice_addMacroTo_other (m : GoMap (List GoString)) {cmd cmd2 : GoString}
    (h : cmd2 ≠ cmd) (t : GoString) :
    mapSlice (addMacroTo m cmd t) cmd2 = mapSlice m cmd2 := by
  unfold addMacroTo
  by_cases hc : arrayContains (mapSlice m cmd) t = true
  · simp [hc]
  · simp [hc, mapSlice_mapSet_other m h]

theorem mapSlice_foldl_addMacroTo_same (toks : List GoString) (m : GoMap (List GoString))
    (cmd : GoString) :
    mapSlice (toks.foldl (fun a t => addMacroTo a cmd t) m) cmd
      = toks.foldl addUnique (mapSlice m cmd) := by
  induction toks generalizing m with
  | nil => rfl
  | cons t toks ih => simp [List.foldl_cons, ih, mapSlice_addMacroTo_same]

theorem mapSlice_foldl_addMacroTo_other (toks : List GoString) (m : GoMap (List GoString))
    {cmd cmd2 : GoString} (h : cmd2 ≠ cmd) :
    mapSlice (toks.foldl (fun a t => addMacroTo a cmd t) m) cmd2 = mapSlice m cmd2 := by
  induction toks generalizing m with
  | nil => rfl
  | cons t toks ih => simp [List.foldl_cons, ih, mapSlice_addMacroTo_other m h]

theorem foldl_addCommandMacro (toks : List GoString) (st : State) (cmd : GoString) :
    toks.foldl (fun s t => addCommandMacro s cmd t) st
      = { st with CommandMacros := toks.foldl (fun a t => addMacroTo a cmd t) st.CommandMacros } := by
  induction toks generalizing st with
  | nil => rfl
  | cons t toks ih => rw [List.foldl_cons, ih]; rfl

theorem foldl_addMd5Macro (toks : List GoString) (st : State) (cmd : GoString) :
    toks.foldl (fun s t => addMd5Macro s cmd t) st
      = { st with Md5Macros := toks.foldl (fun a t => addMacroTo a cmd t) st.Md5Macros } := by
  induction toks generalizing st with
  | nil => rfl
  | cons t toks ih => rw [List.foldl_cons, ih]; rfl

theorem foldl_addBase64Macro (toks : List GoString) (st : State) (cmd : GoString) :
    toks.foldl (fun s t => addBase64Macro s cmd t) st
      = { st with Base64Macros := toks.foldl (fun a t => addMacroTo a cmd t) st.Base64Macros } := by
  induction toks generalizing st with
  | nil => rfl
  | cons t toks ih => rw [List.foldl_cons, ih]; rfl

theorem foldl_addUnique_eq (xs acc : List GoString) :
    xs.foldl addUnique acc = acc ++ (firstSeen xs).filter (fun y => decide (y ∉ acc)) := by
  induction xs generalizing acc with
  | nil => simp [firstSeen]
  | cons x xs ih =>
    rw [List.foldl_cons, ih]
    by_cases hx : x ∈ acc
    · have hc : arrayContains acc x = true := (arrayContains_iff acc x).2 hx
      simp only [addUnique, hc, if_true, firstSeen]
      congr 1
      rw [List.filter_cons]
      simp only [hx, not_true_eq_false, decide_False, Bool.false_eq_true, if_false]
      rw [List.filter_filter]
      apply List.filter_congr
      intro y _
      by_cases hy : y ∈ acc
      · simp [hy]
      · have : y ≠ x := fun e => hy (e ▸ hx)
        simp [hy, this]
    · have hc : ¬ arrayContains acc x = true := fun h => hx ((arrayContains_iff acc x).1 h)
      simp only [addUnique, hc, if_false, firstSeen, Bool.false_eq_true]
      rw [List.append_assoc]
      congr 1
      rw [List.filter_cons]
      simp only [hx, not_false_eq_true, decide_True, if_true, List.singleton_append]
      congr 1
      rw [List.filter_filter]
      apply List.filter_congr
      intro y _
      by_cases hy : y ∈ acc
      · simp [hy]
      · by_cases hyx : y = x
        · simp [hyx]
        · simp [hy, hyx]

theorem mem_of_mem_firstSeen (xs : List GoString) (x : GoString) (h : x ∈ firstSeen xs) :
    x ∈ xs := by
  induction xs with
  | nil => simp [firstSeen] at h
  | cons a xs ih =>
    simp only [firstSeen, List.mem_cons, List.mem_filter] at h
    rcases h with h | h
    · simp [h]
    · exact List.mem_cons_of_mem _ (ih h.1)

theorem tokenAt_head (sigil : Char) (s m rest : GoString)
    (h : tokenAt sigil s = some (m, rest)) : ∃ r, m = '{' :: sigil :: r := by
  match s, h with
  | c0 :: c1 :: t, h =>
    simp only [tokenAt] at h
    split at h
    · rename_i hc
      cases hl : lazyToBrace t with
      | none => simp [hl] at h
      | some p =>
        rw [hl] at h
        simp only [Option.map_some', Option.some.injEq, Prod.mk.injEq] at h
        exact ⟨p.1, by rw [← h.1, hc.1, hc.2]⟩
    · simp at h

theorem findAllLoop_head (sigil : Char) (k : Nat) (s m : GoString)
    (h : m ∈ findAllLoop sigil k s) : ∃ r, m = '{' :: sigil :: r := by
  induction k generalizing s with
  | zero => simp [findAllLoop] at h
  | succ k ih =>
    cases s with
    | nil => simp [findAllLoop] at h
    | cons c cs =>
      simp only [findAllLoop] at h
      cases ht : tokenAt sigil (c :: cs) with
      | none =>
        simp only [ht] at h
        exact ih cs h
      | some p =>
        obtain ⟨m1, rest⟩ := p
        simp only [ht, List.mem_cons] at h
        rcases h with h | h
        · subst h
          exact tokenAt_head sigil _ _ _ ht
        · exact ih rest h

theorem mapSlice_InitMacros_same (st : State) (cmd field : GoString) :
    mapSlice (InitMacros st cmd field).CommandMacros cmd
      = (findAllTokens '$' field).foldl addUnique
          ((findAllTokens '%' field).foldl addUnique (mapSlice st.CommandMacros cmd)) := by
  unfold InitMacros
  simp only [foldl_addCommandMacro, mapSlice_foldl_addMacroTo_same]
  cases h : mapGet st.CommandMacros cmd with
  | none => simp [mapSlice, h, mapGet_mapSet_same]
  | some l => rfl

theorem mapSlice_InitMacros_other (st : State) {cmd cmd2 : GoString} (h : cmd2 ≠ cmd)
    (field : GoString) :
    mapSlice (InitMacros st cmd field).CommandMacros cmd2 = mapSlice st.CommandMacros cmd2 := by
  unfold InitMacros
  simp only [foldl_addCommandMacro, mapSlice_foldl_addMacroTo_other _ _ h]
  cases hg : mapGet st.CommandMacros cmd with
  | none => simp [mapSlice_mapSet_other _ h]
  | some l => rfl

theorem prefix_foldl_addUnique (xs acc : List GoString) : acc <+: xs.foldl addUnique acc := by
  rw [foldl_addUnique_eq]
  exact List.prefix_append _ _

theorem nodup_addUnique (l : List GoString) (t : GoString) (h : l.Nodup) :
    (addUnique l t).Nodup := by
  unfold addUnique
  by_cases hc : arrayContains l t = true
  · simpa [hc] using h
  · have hn : t ∉ l := fun hm => hc ((arrayContains_iff l t).2 hm)
    simp only [hc, Bool.false_eq_true, if_false]
    exact List.Nodup.append h (List.nodup_singleton t) (by simpa using hn)

theorem allNodup_mapSet (m : GoMap (List GoString)) (k : GoString) (v : List GoString)
    (hm : AllNodup m) (hv : v.Nodup) : AllNodup (mapSet m k v) := by
  intro p hp
  rcases mem_mapSet m k v p hp with h | h
  · rw [h]; exact hv
  · exact hm p h

theorem nodup_mapSlice (m : GoMap (List GoString)) (k : GoString) (hm : AllNodup m) :
    (mapSlice m k).Nodup := by
  unfold mapSlice
  cases h : mapGet m k with
  | none => simp
  | some l =>
    obtain ⟨k1, hk⟩ := mem_of_mapGet m k l h
    simpa using hm _ hk

theorem allNodup_addMacroTo (m : GoMap (List GoString)) (cmd t : GoString) (hm : AllNodup m) :
    AllNodup (addMacroTo m cmd t) := by
  unfold addMacroTo
  by_cases hc : arrayContains (mapSlice m cmd) t = true
  · simpa [hc] using hm
  · simp only [hc, Bool.not_false, if_true]
    apply allNodup_mapSet m cmd _ hm
    have := nodup_addUnique (mapSlice m cmd) t (nodup_mapSlice m cmd hm)
    simpa [addUnique, hc] using this

theorem allNodup_foldl_addMacroTo (toks : List GoString) (m : GoMap (List GoString))
    (cmd : GoString) (hm : AllNodup m) :
    AllNodup (toks.foldl (fun a t => addMacroTo a cmd t) m) := by
  induction toks generalizing m with
  | nil => exact hm
  | cons t toks ih => exact ih _ (allNodup_addMacroTo m cmd t hm)

theorem registriesNodup_InitMacros (st : State) (cmd field : GoString)
    (h : RegistriesNodup st) : RegistriesNodup (InitMacros st cmd field) := by
  obtain ⟨h1, h2, h3⟩ := h
  unfold InitMacros
  simp only [foldl_addCommandMacro]
  refine ⟨?_, ?_, ?_⟩
  · apply allNodup_foldl_addMacroTo
    apply allNodup_foldl_addMacroTo
    cases hg : mapGet st.CommandMacros cmd with
    | none => exact allNodup_mapSet _ _ _ h1 List.nodup_nil
    | some l => exact h1
  · cases hg : mapGet st.CommandMacros cmd <;> exact h2
  · cases hg : mapGet st.CommandMacros cmd <;> exact h3

theorem registriesNodup_InitMd5Macro (st : State) (cmd md5Input : GoString)
    (h : RegistriesNodup st) : RegistriesNodup (InitMd5Macro st cmd md5Input) := by
  obtain ⟨h1, h2, h3⟩ := h
  unfold InitMd5Macro
  by_cases he : md5Input.length = 0
  · simpa [he] using ⟨h1, h2, h3⟩
  · simp only [he, if_false, foldl_addMd5Macro]
    refine ⟨h1, ?_, h3⟩
    apply allNodup_foldl_addMacroTo
    apply allNodup_foldl_addMacroTo
    exact allNodup_mapSet _ _ _ h2 List.nodup_nil

theorem registriesNodup_InitBase64Macro (st : State) (cmd base64Input : GoString)
    (h : RegistriesNodup st) : RegistriesNodup (InitBase64Macro st cmd base64Input) := by
  obtain ⟨h1, h2, h3⟩ := h
  unfold InitBase64Macro
  by_cases he : base64Input.length = 0
  · simpa [he] using ⟨h1, h2, h3⟩
  · simp only [he, if_false, foldl_addBase64Macro]
    refine ⟨h1, h2, ?_⟩
    apply allNodup_foldl_addMacroTo
    apply allNodup_foldl_addMacroTo
    exact allNodup_mapSet _ _ _ h3 List.nodup_nil

theorem registriesNodup_apply (st : State) (c : InitCall) (h : RegistriesNodup st) :
    RegistriesNodup (c.apply st) := by
  cases c with
  | initMacros cmd field => exact registriesNodup_InitMacros st cmd field h
  | initSessionLogMacros sessionLog => exact registriesNodup_InitMacros st _ sessionLog h
  | initMd5Macro cmd md5Input => exact registriesNodup_InitMd5Macro st cmd md5Input h
  | initBase64Macro cmd base64Input => exact registriesNodup_InitBase64Macro st cmd base64Input h

theorem registriesNodup_foldl (calls : List InitCall) (st : State) (h : RegistriesNodup st) :
    RegistriesNodup (calls.foldl InitCall.apply st) := by
  induction calls generalizing st with
  | nil => exact h
  | cons c calls ih => exact ih _ (registriesNodup_apply st c h)

theorem prefix_InitMacros (st : State) (cmd field cmd2 : GoString) :
    mapSlice st.CommandMacros cmd2 <+: mapSlice (InitMacros st cmd field).CommandMacros cmd2 := by
  by_cases h : cmd2 = cmd
  · subst h
    rw [mapSlice_InitMacros_same]
    exact List.IsPrefix.trans (prefix_foldl_addUnique _ _) (prefix_foldl_addUnique _ _)
  · rw [mapSlice_InitMacros_other st h]

theorem commandMacros_InitMd5Macro (st : State) (cmd md5Input : GoString) :
    (InitMd5Macro st cmd md5Input).CommandMacros = st.CommandMacros := by
  unfold InitMd5Macro
  by_cases he : md5Input.length = 0
  · simp [he]
  · simp only [he, if_false, foldl_addMd5Macro]

theorem commandMacros_InitBase64Macro (st : State) (cmd base64Input : GoString) :
    (InitBase64Macro st cmd base64Input).CommandMacros = st.CommandMacros := by
  unfold InitBase64Macro
  by_cases he : base64Input.length = 0
  · simp [he]
  · simp only [he, if_false, foldl_addBase64Macro]

/-! ## Claims on the macro registry -/

/-- C1 (as stated, refuted): on the field made of the token `{$A}` followed by the
token `{%B}`, `InitMacros` on a command without tokens stores `{%B}` before
`{$A}`, not the tokens in the order in which they occur in the field. -/
theorem InitMacros_interleaved_order :
    mapSlice (InitMacros State.initial "c".toList
        ("\x7b$A\x7d".toList ++ "\x7b%B\x7d".toList)).CommandMacros "c".toList
      = ["\x7b%B\x7d".toList, "\x7b$A\x7d".toList] ∧
    mapSlice (InitMacros State.initial "c".toList
        ("\x7b$A\x7d".toList ++ "\x7b%B\x7d".toList)).CommandMacros "c".toList
      ≠ ["\x7b$A\x7d".toList, "\x7b%B\x7d".toList] := by
  decide

/-- C1 (amended): for a command with an empty token list, after `InitMacros` the
list of the command holds the distinct `{%...}` tokens of the field in the order
of their first occurrence, followed by the distinct `{$...}` tokens of the field
in the order of their first occurrence. -/
theorem InitMacros_first_seen_by_grammar (st : State) (cmd field : GoString)
    (h : mapSlice st.CommandMacros cmd = []) :
    mapSlice (InitMacros st cmd field).CommandMacros cmd
      = firstSeen (findAllTokens '%' field) ++ firstSeen (findAllTokens '$' field) := by
  rw [mapSlice_InitMacros_same, h, foldl_addUnique_eq, foldl_addUnique_eq]
  simp only [List.nil_append, List.not_mem_nil, not_false_eq_true, decide_True,
    List.filter_true]
  congr 1
  rw [List.filter_eq_self]
  intro y hy
  have hy1 := mem_of_mem_firstSeen _ _ hy
  obtain ⟨r, hr⟩ := findAllLoop_head '$' _ _ _ hy1
  simp only [decide_eq_true_eq]
  intro hmem
  obtain ⟨r2, hr2⟩ := findAllLoop_head '%' _ _ _ (mem_of_mem_firstSeen _ _ hmem)
  rw [hr] at hr2
  simp at hr2

/-- C1 (amended), instance: a field with a duplicate and with both grammars
interleaved. -/
theorem InitMacros_first_seen_by_grammar_witness :
    mapSlice State.initial.CommandMacros "c".toList = [] ∧
    mapSlice (InitMacros State.initial "c".toList
        ("\x7b$A\x7d".toList ++ "\x7b%B\x7d".toList ++ "\x7b$A\x7d".toList)).CommandMacros
        "c".toList
      = firstSeen (findAllTokens '%'
          ("\x7b$A\x7d".toList ++ "\x7b%B\x7d".toList ++ "\x7b$A\x7d".toList)) ++
        firstSeen (findAllTokens '$'
          ("\x7b$A\x7d".toList ++ "\x7b%B\x7d".toList ++ "\x7b$A\x7d".toList)) :=
  ⟨by decide, InitMacros_first_seen_by_grammar State.initial "c".toList _ (by decide)⟩

/-- C2: starting from empty registries, after any sequence of `InitMacros`,
`InitSessionLogMacros`, `InitMd5Macro` and `InitBase64Macro` calls no list of
`CommandMacros`, `Md5Macros` or `Base64Macros` holds a token twice, and a further
call keeps the list of every command in `CommandMacros` as a prefix of the new
list (nothing is removed or reordered). -/
theorem registries_nodup_and_append_only (calls : List InitCall) :
    RegistriesNodup (runCalls calls) ∧
    ∀ (st : State) (c : InitCall) (cmd : GoString),
      mapSlice st.CommandMacros cmd <+: mapSlice (c.apply st).CommandMacros cmd := by
  refine ⟨?_, ?_⟩
  · apply registriesNodup_foldl
    refine ⟨?_, ?_, ?_⟩ <;> intro p hp <;> simp [State.initial] at hp
  · intro st c cmd
    cases c with
    | initMacros cmd1 field => exact prefix_InitMacros st cmd1 field cmd
    | initSessionLogMacros sessionLog => exact prefix_InitMacros st _ sessionLog cmd
    | initMd5Macro cmd1 md5Input =>
      simp only [InitCall.apply, commandMacros_InitMd5Macro]
      exact List.prefix_refl _
    | initBase64Macro cmd1 base64Input =>
      simp only [InitCall.apply, commandMacros_InitBase64Macro]
      exact List.prefix_refl _

/-! ## Claims on the field renderer -/

theorem substLoop_ok (rm : GoString → Res) (post : GoString → GoString)
    (toks : List GoString) (field : GoString) (h : ∀ t ∈ toks, (rm t).isOk = true) :
    substLoop rm post toks field
      = .ok (toks.foldl (fun f tok => stringsReplace f tok (post (rm tok).value) (-1)) field) := by
  induction toks generalizing field with
  | nil => rfl
  | cons t toks ih =>
    have ht := h t (List.mem_cons_self _ _)
    cases hr : rm t with
    | ok v =>
      simp only [substLoop, hr, List.foldl_cons, Res.value]
      exact ih _ (fun t2 h2 => h t2 (List.mem_cons_of_mem _ h2))
    | panic => simp [hr, Res.isOk] at ht
    | diverge => simp [hr, Res.isOk] at ht

theorem stringsReplace_self (t v : GoString) : stringsReplace t t v (-1) = v := by
  unfold stringsReplace
  by_cases h : t = v
  · simp [h]
  · cases t with
    | nil => simp [h, replaceEmptyLoop]
    | cons c cs =>
      have hp : (c :: cs).isPrefixOf (c :: cs) = true := by simp
      simp [h, replaceLoop, cutAt]

/-- C3 (as stated, refuted): with the tokens `{%A}` and `{%B}` registered, `A`
resolving to the text `{%B}` and `B` to `x`, `RunnerMacros` renders the field
`{%A}` as `x`: the text introduced by the value of `{%A}` is replaced again,
whereas the simultaneous substitution of the two tokens gives `{%B}`. -/
theorem RunnerMacros_reexpands_value :
    mapSlice reexpandState.CommandMacros "c".toList
      = ["\x7b%A\x7d".toList, "\x7b%B\x7d".toList] ∧
    runnerMacro Ext.sample 1 reexpandState "c".toList "\x7b%A\x7d".toList [] reexpandVars 0
      = .ok "\x7b%B\x7d".toList ∧
    runnerMacro Ext.sample 1 reexpandState "c".toList "\x7b%B\x7d".toList [] reexpandVars 0
      = .ok "x".toList ∧
    RunnerMacros Ext.sample 1 reexpandState "c".toList [] reexpandVars 0 "\x7b%A\x7d".toList
      = .ok "x".toList ∧
    substSimultaneous
        [("\x7b%A\x7d".toList, "\x7b%B\x7d".toList), ("\x7b%B\x7d".toList, "x".toList)]
        4 "\x7b%A\x7d".toList
      = "\x7b%B\x7d".toList := by
  decide

/-- C3 (amended): when every token of the command resolves to a string,
`RunnerMacros` returns the sequential substitution: one replace-all pass per
token of the command's list, in list order, each pass replacing every occurrence
of its token in the output of the previous pass by the resolved value of the
token.  A pass does not read again the text it wrote: rendering a field that is
exactly a token whose value contains that token gives the value once. -/
theorem RunnerMacros_sequential (ext : Ext) (depth : Nat) (st : State)
    (command inputData : GoString) (sessionVars : GoMap GoString) (reqTime : Int)
    (field : GoString)
    (h : ∀ t ∈ mapSlice st.CommandMacros command,
      (runnerMacro ext depth st command t inputData sessionVars reqTime).isOk = true) :
    RunnerMacros ext depth st command inputData sessionVars reqTime field
      = .ok (substSequential
          (fun t => (runnerMacro ext depth st command t inputData sessionVars reqTime).value)
          (mapSlice st.CommandMacros command) field) ∧
    ∀ t, mapSlice st.CommandMacros command = [t] →
      RunnerMacros ext depth st command inputData sessionVars reqTime t
        = runnerMacro ext depth st command t inputData sessionVars reqTime := by
  refine ⟨?_, ?_⟩
  · unfold RunnerMacros substSequential
    rw [substLoop_ok _ _ _ _ h]
    rfl
  · intro t ht
    have h1 := h t (by rw [ht]; exact List.mem_singleton_self t)
    unfold RunnerMacros
    rw [ht]
    cases hr : runnerMacro ext depth st command t inputData sessionVars reqTime with
    | ok v => simp [substLoop, hr, stringsReplace_self]
    | panic => simp [hr, Res.isOk] at h1
    | diverge => simp [hr, Res.isOk] at h1

/-- C3 (amended), instance: the two-token command of the re-expansion example. -/
theorem RunnerMacros_sequential_witness :
    (∀ t ∈ mapSlice reexpandState.CommandMacros "c".toList,
      (runnerMacro Ext.sample 1 reexpandState "c".toList t [] reexpandVars 0).isOk = true) ∧
    RunnerMacros Ext.sample 1 reexpandState "c".toList [] reexpandVars 0
        "\x7b%A\x7d-\x7b%B\x7d".toList
      = .ok (substSequential
          (fun t => (runnerMacro Ext.sample 1 reexpandState "c".toList t []
            reexpandVars 0).value)
          (mapSlice reexpandState.CommandMacros "c".toList) "\x7b%A\x7d-\x7b%B\x7d".toList) :=
  ⟨by decide,
   (RunnerMacros_sequential Ext.sample 1 reexpandState "c".toList [] reexpandVars 0
      "\x7b%A\x7d-\x7b%B\x7d".toList (by decide)).1⟩

/-! ## Claims on resolution failures -/

/-- C4 (code defect): the unsliced token `{%CSV[5]}` on the input row `a,b`, and
the column-header token `{%amount}` on the row `1,Alice`, make `runnerMacro`
panic with an index out of range instead of returning the empty string; the
sibling branch for `{%VAL}` does check the length and returns the empty string
on a row without a second field. -/
theorem runnerMacro_column_out_of_range :
    findSlice "\x7b%CSV[5]\x7d".toList = none ∧
    runnerMacro Ext.sample 1 State.initial "c".toList "\x7b%CSV[5]\x7d".toList
      "a,b".toList [] 0 = .panic ∧
    findSlice "\x7b%amount\x7d".toList = none ∧
    runnerMacro Ext.sample 1 headerState "c".toList "\x7b%amount\x7d".toList
      "1,Alice".toList [] 0 = .panic ∧
    runnerMacro Ext.sample 1 State.initial "c".toList "\x7b%VAL\x7d".toList
      "a".toList [] 0 = .ok [] := by
  decide

/-! ## Claims on the time-modifier parser -/

theorem wrap64_of_bounds (x : Int) (h1 : minInt64 ≤ x) (h2 : x ≤ maxInt64) : wrap64 x = x := by
  unfold minInt64 at h1
  unfold maxInt64 at h2
  unfold wrap64
  norm_num at h1 h2 ⊢
  omega

theorem takeWhile_append_stop {p : Char → Bool} (ds : GoString) (x : Char) (t : GoString)
    (hd : ∀ c ∈ ds, p c = true) (hx : p x = false) :
    (ds ++ x :: t).takeWhile p = ds := by
  induction ds with
  | nil => simp [List.takeWhile, hx]
  | cons d ds ih =>
    have h1 : p d = true := hd d (List.mem_cons_self _ _)
    simp only [List.cons_append, List.takeWhile_cons, h1, if_true]
    rw [ih (fun c hc => hd c (List.mem_cons_of_mem _ hc))]

theorem dropWhile_append_stop {p : Char → Bool} (ds : GoString) (x : Char) (t : GoString)
    (hd : ∀ c ∈ ds, p c = true) (hx : p x = false) :
    (ds ++ x :: t).dropWhile p = x :: t := by
  induction ds with
  | nil => simp [List.dropWhile, hx]
  | cons d ds ih =>
    have h1 : p d = true := hd d (List.mem_cons_self _ _)
    simp only [List.cons_append, List.dropWhile_cons, h1, if_true]
    rw [ih (fun c hc => hd c (List.mem_cons_of_mem _ hc))]

theorem foldl_digits_mono (ds : GoString) (acc : Nat) :
    acc ≤ ds.foldl (fun n c => 10 * n + (c.toNat - 48)) acc := by
  induction ds generalizing acc with
  | nil => exact Nat.le_refl _
  | cons d ds ih =>
    simp only [List.foldl_cons]
    exact Nat.le_trans (by omega) (ih _)

theorem parseUintLoop_eq (ds : GoString) (acc : Nat) (hd : ∀ c ∈ ds, c.isDigit = true) :
    parseUintLoop acc ds
      = some (if ds.foldl (fun n c => 10 * n + (c.toNat - 48)) acc < 2 ^ 64
          then ds.foldl (fun n c => 10 * n + (c.toNat - 48)) acc else 2 ^ 64 - 1)
      ∨ 2 ^ 64 ≤ acc := by
  induction ds generalizing acc with
  | nil =>
    by_cases h : acc < 2 ^ 64
    · left
      simp only [parseUintLoop, List.foldl_nil]
      rw [if_pos h]
    · right; omega
  | cons d ds ih =>
    by_cases hacc : acc < 2 ^ 64
    · left
      have h1 : d.isDigit = true := hd d (List.mem_cons_self _ _)
      simp only [parseUintLoop, h1, if_true, List.foldl_cons]
      by_cases hn : 10 * acc + (d.toNat - 48) ≥ 2 ^ 64
      · have hm := foldl_digits_mono ds (10 * acc + (d.toNat - 48))
        have : ¬ (List.foldl (fun n c => 10 * n + (c.toNat - 48))
            (10 * acc + (d.toNat - 48)) ds < 2 ^ 64) := by omega
        rw [if_pos hn, if_neg this]
      · rcases ih (10 * acc + (d.toNat - 48)) (fun c hc => hd c (List.mem_cons_of_mem _ hc))
          with h | h
        · rw [if_neg hn]
          exact h
        · omega
    · right; omega

theorem parseUintLoop_digits (ds : GoString) (hd : ∀ c ∈ ds, c.isDigit = true) :
    parseUintLoop 0 ds
      = some (if decimalValue ds < 2 ^ 64 then decimalValue ds else 2 ^ 64 - 1) := by
  rcases parseUintLoop_eq ds 0 hd with h | h
  · exact h
  · norm_num at h

theorem atoiMagnitude_pos (ds : GoString) (hne : ds ≠ []) (hd : ∀ c ∈ ds, c.isDigit = true) :
    atoiMagnitude false ds
      = if decimalValue ds < 2 ^ 63 then (decimalValue ds : Int) else maxInt64 := by
  unfold atoiMagnitude
  rw [parseUintLoop_digits ds hd]
  simp only [hne, if_false, Bool.false_eq_true, maxInt64, Int.ofNat_eq_coe]
  split_ifs <;> first | rfl | omega

theorem atoiMagnitude_neg (ds : GoString) (hne : ds ≠ []) (hd : ∀ c ∈ ds, c.isDigit = true) :
    atoiMagnitude true ds
      = if decimalValue ds ≤ 2 ^ 63 then -(decimalValue ds : Int) else minInt64 := by
  unfold atoiMagnitude
  rw [parseUintLoop_digits ds hd]
  simp only [hne, if_false, if_true, minInt64, Int.ofNat_eq_coe]
  split_ifs <;> first | rfl | omega

theorem findModifier_signed (neg : Bool) (ds : GoString) (u : Char) (t : GoString)
    (hne : ds ≠ []) (hd : ∀ c ∈ ds, c.isDigit = true) (hu : u.isDigit = false)
    (hline : (u :: t).takeWhile (fun d => decide (d ≠ '\n')) = u :: t) :
    findModifier (signChar neg :: (ds ++ u :: t)) = some (signChar neg :: ds, u :: t) := by
  have hs : signChar neg = '+' ∨ signChar neg = '-' := by cases neg <;> simp [signChar]
  simp only [findModifier, modifierAt, takeWhile_append_stop ds u t hd hu,
    dropWhile_append_stop ds u t hd hu, hline]
  simp [hs, hne]

theorem strconvAtoi_signed (neg : Bool) (ds : GoString) (hne : ds ≠ [])
    (hd : ∀ c ∈ ds, c.isDigit = true)
    (h1 : minInt64 ≤ signFactor neg * (decimalValue ds : Int))
    (h2 : signFactor neg * (decimalValue ds : Int) ≤ maxInt64) :
    strconvAtoi (signChar neg :: ds) = signFactor neg * (decimalValue ds : Int) := by
  cases neg with
  | true =>
    have e : strconvAtoi (signChar true :: ds) = atoiMagnitude true ds := by
      simp [strconvAtoi, signChar]
    rw [e, atoiMagnitude_neg ds hne hd]
    simp only [signFactor, minInt64, maxInt64, if_true] at h1 h2 ⊢
    split_ifs <;> omega
  | false =>
    have e : strconvAtoi (signChar false :: ds) = atoiMagnitude false ds := by
      simp [strconvAtoi, signChar]
    rw [e, atoiMagnitude_pos ds hne hd]
    simp only [signFactor, minInt64, maxInt64, Bool.false_eq_true, if_false] at h1 h2 ⊢
    split_ifs <;> omega

theorem wrap64_second (m : Int) (h1 : minInt64 ≤ m * 1000000000)
    (h2 : m * 1000000000 ≤ maxInt64) : wrap64 (m * timeSecond) = m * 1000000000 := by
  unfold timeSecond
  exact wrap64_of_bounds _ h1 h2

theorem wrap64_minute (m : Int) (h1 : minInt64 ≤ m * (60 * 1000000000))
    (h2 : m * (60 * 1000000000) ≤ maxInt64) :
    wrap64 (m * timeMinute) = m * (60 * 1000000000) := by
  unfold timeMinute timeSecond
  exact wrap64_of_bounds _ h1 h2

theorem wrap64_hour (m : Int) (h1 : minInt64 ≤ m * (3600 * 1000000000))
    (h2 : m * (3600 * 1000000000) ≤ maxInt64) :
    wrap64 (m * timeHour) = m * (3600 * 1000000000) := by
  have e : timeHour = 3600 * 1000000000 := by decide
  rw [e]
  exact wrap64_of_bounds _ h1 h2

theorem wrap64_day (m : Int) (h1 : minInt64 ≤ m * (24 * (3600 * 1000000000)))
    (h2 : m * (24 * (3600 * 1000000000)) ≤ maxInt64) :
    wrap64 (wrap64 (m * 24) * timeHour) = m * (24 * (3600 * 1000000000)) := by
  have e : timeHour = 3600 * 1000000000 := by decide
  have a : wrap64 (m * 24) = m * 24 := by
    apply wrap64_of_bounds <;> simp only [minInt64, maxInt64] at h1 h2 ⊢ <;> omega
  rw [a, e, wrap64_of_bounds] <;> simp only [minInt64, maxInt64] at h1 h2 ⊢ <;> omega

theorem wrap64_month (m : Int) (h1 : minInt64 ≤ m * (720 * (3600 * 1000000000)))
    (h2 : m * (720 * (3600 * 1000000000)) ≤ maxInt64) :
    wrap64 (wrap64 (wrap64 (m * 30) * 24) * timeHour) = m * (720 * (3600 * 1000000000)) := by
  have e : timeHour = 3600 * 1000000000 := by decide
  have a : wrap64 (m * 30) = m * 30 := by
    apply wrap64_of_bounds <;> simp only [minInt64, maxInt64] at h1 h2 ⊢ <;> omega
  have b : wrap64 (m * 30 * 24) = m * 30 * 24 := by
    apply wrap64_of_bounds <;> simp only [minInt64, maxInt64] at h1 h2 ⊢ <;> omega
  rw [a, b, e, wrap64_of_bounds] <;> simp only [minInt64, maxInt64] at h1 h2 ⊢ <;> omega

theorem parseTimeModifier_of_findModifier (arg g1 g2 : GoString) (hlen : arg ≠ [])
    (hf : findModifier arg = some (g1, g2)) :
    parseTimeModifier arg
      = if g2 = "MONTH".toList ∨ g2 = "MONTHS".toList then
          .ok (wrap64 (wrap64 (wrap64 (strconvAtoi g1 * 30) * 24) * timeHour))
        else if g2 = "DAY".toList ∨ g2 = "DAYS".toList then
          .ok (wrap64 (wrap64 (strconvAtoi g1 * 24) * timeHour))
        else if g2 = "HOUR".toList ∨ g2 = "HOURS".toList then
          .ok (wrap64 (strconvAtoi g1 * timeHour))
        else if g2 = "MINUTE".toList ∨ g2 = "MINUTES".toList then
          .ok (wrap64 (strconvAtoi g1 * timeMinute))
        else if g2 = "SECOND".toList ∨ g2 = "SECONDS".toList then
          .ok (wrap64 (strconvAtoi g1 * timeSecond))
        else .error (notSupported arg) := by
  have h0 : arg.length ≠ 0 := by simpa using hlen
  simp only [parseTimeModifier, h0, if_false, hf]

theorem parseTimeModifier_signed (neg : Bool) (ds U : GoString) (u : Char) (t : GoString)
    (hU : U = u :: t) (hne : ds ≠ []) (hd : ∀ c ∈ ds, c.isDigit = true)
    (hu : u.isDigit = false)
    (hline : (u :: t).takeWhile (fun d => decide (d ≠ '\n')) = u :: t) :
    parseTimeModifier (signChar neg :: (ds ++ U))
      = if U = "MONTH".toList ∨ U = "MONTHS".toList then
          .ok (wrap64 (wrap64 (wrap64 (strconvAtoi (signChar neg :: ds) * 30) * 24) * timeHour))
        else if U = "DAY".toList ∨ U = "DAYS".toList then
          .ok (wrap64 (wrap64 (strconvAtoi (signChar neg :: ds) * 24) * timeHour))
        else if U = "HOUR".toList ∨ U = "HOURS".toList then
          .ok (wrap64 (strconvAtoi (signChar neg :: ds) * timeHour))
        else if U = "MINUTE".toList ∨ U = "MINUTES".toList then
          .ok (wrap64 (strconvAtoi (signChar neg :: ds) * timeMinute))
        else if U = "SECOND".toList ∨ U = "SECONDS".toList then
          .ok (wrap64 (strconvAtoi (signChar neg :: ds) * timeSecond))
        else .error (notSupported (signChar neg :: (ds ++ U))) := by
  subst hU
  exact parseTimeModifier_of_findModifier _ _ _ (by simp)
    (findModifier_signed neg ds u t hne hd hu hline)

/-- C5: for a sign, a non-empty string of decimal digits of value `n` and a unit
of the grammar, `parseTimeModifier` on their concatenation succeeds with the
signed `n` times the length of the unit (second, minute of 60 s, hour of 3600 s,
day of 24 h, month of 720 h), provided that product is in the range of a signed
64-bit count of nanoseconds. -/
theorem parseTimeModifier_signed_unit (neg : Bool) (ds U : GoString) (len : Int)
    (hne : ds ≠ []) (hd : ∀ c ∈ ds, c.isDigit = true) (hU : (U, len) ∈ timeUnits)
    (h1 : minInt64 ≤ signFactor neg * (decimalValue ds : Int) * len)
    (h2 : signFactor neg * (decimalValue ds : Int) * len ≤ maxInt64) :
    parseTimeModifier (signChar neg :: (ds ++ U))
      = .ok (signFactor neg * (decimalValue ds : Int) * len) := by
  have hsf : signFactor neg = 1 ∨ signFactor neg = -1 := by cases neg <;> simp [signFactor]
  simp only [timeUnits, List.mem_cons, Prod.mk.injEq, List.mem_singleton, List.not_mem_nil,
    or_false] at hU
  have hm : len ≥ 1000000000 → strconvAtoi (signChar neg :: ds)
      = signFactor neg * (decimalValue ds : Int) := by
    intro hl
    apply strconvAtoi_signed neg ds hne hd
    · simp only [minInt64, maxInt64] at h1 h2 ⊢
      rcases hsf with e | e <;> rw [e] at h1 h2 ⊢ <;> nlinarith
    · simp only [minInt64, maxInt64] at h1 h2 ⊢
      rcases hsf with e | e <;> rw [e] at h1 h2 ⊢ <;> nlinarith
  rcases hU with ⟨rfl, rfl⟩ | ⟨rfl, rfl⟩ | ⟨rfl, rfl⟩ | ⟨rfl, rfl⟩ | ⟨rfl, rfl⟩ |
    ⟨rfl, rfl⟩ | ⟨rfl, rfl⟩ | ⟨rfl, rfl⟩ | ⟨rfl, rfl⟩ | ⟨rfl, rfl⟩
  · rw [parseTimeModifier_signed neg ds "SECOND".toList 'S' "ECOND".toList rfl hne hd
      (by decide) (by decide), hm (by norm_num)]
    exact Eq.trans rfl (congrArg Parsed.ok (wrap64_second _ h1 h2))
  · rw [parseTimeModifier_signed neg ds "SECONDS".toList 'S' "ECONDS".toList rfl hne hd
      (by decide) (by decide), hm (by norm_num)]
    exact Eq.trans rfl (congrArg Parsed.ok (wrap64_second _ h1 h2))
  · rw [parseTimeModifier_signed neg ds "MINUTE".toList 'M' "INUTE".toList rfl hne hd
      (by decide) (by decide), hm (by norm_num)]
    exact Eq.trans rfl (congrArg Parsed.ok (wrap64_minute _ h1 h2))
  · rw [parseTimeModifier_signed neg ds "MINUTES".toList 'M' "INUTES".toList rfl hne hd
      (by decide) (by decide), hm (by norm_num)]
    exact Eq.trans rfl (congrArg Parsed.ok (wrap64_minute _ h1 h2))
  · rw [parseTimeModifier_signed neg ds "HOUR".toList 'H' "OUR".toList rfl hne hd
      (by decide) (by decide), hm (by norm_num)]
    exact Eq.trans rfl (congrArg Parsed.ok (wrap64_hour _ h1 h2))
  · rw [parseTimeModifier_signed neg ds "HOURS".toList 'H' "OURS".toList rfl hne hd
      (by decide) (by decide), hm (by norm_num)]
    exact Eq.trans rfl (congrArg Parsed.ok (wrap64_hour _ h1 h2))
  · rw [parseTimeModifier_signed neg ds "DAY".toList 'D' "AY".toList rfl hne hd
      (by decide) (by decide), hm (by norm_num)]
    exact Eq.trans rfl (congrArg Parsed.ok (wrap64_day _ h1 h2))
  · rw [parseTimeModifier_signed neg ds "DAYS".toList 'D' "AYS".toList rfl hne hd
      (by decide) (by decide), hm (by norm_num)]
    exact Eq.trans rfl (congrArg Parsed.ok (wrap64_day _ h1 h2))
  · rw [parseTimeModifier_signed neg ds "MONTH".toList 'M' "ONTH".toList rfl hne hd
      (by decide) (by decide), hm (by norm_num)]
    exact Eq.trans rfl (congrArg Parsed.ok (wrap64_month _ h1 h2))
  · rw [parseTimeModifier_signed neg ds "MONTHS".toList 'M' "ONTHS".toList rfl hne hd
      (by decide) (by decide), hm (by norm_num)]
    exact Eq.trans rfl (congrArg Parsed.ok (wrap64_month _ h1 h2))

/-- C5, instance: `+4HOURS` gives four hours; next to it the values of `-2DAYS`
(minus 48 hours) and `+1MONTH` (720 hours). -/
theorem parseTimeModifier_signed_unit_witness :
    parseTimeModifier "+4HOURS".toList = .ok (4 * (3600 * 1000000000)) ∧
    parseTimeModifier "-2DAYS".toList = .ok (-(48 * (3600 * 1000000000))) ∧
    parseTimeModifier "+1MONTH".toList = .ok (720 * (3600 * 1000000000)) :=
  ⟨parseTimeModifier_signed_unit false "4".toList "HOURS".toList (3600 * 1000000000)
      (by decide) (by decide) (by decide) (by decide) (by decide),
   by decide, by decide⟩

/-- C6 (code defect): `parseTimeModifier` accepts the argument `x+4HOURS`, which
is not a sign, digits and a unit with nothing before or after, and returns four
hours: the pattern is searched anywhere in the argument.  It also accepts text
after the unit when a newline separates them.  The arguments `+4BANANAS` and
`4HOURS` are rejected with a message that holds the argument. -/
theorem parseTimeModifier_accepts_leading_text :
    parseTimeModifier "x+4HOURS".toList = .ok (4 * (3600 * 1000000000)) ∧
    parseTimeModifier "+4HOURS\nx".toList = .ok (4 * (3600 * 1000000000)) ∧
    parseTimeModifier "+4BANANAS".toList
      = .error "time modifier +4BANANAS is not supported".toList ∧
    parseTimeModifier "4HOURS".toList
      = .error "time modifier 4HOURS is not supported".toList := by
  decide

/-! ## Claims on slicing -/

theorem takeWhile_append_nonmatch {p : Char → Bool} (cs : GoString) (x : Char) (t : GoString)
    (hx : p x = false) : (cs ++ x :: t).takeWhile p = cs.takeWhile p := by
  induction cs with
  | nil => simp [List.takeWhile, hx]
  | cons d ds ih =>
    by_cases h1 : p d = true
    · simp [List.takeWhile_cons, h1, ih]
    · simp [List.takeWhile_cons, h1]

theorem dropWhile_append_nonmatch {p : Char → Bool} (cs : GoString) (x : Char) (t : GoString)
    (hx : p x = false) : (cs ++ x :: t).dropWhile p = cs.dropWhile p ++ x :: t := by
  induction cs with
  | nil => simp [List.dropWhile, hx]
  | cons d ds ih =>
    by_cases h1 : p d = true
    · simp [List.dropWhile_cons, h1, ih]
    · simp [List.dropWhile_cons, h1]

theorem sliceAt_sliceText (a b rest : GoString) (ha : a ≠ []) (had : ∀ c ∈ a, c.isDigit = true)
    (hb : b ≠ []) (hbd : ∀ c ∈ b, c.isDigit = true) :
    sliceAt (sliceText a b ++ rest) = some (a, b) := by
  have e : sliceText a b ++ rest = '[' :: (a ++ ':' :: (b ++ ']' :: '}' :: rest)) := by
    simp [sliceText]
  rw [e]
  simp only [sliceAt, takeWhile_append_stop a ':' _ had (by decide),
    dropWhile_append_stop a ':' _ had (by decide), List.drop_succ_cons, List.drop_zero,
    takeWhile_append_stop b ']' _ hbd (by decide),
    dropWhile_append_stop b ']' _ hbd (by decide)]
  simp [ha, hb]

theorem sliceAt_before_bracket (c : Char) (cs t : GoString) (r : GoString × GoString)
    (h : sliceAt (c :: cs ++ '[' :: t) = some r) : sliceAt (c :: cs ++ ['}']) = some r := by
  have hl : Char.isDigit '[' = false := by decide
  have hr : Char.isDigit '}' = false := by decide
  simp only [List.cons_append, sliceAt,
    takeWhile_append_nonmatch cs '[' t hl, dropWhile_append_nonmatch cs '[' t hl,
    takeWhile_append_nonmatch cs '}' [] hr, dropWhile_append_nonmatch cs '}' [] hr] at h ⊢
  cases hD : cs.dropWhile Char.isDigit with
  | nil => simp [hD] at h
  | cons y D1 =>
    simp only [hD, List.cons_append, List.drop_succ_cons, List.drop_zero,
      takeWhile_append_nonmatch D1 '[' t hl, dropWhile_append_nonmatch D1 '[' t hl,
      takeWhile_append_nonmatch D1 '}' [] hr, dropWhile_append_nonmatch D1 '}' [] hr] at h ⊢
    cases hE : D1.dropWhile Char.isDigit with
    | nil => simp [hE] at h
    | cons z E1 =>
      cases E1 with
      | nil => simp [hE] at h
      | cons w E2 =>
        simp only [hE, List.cons_append] at h ⊢
        simpa using h

theorem findSlice_eq_none_cons (c : Char) (cs : GoString) (h : findSlice (c :: cs) = none) :
    sliceAt (c :: cs) = none ∧ findSlice cs = none := by
  simp only [findSlice] at h
  cases hs : sliceAt (c :: cs) with
  | none => rw [hs] at h; exact ⟨rfl, h⟩
  | some r => rw [hs] at h; simp at h

theorem findSlice_append_sliceText (base a b : GoString) (ha : a ≠ [])
    (had : ∀ c ∈ a, c.isDigit = true) (hb : b ≠ []) (hbd : ∀ c ∈ b, c.isDigit = true)
    (hbase : findSlice (base ++ ['}']) = none) :
    findSlice (base ++ sliceText a b) = some (a, b) := by
  induction base with
  | nil =>
    have h := sliceAt_sliceText a b [] ha had hb hbd
    rw [List.append_nil] at h
    have e : sliceText a b = '[' :: (a ++ ':' :: b ++ [']', '}']) := rfl
    rw [List.nil_append, e, findSlice, ← e, h]
  | cons c cs ih =>
    obtain ⟨h1, h2⟩ := findSlice_eq_none_cons c (cs ++ ['}']) hbase
    have e : sliceText a b = '[' :: (a ++ ':' :: b ++ [']', '}']) := rfl
    have h3 : sliceAt (c :: cs ++ sliceText a b) = none := by
      cases hs : sliceAt (c :: cs ++ sliceText a b) with
      | none => rfl
      | some r =>
        rw [e] at hs
        have := sliceAt_before_bracket c cs _ r hs
        rw [List.cons_append] at this
        rw [h1] at this
        simp at this
    rw [List.cons_append] at h3 ⊢
    rw [findSlice, h3]
    exact ih h2

theorem cutAt_append_sliceText (base a b : GoString) (ha : a ≠ [])
    (had : ∀ c ∈ a, c.isDigit = true) (hb : b ≠ []) (hbd : ∀ c ∈ b, c.isDigit = true)
    (hbase : findSlice (base ++ ['}']) = none) :
    cutAt (sliceText a b) (base ++ sliceText a b) = some (base, []) := by
  have e : sliceText a b = '[' :: (a ++ ':' :: b ++ [']', '}']) := rfl
  induction base with
  | nil =>
    rw [List.nil_append]
    have hp : (sliceText a b).isPrefixOf (sliceText a b) = true := by simp
    rw [e] at hp ⊢
    rw [cutAt, if_pos hp]
    simp
  | cons c cs ih =>
    obtain ⟨h1, h2⟩ := findSlice_eq_none_cons c (cs ++ ['}']) hbase
    have hn : ¬ (sliceText a b).isPrefixOf (c :: (cs ++ sliceText a b)) = true := by
      intro hp
      rw [List.isPrefixOf_iff_prefix] at hp
      obtain ⟨rest, hrest⟩ := hp
      have hs := sliceAt_sliceText a b rest ha had hb hbd
      rw [hrest, e] at hs
      have := sliceAt_before_bracket c cs _ (a, b) hs
      rw [List.cons_append] at this
      rw [h1] at this
      simp at this
    rw [List.cons_append, cutAt, if_neg hn, ih h2]
    rfl

theorem stringsReplace_sliceText (base a b : GoString) (ha : a ≠ [])
    (had : ∀ c ∈ a, c.isDigit = true) (hb : b ≠ []) (hbd : ∀ c ∈ b, c.isDigit = true)
    (hbase : findSlice (base ++ ['}']) = none) :
    stringsReplace (base ++ sliceText a b) (sliceText a b) ['}'] 1 = base ++ ['}'] := by
  have e : sliceText a b = '[' :: (a ++ ':' :: b ++ [']', '}']) := rfl
  have h1 : sliceText a b ≠ ['}'] := by rw [e]; simp
  have h2 : sliceText a b ≠ [] := by rw [e]; simp
  have hk : min (1 : Int).toNat ((base ++ sliceText a b).length + 1) = 0 + 1 := by
    simp
  unfold stringsReplace
  simp only [h1, h2, if_false, show ¬ ((1 : Int) < 0) by decide, hk]
  rw [replaceLoop, cutAt_append_sliceText base a b ha had hb hbd hbase]
  simp [replaceLoop]

theorem wellFormed_append (base tail : GoString)
    (hpre : hasPrefix base ['{', '%'] = true ∨ hasPrefix base ['{', '$'] = true) :
    wellFormed (base ++ tail ++ ['}']) = true := by
  unfold wellFormed hasSuffix
  have hs : ['}'].isSuffixOf (base ++ tail ++ ['}']) = true := by
    rw [List.isSuffixOf_iff_suffix]
    exact List.suffix_append _ _
  rw [hs, Bool.and_true, Bool.or_eq_true]
  unfold hasPrefix at hpre ⊢
  simp only [List.isPrefixOf_iff_prefix] at hpre ⊢
  rcases hpre with h | h
  · left
    exact List.IsPrefix.trans h (by rw [List.append_assoc]; exact List.prefix_append _ _)
  · right
    exact List.IsPrefix.trans h (by rw [List.append_assoc]; exact List.prefix_append _ _)

theorem strconvAtoi_digits (a : GoString) (ha : a ≠ []) (had : ∀ c ∈ a, c.isDigit = true) :
    strconvAtoi a = if decimalValue a < 2 ^ 63 then (decimalValue a : Int) else maxInt64 := by
  cases a with
  | nil => exact absurd rfl ha
  | cons c cs =>
    have hc : c.isDigit = true := had c (List.mem_cons_self _ _)
    have h1 : c ≠ '-' := by
      intro e
      rw [e] at hc
      exact absurd hc (by decide)
    have h2 : c ≠ '+' := by
      intro e
      rw [e] at hc
      exact absurd hc (by decide)
    rw [← atoiMagnitude_pos (c :: cs) ha had]
    simp [strconvAtoi, h1, h2]

theorem goSlice_digits (r a b : GoString) (ha : a ≠ []) (had : ∀ c ∈ a, c.isDigit = true)
    (hb : b ≠ []) (hbd : ∀ c ∈ b, c.isDigit = true) (hlen : (r.length : Int) < maxInt64) :
    goSlice r (strconvAtoi a) (strconvAtoi b)
      = if decimalValue a ≤ decimalValue b ∧ decimalValue b ≤ r.length then
          some ((r.drop (decimalValue a)).take (decimalValue b - decimalValue a))
        else none := by
  rw [strconvAtoi_digits a ha had, strconvAtoi_digits b hb hbd]
  unfold goSlice
  simp only [maxInt64] at hlen ⊢
  by_cases hc : decimalValue a ≤ decimalValue b ∧ decimalValue b ≤ r.length
  · have hc2 := hc
    obtain ⟨h1, h2⟩ := hc
    have hb1 : decimalValue b < 2 ^ 63 := by omega
    have ha1 : decimalValue a < 2 ^ 63 := by omega
    rw [if_pos ha1, if_pos hb1, if_pos hc2]
    have hcond : (0 : Int) ≤ (decimalValue a : Int) ∧ (decimalValue a : Int) ≤ decimalValue b ∧
        (decimalValue b : Int) ≤ (r.length : Int) := by omega
    rw [if_pos hcond]
    simp
  · rw [if_neg hc]
    have : ¬ ((0 : Int) ≤ (if decimalValue a < 2 ^ 63 then (decimalValue a : Int) else 2 ^ 63 - 1) ∧
        (if decimalValue a < 2 ^ 63 then (decimalValue a : Int) else 2 ^ 63 - 1)
          ≤ (if decimalValue b < 2 ^ 63 then (decimalValue b : Int) else 2 ^ 63 - 1) ∧
        (if decimalValue b < 2 ^ 63 then (decimalValue b : Int) else 2 ^ 63 - 1)
          ≤ (r.length : Int)) := by
      intro h
      apply hc
      split_ifs at h <;> omega
    rw [if_neg this]

/-- C7: for a token made of a base form without its closing brace, followed by
a slice annotation `[a:b]` and the closing brace, where the base form carries no
annotation of its own and resolves to the string `r` (shorter than the largest
`int`): `runnerMacro` returns the half-open substring of `r` from `a` to `b` when
`a ≤ b ≤ length r`, and panics with a slice bounds violation otherwise. -/
theorem runnerMacro_slice (ext : Ext) (depth : Nat) (st : State)
    (command inputData : GoString) (sessionVars : GoMap GoString) (reqTime : Int)
    (base a b r : GoString)
    (hpre : hasPrefix base ['{', '%'] = true ∨ hasPrefix base ['{', '$'] = true)
    (ha : a ≠ []) (had : ∀ c ∈ a, c.isDigit = true)
    (hb : b ≠ []) (hbd : ∀ c ∈ b, c.isDigit = true)
    (hbase : findSlice (base ++ ['}']) = none)
    (hr : runnerMacro ext (depth + 1) st command (base ++ ['}']) inputData sessionVars reqTime
      = .ok r)
    (hlen : (r.length : Int) < maxInt64) :
    runnerMacro ext (depth + 1) st command (base ++ sliceText a b) inputData sessionVars reqTime
      = if decimalValue a ≤ decimalValue b ∧ decimalValue b ≤ r.length then
          .ok ((r.drop (decimalValue a)).take (decimalValue b - decimalValue a))
        else .panic := by
  have hw1 : wellFormed (base ++ ['}']) = true := by
    have := wellFormed_append base [] hpre
    simpa using this
  have hw2 : wellFormed (base ++ sliceText a b) = true := by
    have := wellFormed_append base ('[' :: (a ++ ':' :: b ++ [']'])) hpre
    have e : base ++ sliceText a b = base ++ '[' :: (a ++ ':' :: b ++ [']']) ++ ['}'] := by
      simp [sliceText]
    rw [e]
    exact this
  simp only [runnerMacro, hw1, Bool.not_true, Bool.false_eq_true, if_false, hbase] at hr
  simp only [runnerMacro, hw2, Bool.not_true, Bool.false_eq_true, if_false,
    findSlice_append_sliceText base a b ha had hb hbd hbase,
    stringsReplace_sliceText base a b ha had hb hbd hbase, hr,
    goSlice_digits r a b ha had hb hbd hlen]
  split_ifs <;> rfl

/-- C7, instance: `{%KEY[0:2]}` on the row `alphabet,rest` gives `al`; next to it,
`[0:20]` on the 7-character value of the row `seven77,x` panics. -/
theorem runnerMacro_slice_witness :
    runnerMacro Ext.sample 1 State.initial "c".toList "\x7b%KEY[0:2]\x7d".toList
      "alphabet,rest".toList [] 0 = .ok "al".toList ∧
    runnerMacro Ext.sample 1 State.initial "c".toList "\x7b%KEY[0:20]\x7d".toList
      "seven77,x".toList [] 0 = .panic :=
  ⟨runnerMacro_slice Ext.sample 0 State.initial "c".toList "alphabet,rest".toList [] 0
      "\x7b%KEY".toList "0".toList "2".toList "alphabet".toList
      (by decide) (by decide) (by decide) (by decide) (by decide) (by decide) (by decide)
      (by decide),
   by decide⟩

/-! ## Claims on the key and value macros -/

theorem cutAt_of_firstCut (sep : GoString) (hsep : sep ≠ []) (s a b : GoString)
    (h : FirstCut sep s a b) : cutAt sep s = some (a, b) := by
  induction s generalizing a with
  | nil =>
    obtain ⟨h1, _⟩ := h
    have : sep = [] := by
      have h2 := congrArg List.length h1
      simp at h2
      exact List.eq_nil_of_length_eq_zero (by omega)
    exact absurd this hsep
  | cons c cs ih =>
    obtain ⟨h1, h2⟩ := h
    by_cases hp : sep.isPrefixOf (c :: cs) = true
    · have hp2 := hp
      rw [List.isPrefixOf_iff_prefix] at hp2
      obtain ⟨q, hq⟩ := hp2
      have ha : a = [] := by
        have := h2 [] q (by simp [hq])
        exact List.eq_nil_of_length_eq_zero (by simpa using this)
      subst ha
      rw [cutAt, if_pos hp, h1]
      simp
    · cases a with
      | nil =>
        exfalso
        apply hp
        rw [List.isPrefixOf_iff_prefix, h1]
        simp
      | cons a0 a1 =>
        simp only [List.cons_append, List.cons.injEq] at h1
        obtain ⟨hc, hcs⟩ := h1
        subst hc
        have hfc : FirstCut sep cs a1 b := by
          refine ⟨hcs, ?_⟩
          intro p q hpq
          have := h2 (c :: p) q (by simp [hpq])
          simpa using this
        rw [cutAt, if_neg hp, ih a1 hfc]
        rfl

theorem firstCut_of_cutAt (sep s a b : GoString) (h : cutAt sep s = some (a, b)) :
    FirstCut sep s a b := by
  induction s generalizing a with
  | nil => simp [cutAt] at h
  | cons c cs ih =>
    by_cases hp : sep.isPrefixOf (c :: cs) = true
    · rw [cutAt, if_pos hp] at h
      simp only [Option.some.injEq, Prod.mk.injEq] at h
      obtain ⟨ha, hb⟩ := h
      subst ha
      rw [List.isPrefixOf_iff_prefix] at hp
      obtain ⟨q, hq⟩ := hp
      refine ⟨?_, fun p q2 _ => Nat.zero_le _⟩
      rw [← hb, ← hq]
      simp
    · rw [cutAt, if_neg hp] at h
      cases hc : cutAt sep cs with
      | none => simp [hc] at h
      | some r =>
        obtain ⟨a1, b1⟩ := r
        simp only [hc, Option.map_some', Option.some.injEq, Prod.mk.injEq] at h
        obtain ⟨ha, hb⟩ := h
        subst ha
        subst hb
        obtain ⟨h1, h2⟩ := ih a1 hc
        refine ⟨by simp [h1], ?_⟩
        intro p q hpq
        cases p with
        | nil =>
          exfalso
          apply hp
          rw [List.isPrefixOf_iff_prefix]
          exact ⟨q, by simpa using hpq.symm⟩
        | cons p0 p1 =>
          simp only [List.cons_append, List.cons.injEq] at hpq
          have := h2 p1 q hpq.2
          simpa using this

theorem cutAt_none_of_not_occurs (sep s : GoString) (h : ¬ Occurs sep s) :
    cutAt sep s = none := by
  induction s with
  | nil => rfl
  | cons c cs ih =>
    have hp : ¬ sep.isPrefixOf (c :: cs) = true := by
      intro hp
      rw [List.isPrefixOf_iff_prefix] at hp
      obtain ⟨q, hq⟩ := hp
      exact h ⟨[], q, by simp [hq]⟩
    have hcs : ¬ Occurs sep cs := by
      rintro ⟨p, q, hpq⟩
      exact h ⟨c :: p, q, by simp [hpq]⟩
    rw [cutAt, if_neg hp, ih hcs]
    rfl

theorem length_of_firstCut (sep : GoString) (hsep : sep ≠ []) (s a b : GoString)
    (h : FirstCut sep s a b) : 0 < s.length := by
  rw [h.1]
  have : 0 < sep.length := List.length_pos.2 hsep
  simp
  omega

theorem runnerMacro_plain (ext : Ext) (depth : Nat) (st : State)
    (command declaration inputData : GoString) (sessionVars : GoMap GoString) (reqTime : Int)
    (hs : findSlice declaration = none) :
    runnerMacro ext (depth + 1) st command declaration inputData sessionVars reqTime
      = _runnerMacro ext
          (fun tok => runnerMacro ext depth st command tok inputData sessionVars reqTime)
          st command declaration inputData sessionVars reqTime := by
  by_cases hw : wellFormed declaration = true
  · simp only [runnerMacro, hw, Bool.not_true, Bool.false_eq_true, if_false, hs]
  · simp only [runnerMacro, _runnerMacro]
    simp [hw]

theorem not_time_key (st : State) (htk : TimeKeysCompiled st) (k : GoString)
    (h1 : hasPrefix (k.drop 2) "UNIXTIME".toList = false)
    (h2 : hasPrefix (k.drop 2) "TIME".toList = false) :
    mapGet st.UnixtimeMacros k = none ∧ mapGet st.PrintTimeMacros k = none := by
  constructor
  · cases h : mapGet st.UnixtimeMacros k with
    | none => rfl
    | some u =>
      have := htk.1 k u h
      rw [h1] at this
      exact absurd this (by decide)
  · cases h : mapGet st.PrintTimeMacros k with
    | none => rfl
    | some u =>
      have := htk.2 k u h
      rw [h2] at this
      exact absurd this (by decide)

theorem _runnerMacro_key (ext : Ext) (rm : GoString → Res) (st : State)
    (command inputData : GoString) (sessionVars : GoMap GoString) (reqTime : Int)
    (htk : TimeKeysCompiled st) :
    _runnerMacro ext rm st command keyToken inputData sessionVars reqTime
      = match goIndex (stringsSplit inputData st.KvDelimeter) 0 with
        | some r => .ok r
        | none => .panic := by
  obtain ⟨h1, h2⟩ := not_time_key st htk keyToken (by decide) (by decide)
  have hw : wellFormed keyToken = true := by decide
  simp only [keyToken] at h1 h2 hw ⊢
  simp only [_runnerMacro, hw, h1, h2, Bool.not_true, Bool.false_eq_true, if_false, if_true]

theorem _runnerMacro_val (ext : Ext) (rm : GoString → Res) (st : State)
    (command inputData : GoString) (sessionVars : GoMap GoString) (reqTime : Int)
    (htk : TimeKeysCompiled st) :
    _runnerMacro ext rm st command valToken inputData sessionVars reqTime
      = if (stringsSplit inputData st.KvDelimeter).length > 1 then
          match goIndex (stringsSplit inputData st.KvDelimeter) 1 with
          | some r => .ok r
          | none => .panic
        else .ok [] := by
  obtain ⟨h1, h2⟩ := not_time_key st htk valToken (by decide) (by decide)
  have hw : wellFormed valToken = true := by decide
  have hne : ¬ ("\x7b%VAL\x7d".toList = "\x7b%KEY\x7d".toList) := by decide
  simp only [valToken] at h1 h2 hw ⊢
  simp only [_runnerMacro, hw, h1, h2, Bool.not_true, Bool.false_eq_true, if_false, hne,
    if_true]

theorem stringsSplit_not_occurs (sep s : GoString) (hsep : sep ≠ []) (h : ¬ Occurs sep s) :
    stringsSplit s sep = [s] := by
  simp only [stringsSplit, hsep, if_false, splitLoop, cutAt_none_of_not_occurs sep s h]

theorem stringsSplit_firstCut (sep s a rest : GoString) (hsep : sep ≠ [])
    (h : FirstCut sep s a rest) :
    stringsSplit s sep = a :: splitLoop sep s.length rest := by
  simp only [stringsSplit, hsep, if_false, splitLoop, cutAt_of_firstCut sep hsep s a rest h]

theorem splitLoop_head_not_occurs (sep rest : GoString) (k : Nat) (h : ¬ Occurs sep rest) :
    splitLoop sep k rest = [rest] := by
  cases k with
  | zero => rfl
  | succ k => simp only [splitLoop, cutAt_none_of_not_occurs sep rest h]

theorem splitLoop_head_firstCut (sep rest mid tail : GoString) (k : Nat) (hsep : sep ≠ [])
    (h : FirstCut sep rest mid tail) :
    splitLoop sep (k + 1) rest = mid :: splitLoop sep k tail := by
  simp only [splitLoop, cutAt_of_firstCut sep hsep rest mid tail h]

/-- C8: with a non-empty delimiter, `{%KEY}` resolves to the part of the input
row before the first occurrence of the delimiter (the whole row when the
delimiter does not occur), and `{%VAL}` to the part between that occurrence and
the next one after it (up to the end of the row when there is none), or to the
empty string when the delimiter does not occur. -/
theorem key_val_resolution (ext : Ext) (depth : Nat) (st : State)
    (command row : GoString) (sessionVars : GoMap GoString) (reqTime : Int)
    (hsep : st.KvDelimeter ≠ []) (htk : TimeKeysCompiled st) :
    (¬ Occurs st.KvDelimeter row →
      runnerMacro ext (depth + 1) st command keyToken row sessionVars reqTime = .ok row ∧
      runnerMacro ext (depth + 1) st command valToken row sessionVars reqTime = .ok []) ∧
    (∀ a rest, FirstCut st.KvDelimeter row a rest →
      runnerMacro ext (depth + 1) st command keyToken row sessionVars reqTime = .ok a ∧
      (¬ Occurs st.KvDelimeter rest →
        runnerMacro ext (depth + 1) st command valToken row sessionVars reqTime = .ok rest) ∧
      (∀ mid tail, FirstCut st.KvDelimeter rest mid tail →
        runnerMacro ext (depth + 1) st command valToken row sessionVars reqTime = .ok mid)) := by
  have hk : findSlice keyToken = none := by decide
  have hv : findSlice valToken = none := by decide
  rw [runnerMacro_plain ext depth st command keyToken row sessionVars reqTime hk,
    runnerMacro_plain ext depth st command valToken row sessionVars reqTime hv,
    _runnerMacro_key ext _ st command row sessionVars reqTime htk,
    _runnerMacro_val ext _ st command row sessionVars reqTime htk]
  refine ⟨?_, ?_⟩
  · intro hno
    rw [stringsSplit_not_occurs _ _ hsep hno]
    simp [goIndex]
  · intro a rest hcut
    have hpos := length_of_firstCut _ hsep _ _ _ hcut
    rw [stringsSplit_firstCut _ _ a rest hsep hcut]
    obtain ⟨k, hk2⟩ : ∃ k, row.length = k + 1 := ⟨row.length - 1, by omega⟩
    rw [hk2]
    refine ⟨by simp [goIndex], ?_, ?_⟩
    · intro hno
      rw [splitLoop_head_not_occurs _ _ _ hno]
      simp [goIndex]
    · intro mid tail hcut2
      rw [splitLoop_head_firstCut _ _ mid tail k hsep hcut2]
      simp [goIndex]

theorem timeKeysCompiled_initial : TimeKeysCompiled State.initial := by
  constructor <;> intro k u h <;> simp [State.initial, mapGet] at h

/-- C8, instance: the rows `alpha,beta` and `alpha` with the default delimiter. -/
theorem key_val_resolution_witness :
    (runnerMacro Ext.sample 1 State.initial "c".toList keyToken "alpha,beta".toList [] 0
        = .ok "alpha".toList ∧
      runnerMacro Ext.sample 1 State.initial "c".toList valToken "alpha,beta".toList [] 0
        = .ok "beta".toList) ∧
    (runnerMacro Ext.sample 1 State.initial "c".toList keyToken "alpha".toList [] 0
        = .ok "alpha".toList ∧
      runnerMacro Ext.sample 1 State.initial "c".toList valToken "alpha".toList [] 0
        = .ok []) :=
  have notIn : ∀ s : GoString, (',' : Char) ∉ s → ¬ Occurs State.initial.KvDelimeter s := by
    rintro s hs ⟨p, q, h⟩
    apply hs
    rw [h]
    simp [State.initial]
  have hcut : FirstCut State.initial.KvDelimeter "alpha,beta".toList "alpha".toList
      "beta".toList := firstCut_of_cutAt _ _ _ _ (by decide)
  have h := key_val_resolution Ext.sample 0 State.initial "c".toList "alpha,beta".toList [] 0
    (by decide) timeKeysCompiled_initial
  ⟨⟨(h.2 _ _ hcut).1, (h.2 _ _ hcut).2.1 (notIn _ (by decide))⟩,
   (key_val_resolution Ext.sample 0 State.initial "c".toList "alpha".toList [] 0
      (by decide) timeKeysCompiled_initial).1 (notIn _ (by decide))⟩

/-! ## Claims on the epoch-timestamp macros -/

theorem length_padLeft (fill : Char) (w : Nat) (s : GoString) :
    w ≤ (padLeft fill w s).length := by
  simp [padLeft]
  omega

theorem padLeft_of_le (fill : Char) (w : Nat) (s : GoString) (h : w ≤ s.length) :
    padLeft fill w s = s := by
  simp [padLeft, Nat.sub_eq_zero_of_le h]

theorem length_zeroPaddedHex12 (v : Int) : 12 ≤ (zeroPaddedHex12 v).length := by
  unfold zeroPaddedHex12
  split_ifs
  · have := length_padLeft '0' 11 (Nat.toDigits 16 v.natAbs)
    simp only [List.length_cons]
    omega
  · exact length_padLeft _ _ _

theorem fmtSprintf_012x (v : Int) : fmtSprintf "%012x".toList v = zeroPaddedHex12 v := by
  have e : fmtSprintf "%012x".toList v = fmtInteger 16 true (some 12) v := rfl
  rw [e]
  have hl := length_zeroPaddedHex12 v
  unfold zeroPaddedHex12 at hl ⊢
  unfold fmtInteger
  by_cases hv : v < 0
  · simp only [hv, if_true] at hl ⊢
    exact padLeft_of_le _ _ _ hl
  · simp only [hv, if_false] at hl ⊢
    exact padLeft_of_le _ _ _ hl

theorem fmtSprintf_d (v : Int) : fmtSprintf ['%', 'd'] v = decimalText v := by
  have e : fmtSprintf ['%', 'd'] v = fmtInteger 10 false none v := rfl
  rw [e]
  unfold fmtInteger decimalText padLeft
  by_cases hv : v < 0 <;> simp [hv]

theorem findHexWidth_marker (N : GoString) (hN : N ≠ []) (hNd : ∀ c ∈ N, c.isDigit = true) :
    findHexWidth ('%' :: (N ++ ['x'])) = some N := by
  have hx : Char.isDigit 'x' = false := by decide
  simp only [findHexWidth, takeWhile_append_stop N 'x' [] hNd hx,
    dropWhile_append_stop N 'x' [] hNd hx]
  simp [hN]

theorem goSlice_take (s : GoString) (n : Nat) (h : n ≤ s.length) :
    goSlice s 0 (n : Int) = some (s.take n) := by
  unfold goSlice
  have hc : (0 : Int) ≤ 0 ∧ (0 : Int) ≤ (n : Int) ∧ (n : Int) ≤ (s.length : Int) := by omega
  rw [if_pos hc]
  simp

/-- C9: for a registered epoch-timestamp macro whose stored format is `%<N>x`
with `N < 12`, resolution returns the first `N` characters of the 12-wide
zero-padded hexadecimal text of the milliseconds of the reference time plus the
offset; the result has exactly `N` characters (the slice is always in bounds).
The same holds through `runnerMacro` when the token has no slice annotation. -/
theorem unixtime_short_hex (ext : Ext) (rm : GoString → Res) (st : State)
    (command declaration inputData : GoString) (sessionVars : GoMap GoString) (reqTime : Int)
    (dur : Int) (N : GoString)
    (hwf : wellFormed declaration = true)
    (hreg : mapGet st.UnixtimeMacros declaration = some ⟨dur, '%' :: (N ++ ['x'])⟩)
    (hN : N ≠ []) (hNd : ∀ c ∈ N, c.isDigit = true) (hlt : decimalValue N < 12) :
    _runnerMacro ext rm st command declaration inputData sessionVars reqTime
      = .ok ((zeroPaddedHex12 (unixMillis reqTime dur)).take (decimalValue N)) ∧
    ((zeroPaddedHex12 (unixMillis reqTime dur)).take (decimalValue N)).length
      = decimalValue N ∧
    (findSlice declaration = none → ∀ depth,
      runnerMacro ext (depth + 1) st command declaration inputData sessionVars reqTime
        = .ok ((zeroPaddedHex12 (unixMillis reqTime dur)).take (decimalValue N))) := by
  have hl := length_zeroPaddedHex12 (unixMillis reqTime dur)
  have hat : strconvAtoi N = (decimalValue N : Int) := by
    rw [strconvAtoi_digits N hN hNd, if_pos (by omega)]
  have hge : ¬ ((decimalValue N : Int) ≥ 12) := by omega
  have main : ∀ rm2 : GoString → Res,
      _runnerMacro ext rm2 st command declaration inputData sessionVars reqTime
        = .ok ((zeroPaddedHex12 (unixMillis reqTime dur)).take (decimalValue N)) := by
    intro rm2
    simp only [_runnerMacro, hwf, Bool.not_true, Bool.false_eq_true, if_false, hreg,
      findHexWidth_marker N hN hNd, hat, hge, fmtSprintf_012x,
      goSlice_take _ _ (Nat.le_trans (Nat.le_of_lt hlt) hl)]
  refine ⟨main rm, ?_, ?_⟩
  · rw [List.length_take]
    omega
  · intro hs depth
    rw [runnerMacro_plain ext depth st command declaration inputData sessionVars reqTime hs]
    exact main _

/-- C9, instance: the macro `{%UNIXTIME+4HOURS%8x}` at the reference time of
1700000000000 ms gives the first 8 of the 12 hexadecimal characters of
1700014400000, not the last 8. -/
theorem unixtime_short_hex_witness :
    _runnerMacro Ext.sample (fun _ => .diverge) hexState "c".toList
        "\x7b%UNIXTIME+4HOURS%8x\x7d".toList [] [] (1700000000000 * 1000000)
      = .ok "018bd0c1".toList ∧
    zeroPaddedHex12 1700014400000 = "018bd0c12200".toList :=
  ⟨(unixtime_short_hex Ext.sample (fun _ => .diverge) hexState "c".toList
      "\x7b%UNIXTIME+4HOURS%8x\x7d".toList [] [] (1700000000000 * 1000000)
      (4 * (3600 * 1000000000)) "8".toList (by decide) (by decide) (by decide) (by decide)
      (by decide)).1.trans (by decide),
   by decide⟩

/-! ## Claims on the time-macro compiler -/

theorem hasHexMarker_of_hexMarkerAt (s m : GoString) (h : hexMarkerAt s = some m) :
    HasHexMarker s := by
  cases s with
  | nil => simp [hexMarkerAt] at h
  | cons c cs =>
    simp only [hexMarkerAt] at h
    split at h
    · rename_i hc
      obtain ⟨hc1, hc2⟩ := hc
      cases hD : cs.dropWhile Char.isDigit with
      | nil => simp [hD] at hc2
      | cons y post =>
        simp only [hD, List.head?_cons, Option.some.injEq] at hc2
        refine ⟨[], cs.takeWhile Char.isDigit, post, ?_, ?_⟩
        · intro d hd
          exact (List.mem_takeWhile_imp hd)
        · rw [List.nil_append, hc1, ← hc2, ← hD, List.takeWhile_append_dropWhile]
    · simp at h

theorem findHexMarker_eq_nil (arg : GoString) (h : ¬ HasHexMarker arg) :
    findHexMarker arg = [] := by
  induction arg with
  | nil => rfl
  | cons c cs ih =>
    have h1 : hexMarkerAt (c :: cs) = none := by
      cases hm : hexMarkerAt (c :: cs) with
      | none => rfl
      | some m => exact absurd (hasHexMarker_of_hexMarkerAt _ _ hm) h
    have h2 : ¬ HasHexMarker cs := by
      rintro ⟨pre, N, post, hN, e⟩
      exact h ⟨c :: pre, N, post, hN, by simp [e]⟩
    rw [findHexMarker, h1]
    exact ih h2

theorem goSlice_unixtimeToken (arg : GoString) :
    goSlice (unixtimeToken arg) 2 (((unixtimeToken arg).length : Int) - 1)
      = some ("UNIXTIME".toList ++ arg) := by
  have hlen : (unixtimeToken arg).length = arg.length + 11 := by
    simp [unixtimeToken]
  unfold goSlice
  have hc : (0 : Int) ≤ 2 ∧ (2 : Int) ≤ ((unixtimeToken arg).length : Int) - 1 ∧
      ((unixtimeToken arg).length : Int) - 1 ≤ ((unixtimeToken arg).length : Int) := by
    rw [hlen]
    omega
  rw [if_pos hc]
  have e1 : (unixtimeToken arg).drop (2 : Int).toNat = ("UNIXTIME".toList ++ arg) ++ ['}'] := by
    simp [unixtimeToken]
  have e2 : (((unixtimeToken arg).length : Int) - 1).toNat - (2 : Int).toNat
      = ("UNIXTIME".toList ++ arg).length := by
    rw [hlen]
    simp
    omega
  rw [e1, e2, List.take_left]

theorem wellFormed_unixtimeToken (arg : GoString) : wellFormed (unixtimeToken arg) = true := by
  have := wellFormed_append "\x7b%UNIXTIME".toList arg (Or.inl (by decide))
  exact this

theorem initUnixtimeMacro_unixtimeToken (st : State) (arg : GoString)
    (hno : ¬ HasHexMarker arg) :
    initUnixtimeMacro st (unixtimeToken arg)
      = match parseTimeModifier arg with
        | .error e =>
          .fatal ("UNIXTIME macro ".toList ++ ("UNIXTIME".toList ++ arg) ++ [':', ' '] ++ e)
        | .ok duration =>
          .ok { st with UnixtimeMacros :=
                  mapSet st.UnixtimeMacros (unixtimeToken arg) ⟨duration, ['%', 'd']⟩ } := by
  have hp : hasPrefix ("UNIXTIME".toList ++ arg) "UNIXTIME".toList = true := by
    unfold hasPrefix
    rw [List.isPrefixOf_iff_prefix]
    exact List.prefix_append _ _
  have hd : ("UNIXTIME".toList ++ arg).drop 8 = arg := by
    have : ("UNIXTIME".toList : GoString).length = 8 := by decide
    rw [← this, List.drop_left]
  simp only [initUnixtimeMacro, goSlice_unixtimeToken, hp, if_true, hd,
    findHexMarker_eq_nil arg hno, List.length_nil, gt_iff_lt, Nat.lt_irrefl, if_false]

theorem findHexWidth_of_marker (pre N post : GoString) (hN : N ≠ [])
    (hNd : ∀ c ∈ N, c.isDigit = true) :
    findHexWidth (pre ++ '%' :: (N ++ 'x' :: post)) ≠ none := by
  have hx : Char.isDigit 'x' = false := by decide
  induction pre with
  | nil =>
    simp only [List.nil_append, findHexWidth, takeWhile_append_stop N 'x' post hNd hx,
      dropWhile_append_stop N 'x' post hNd hx]
    simp [hN]
  | cons c cs ih =>
    rw [List.cons_append, findHexWidth]
    split
    · simp
    · exact ih

/-- C10 (as stated, refuted): the declaration of `{%UNIXTIME%x}` holds no marker
`%<N>x` with a decimal width, yet its compiled format is `%x`, not the decimal
format, and at the reference time of 255 ms its resolution is the hexadecimal
text `ff`, not the decimal text `255`. -/
theorem unixtime_bare_marker_is_hex :
    ¬ HasHexWidthMarker "UNIXTIME%x".toList ∧
    mapGet bareHexState.UnixtimeMacros (unixtimeToken "%x".toList) = some ⟨0, "%x".toList⟩ ∧
    _runnerMacro Ext.sample (fun _ => .diverge) bareHexState "c".toList
        (unixtimeToken "%x".toList) [] [] (255 * 1000000)
      = .ok "ff".toList ∧
    decimalText 255 = "255".toList := by
  refine ⟨?_, by decide, by decide, by decide⟩
  rintro ⟨pre, N, post, hN, hNd, e⟩
  have h := findHexWidth_of_marker pre N post hN hNd
  rw [← e] at h
  exact h (by decide)

/-- C10 (amended): for a `{%UNIXTIME...}` macro whose declaration holds no marker
at all, neither `%x` nor `%<N>x`, and that `initUnixtimeMacro` compiles, the
modifier is accepted by `parseTimeModifier`, the stored format is the decimal
format, and resolution returns the decimal text of the milliseconds since the
epoch of the reference time plus the offset. -/
theorem unixtime_plain_decimal (st st2 : State) (arg : GoString)
    (hno : ¬ HasHexMarker arg)
    (hinit : initUnixtimeMacro st (unixtimeToken arg) = .ok st2) :
    ∃ dur, parseTimeModifier arg = .ok dur ∧
      mapGet st2.UnixtimeMacros (unixtimeToken arg) = some ⟨dur, ['%', 'd']⟩ ∧
      ∀ (ext : Ext) (rm : GoString → Res) (command inputData : GoString)
        (sessionVars : GoMap GoString) (reqTime : Int),
        _runnerMacro ext rm st2 command (unixtimeToken arg) inputData sessionVars reqTime
          = .ok (decimalText (unixMillis reqTime dur)) := by
  rw [initUnixtimeMacro_unixtimeToken st arg hno] at hinit
  cases hp : parseTimeModifier arg with
  | error e => simp [hp] at hinit
  | ok dur =>
    simp only [hp, InitRes.ok.injEq] at hinit
    have hg : mapGet st2.UnixtimeMacros (unixtimeToken arg) = some ⟨dur, ['%', 'd']⟩ := by
      rw [← hinit]
      exact mapGet_mapSet_same _ _ _
    refine ⟨dur, rfl, hg, ?_⟩
    intro ext rm command inputData sessionVars reqTime
    have hw : findHexWidth ['%', 'd'] = none := by decide
    simp only [_runnerMacro, wellFormed_unixtimeToken, Bool.not_true, Bool.false_eq_true,
      if_false, hg, hw, fmtSprintf_d]

/-- C10 (amended), instance: `{%UNIXTIME+4HOURS}` compiled from the initial
state. -/
theorem unixtime_plain_decimal_witness :
    ∃ dur, parseTimeModifier "+4HOURS".toList = .ok dur ∧
      mapGet (State.mk [] [] [(unixtimeToken "+4HOURS".toList, ⟨14400000000000, ['%', 'd']⟩)]
          [] [] [] [] [','] []).UnixtimeMacros (unixtimeToken "+4HOURS".toList)
        = some ⟨dur, ['%', 'd']⟩ ∧
      ∀ (ext : Ext) (rm : GoString → Res) (command inputData : GoString)
        (sessionVars : GoMap GoString) (reqTime : Int),
        _runnerMacro ext rm
            (State.mk [] [] [(unixtimeToken "+4HOURS".toList, ⟨14400000000000, ['%', 'd']⟩)]
              [] [] [] [] [','] [])
            command (unixtimeToken "+4HOURS".toList) inputData sessionVars reqTime
          = .ok (decimalText (unixMillis reqTime dur)) :=
  unixtime_plain_decimal State.initial _ "+4HOURS".toList
    (by
      rintro ⟨pre, N, post, _, e⟩
      have h : ('%' : Char) ∈ "+4HOURS".toList := by
        rw [e]
        simp
      exact absurd h (by decide))
    (by decide)

/-! ## Invariant of the time-macro maps -/

theorem goSlice_eq_some (s : GoString) (lo hi : Int) (r : GoString)
    (h : goSlice s lo hi = some r) : r = (s.drop lo.toNat).take (hi.toNat - lo.toNat) := by
  unfold goSlice at h
  split at h
  · simpa using h.symm
  · simp at h

theorem hasPrefix_of_goSlice (tok decl pre : GoString) (hi : Int)
    (h : goSlice tok 2 hi = some decl) (hp : hasPrefix decl pre = true) :
    hasPrefix (tok.drop 2) pre = true := by
  have e := goSlice_eq_some tok 2 hi decl h
  unfold hasPrefix at hp ⊢
  rw [List.isPrefixOf_iff_prefix] at hp ⊢
  rw [e] at hp
  exact List.IsPrefix.trans hp (List.take_prefix _ _)

theorem timeKeysCompiled_initUnixtimeMacro (st st2 : State) (tok : GoString)
    (h : initUnixtimeMacro st tok = .ok st2) (htk : TimeKeysCompiled st) :
    TimeKeysCompiled st2 := by
  unfold initUnixtimeMacro at h
  cases hg : goSlice tok 2 ((tok.length : Int) - 1) with
  | none => simp [hg] at h
  | some decl =>
    simp only [hg] at h
    by_cases hp : hasPrefix decl "UNIXTIME".toList = true
    · simp only [hp, if_true] at h
      split at h
      · simp at h
      · simp only [InitRes.ok.injEq] at h
        subst h
        refine ⟨?_, htk.2⟩
        intro k u hk
        by_cases hkt : k = tok
        · rw [hkt]
          exact hasPrefix_of_goSlice tok decl _ _ hg hp
        · rw [mapGet_mapSet_other _ hkt] at hk
          exact htk.1 k u hk
    · simp only [hp, Bool.false_eq_true, if_false, InitRes.ok.injEq] at h
      rw [← h]
      exact htk

theorem timeKeysCompiled_initPrintTimeMacro (st st2 : State) (tok : GoString)
    (h : initPrintTimeMacro st tok = .ok st2) (htk : TimeKeysCompiled st) :
    TimeKeysCompiled st2 := by
  unfold initPrintTimeMacro at h
  cases hg : goSlice tok 2 ((tok.length : Int) - 1) with
  | none => simp [hg] at h
  | some decl =>
    simp only [hg] at h
    by_cases hp : hasPrefix decl "TIME".toList = true
    · simp only [hp, if_true] at h
      split at h
      · simp at h
      · simp only [InitRes.ok.injEq] at h
        subst h
        refine ⟨htk.1, ?_⟩
        intro k u hk
        by_cases hkt : k = tok
        · rw [hkt]
          exact hasPrefix_of_goSlice tok decl _ _ hg hp
        · rw [mapGet_mapSet_other _ hkt] at hk
          exact htk.2 k u hk
    · simp only [hp, Bool.false_eq_true, if_false, InitRes.ok.injEq] at h
      rw [← h]
      exact htk

/-! ## Claim on malformed tokens -/

theorem wellFormed_iff (s : GoString) :
    wellFormed s = true ↔ ((['{', '%'] <+: s ∨ ['{', '$'] <+: s) ∧ ['}'] <:+ s) := by
  simp [wellFormed, hasPrefix, hasSuffix]

/-- C14: for a string that does not both start with the opening brace followed
by `%` or `$` and end with the closing brace, `runnerMacro` (with any positive
nesting budget) and `_runnerMacro` return the empty string in every state, for
every command, input row, session variables and reference time; no slice is
taken, whatever annotation the string holds. -/
theorem runnerMacro_malformed (ext : Ext) (depth : Nat) (rm : GoString → Res) (st : State)
    (command declaration inputData : GoString) (sessionVars : GoMap GoString) (reqTime : Int)
    (h : ¬ ((['{', '%'] <+: declaration ∨ ['{', '$'] <+: declaration) ∧
      ['}'] <:+ declaration)) :
    runnerMacro ext (depth + 1) st command declaration inputData sessionVars reqTime = .ok [] ∧
    _runnerMacro ext rm st command declaration inputData sessionVars reqTime = .ok [] := by
  have hw : wellFormed declaration = false := by
    cases hc : wellFormed declaration with
    | false => rfl
    | true => exact absurd ((wellFormed_iff declaration).1 hc) h
  constructor
  · simp [runnerMacro, hw]
  · simp [_runnerMacro, hw]

/-- C14, instance: the text `KEY[0:2]` with a closing brace but without the
opening of a token, on an empty input row. -/
theorem runnerMacro_malformed_witness :
    runnerMacro Ext.sample 1 State.initial "c".toList "KEY[0:2]\x7d".toList [] [] 0 = .ok [] ∧
    _runnerMacro Ext.sample (fun _ => .diverge) State.initial "c".toList
      "KEY[0:2]\x7d".toList [] [] 0 = .ok [] :=
  runnerMacro_malformed Ext.sample 0 (fun _ => .diverge) State.initial "c".toList
    "KEY[0:2]\x7d".toList [] [] 0 (by decide)

/-! ## Claims on fields without tokens -/

theorem cutAt_some_of_occurs (sep p q : GoString) (hsep : sep ≠ []) :
    ∃ r, cutAt sep (p ++ sep ++ q) = some r := by
  induction p with
  | nil =>
    cases sep with
    | nil => exact absurd rfl hsep
    | cons s0 s1 =>
      have hp : (s0 :: s1).isPrefixOf ((s0 :: s1) ++ q) = true := by
        rw [List.isPrefixOf_iff_prefix]
        exact List.prefix_append _ _
      exact ⟨_, by rw [List.nil_append, List.cons_append, cutAt, ← List.cons_append, if_pos hp]⟩
  | cons c cs ih =>
    obtain ⟨r, hr⟩ := ih
    by_cases hp : sep.isPrefixOf (c :: cs ++ sep ++ q) = true
    · exact ⟨_, by rw [List.cons_append, List.cons_append, cutAt, if_pos (by simpa using hp)]⟩
    · refine ⟨(c :: r.1, r.2), ?_⟩
      rw [List.cons_append, List.cons_append, cutAt, if_neg (by simpa using hp), hr]
      rfl

theorem not_occurs_of_cutAt_none (sep s : GoString) (hsep : sep ≠ []) (h : cutAt sep s = none) :
    ¬ Occurs sep s := by
  rintro ⟨p, q, e⟩
  obtain ⟨r, hr⟩ := cutAt_some_of_occurs sep p q hsep
  rw [← e, h] at hr
  simp at hr

theorem stringsReplace_not_occurs (s old new : GoString) (n : Int) (h : ¬ Occurs old s) :
    stringsReplace s old new n = s := by
  have hne : old ≠ [] := by
    intro e
    exact h ⟨[], s, by simp [e]⟩
  unfold stringsReplace
  by_cases he : old = new
  · simp [he]
  · simp only [he, hne, if_false]
    generalize (if n < 0 then s.length + 1 else min n.toNat (s.length + 1)) = k
    cases k with
    | zero => rfl
    | succ k => simp only [replaceLoop, cutAt_none_of_not_occurs old s h]

theorem substLoop_not_occurs (rm : GoString → Res) (post : GoString → GoString)
    (toks : List GoString) (field : GoString)
    (hno : ∀ t ∈ toks, ¬ Occurs t field) (hres : ∀ t ∈ toks, (rm t).isOk = true) :
    substLoop rm post toks field = .ok field := by
  induction toks with
  | nil => rfl
  | cons t toks ih =>
    have ht := hres t (List.mem_cons_self _ _)
    cases hr : rm t with
    | ok v =>
      simp only [substLoop, hr, stringsReplace_not_occurs field t _ _ (hno t (List.mem_cons_self _ _))]
      exact ih (fun t2 h2 => hno t2 (List.mem_cons_of_mem _ h2))
        (fun t2 h2 => hres t2 (List.mem_cons_of_mem _ h2))
    | panic => simp [hr, Res.isOk] at ht
    | diverge => simp [hr, Res.isOk] at ht

/-- C20: when the field holds no occurrence of any token of the command's main
list and every listed token resolves to a string, `RunnerMacros` and
`RunnerMacrosRegexp` return the field unchanged; in particular for a command
without registered tokens. -/
theorem RunnerMacros_unchanged (ext : Ext) (depth : Nat) (st : State)
    (command inputData : GoString) (sessionVars : GoMap GoString) (reqTime : Int)
    (field : GoString)
    (hno : ∀ t ∈ mapSlice st.CommandMacros command, ¬ Occurs t field)
    (hres : ∀ t ∈ mapSlice st.CommandMacros command,
      (runnerMacro ext depth st command t inputData sessionVars reqTime).isOk = true) :
    RunnerMacros ext depth st command inputData sessionVars reqTime field = .ok field ∧
    RunnerMacrosRegexp ext depth st command inputData sessionVars reqTime field = .ok field :=
  ⟨substLoop_not_occurs _ _ _ _ hno hres, substLoop_not_occurs _ _ _ _ hno hres⟩

/-- C20, instance: the command of the re-expansion example, whose tokens are
`{%A}` and `{%B}`, on a field that holds `{%C}` only. -/
theorem RunnerMacros_unchanged_witness :
    RunnerMacros Ext.sample 1 reexpandState "c".toList [] reexpandVars 0
        "a \x7b%C\x7d b".toList = .ok "a \x7b%C\x7d b".toList ∧
    RunnerMacrosRegexp Ext.sample 1 reexpandState "c".toList [] reexpandVars 0
        "a \x7b%C\x7d b".toList = .ok "a \x7b%C\x7d b".toList :=
  RunnerMacros_unchanged Ext.sample 1 reexpandState "c".toList [] reexpandVars 0
    "a \x7b%C\x7d b".toList
    (by
      have hl : mapSlice reexpandState.CommandMacros "c".toList
          = ["\x7b%A\x7d".toList, "\x7b%B\x7d".toList] := by decide
      intro t ht
      rw [hl] at ht
      simp only [List.mem_cons, List.mem_singleton, List.not_mem_nil, or_false] at ht
      rcases ht with e | e <;> subst e <;>
        exact not_occurs_of_cutAt_none _ _ (by decide) (by decide))
    (by decide)

/-! ## Claim on the pattern-escaping renderer -/

theorem substLoop_post (rm : GoString → Res) (post : GoString → GoString)
    (toks : List GoString) (field : GoString) :
    substLoop rm post toks field = substLoop (fun t => (rm t).map post) id toks field := by
  induction toks generalizing field with
  | nil => rfl
  | cons t toks ih =>
    cases hr : rm t with
    | ok v => simp only [substLoop, hr, Res.map, id, ih]
    | panic => simp only [substLoop, hr, Res.map]
    | diverge => simp only [substLoop, hr, Res.map]

theorem regexpQuoteMeta_of_plain (v : GoString) (h : ∀ c ∈ v, c ∉ regexpMeta) :
    regexpQuoteMeta v = v := by
  induction v with
  | nil => rfl
  | cons c cs ih =>
    have hc : c ∉ regexpMeta := h c (List.mem_cons_self _ _)
    have := ih (fun d hd => h d (List.mem_cons_of_mem _ hd))
    unfold regexpQuoteMeta at this ⊢
    simp only [List.flatMap_cons, hc, if_false, this, List.singleton_append]

theorem substLoop_congr_post (rm : GoString → Res) (post1 post2 : GoString → GoString)
    (toks : List GoString) (field : GoString)
    (h : ∀ t ∈ toks, post1 (rm t).value = post2 (rm t).value) :
    substLoop rm post1 toks field = substLoop rm post2 toks field := by
  induction toks generalizing field with
  | nil => rfl
  | cons t toks ih =>
    have ht := h t (List.mem_cons_self _ _)
    cases hr : rm t with
    | ok v =>
      rw [hr] at ht
      simp only [Res.value] at ht
      simp only [substLoop, hr, ht]
      exact ih _ (fun t2 h2 => h t2 (List.mem_cons_of_mem _ h2))
    | panic => simp only [substLoop, hr]
    | diverge => simp only [substLoop, hr]

/-- C17: with `regexp.QuoteMeta` for the pattern escaping, `RunnerMacrosRegexp`
is the substitution loop of `RunnerMacros` run with every resolved value
escaped, and it returns what `RunnerMacros` returns whenever no resolved value
of the command's tokens holds a regular-expression metacharacter. -/
theorem RunnerMacrosRegexp_refines (ext : Ext) (depth : Nat) (st : State)
    (command inputData : GoString) (sessionVars : GoMap GoString) (reqTime : Int)
    (field : GoString) (hq : ∀ s, ext.quoteMeta s = regexpQuoteMeta s) :
    RunnerMacrosRegexp ext depth st command inputData sessionVars reqTime field
      = substLoop
          (fun t => (runnerMacro ext depth st command t inputData sessionVars reqTime).map
            regexpQuoteMeta)
          id (mapSlice st.CommandMacros command) field ∧
    RunnerMacros ext depth st command inputData sessionVars reqTime field
      = substLoop
          (fun t => runnerMacro ext depth st command t inputData sessionVars reqTime)
          id (mapSlice st.CommandMacros command) field ∧
    ((∀ t ∈ mapSlice st.CommandMacros command,
        ∀ c ∈ (runnerMacro ext depth st command t inputData sessionVars reqTime).value,
          c ∉ regexpMeta) →
      RunnerMacrosRegexp ext depth st command inputData sessionVars reqTime field
        = RunnerMacros ext depth st command inputData sessionVars reqTime field) := by
  have hqf : ext.quoteMeta = regexpQuoteMeta := funext hq
  refine ⟨?_, rfl, ?_⟩
  · unfold RunnerMacrosRegexp
    rw [hqf, substLoop_post]
  · intro h
    unfold RunnerMacrosRegexp RunnerMacros
    rw [hqf]
    apply substLoop_congr_post
    intro t ht
    exact regexpQuoteMeta_of_plain _ (h t ht)

/-- C17, instance: the tokens `{%A}` and `{%B}` with `A` holding `a.b`: the dot is
escaped by `RunnerMacrosRegexp` only. -/
theorem RunnerMacrosRegexp_refines_witness :
    RunnerMacrosRegexp Ext.quoting 1 reexpandState "c".toList [] quotingVars 0
        "\x7b%A\x7d-\x7b%B\x7d".toList = .ok "a\\.b-x".toList ∧
    RunnerMacros Ext.quoting 1 reexpandState "c".toList [] quotingVars 0
        "\x7b%A\x7d-\x7b%B\x7d".toList = .ok "a.b-x".toList :=
  ⟨(RunnerMacrosRegexp_refines Ext.quoting 1 reexpandState "c".toList [] quotingVars 0
      "\x7b%A\x7d-\x7b%B\x7d".toList (fun _ => rfl)).1.trans (by decide),
   by decide⟩

/-! ## Claims on the visit of the registries -/

theorem timeKeysCompiled_compileToken (st st2 : State) (tok : GoString)
    (h : compileToken st tok = .ok st2) (htk : TimeKeysCompiled st) : TimeKeysCompiled st2 := by
  unfold compileToken at h
  cases h1 : initUnixtimeMacro st tok with
  | ok st1 =>
    rw [h1] at h
    exact timeKeysCompiled_initPrintTimeMacro st1 st2 tok h
      (timeKeysCompiled_initUnixtimeMacro st st1 tok h1 htk)
  | fatal msg => rw [h1] at h; simp at h
  | panic => rw [h1] at h; simp at h

theorem timeKeysCompiled_compileTokens (toks : List GoString) (st st2 : State)
    (h : compileTokens toks st = .ok st2) (htk : TimeKeysCompiled st) : TimeKeysCompiled st2 := by
  induction toks generalizing st with
  | nil =>
    simp only [compileTokens, InitRes.ok.injEq] at h
    rw [← h]
    exact htk
  | cons t toks ih =>
    simp only [compileTokens] at h
    cases h1 : compileToken st t with
    | ok st1 =>
      rw [h1] at h
      exact ih st1 h (timeKeysCompiled_compileToken st st1 t h1 htk)
    | fatal msg => rw [h1] at h; simp at h
    | panic => rw [h1] at h; simp at h

theorem timeKeysCompiled_compileRegistry (m : GoMap (List GoString)) (st st2 : State)
    (h : compileRegistry m st = .ok st2) (htk : TimeKeysCompiled st) : TimeKeysCompiled st2 := by
  induction m generalizing st with
  | nil =>
    simp only [compileRegistry, InitRes.ok.injEq] at h
    rw [← h]
    exact htk
  | cons p m ih =>
    obtain ⟨k, toks⟩ := p
    simp only [compileRegistry] at h
    cases h1 : compileTokens toks st with
    | ok st1 =>
      rw [h1] at h
      exact ih st1 h (timeKeysCompiled_compileTokens toks st st1 h1 htk)
    | fatal msg => rw [h1] at h; simp at h
    | panic => rw [h1] at h; simp at h

theorem timeKeysCompiled_InitUnixtimeMacrosIn (oc ob om : GoMap (List GoString))
    (st st2 : State) (h : InitUnixtimeMacrosIn oc ob om st = .ok st2) : TimeKeysCompiled st2 := by
  unfold InitUnixtimeMacrosIn at h
  have h0 : TimeKeysCompiled { st with PrintTimeMacros := [], UnixtimeMacros := [] } := by
    constructor <;> intro k u hk <;> simp [mapGet] at hk
  simp only at h
  cases h1 : compileRegistry oc { st with PrintTimeMacros := [], UnixtimeMacros := [] } with
  | ok st1 =>
    rw [h1] at h
    simp only at h
    cases h2 : compileRegistry ob st1 with
    | ok st3 =>
      rw [h2] at h
      exact timeKeysCompiled_compileRegistry om st3 st2 h
        (timeKeysCompiled_compileRegistry ob st1 st3 h2
          (timeKeysCompiled_compileRegistry oc _ st1 h1 h0))
    | fatal msg => rw [h2] at h; simp at h
    | panic => rw [h2] at h; simp at h
  | fatal msg => rw [h1] at h; simp at h
  | panic => rw [h1] at h; simp at h

theorem not_both_time_prefixes (s : GoString) (h1 : hasPrefix s "UNIXTIME".toList = true)
    (h2 : hasPrefix s "TIME".toList = true) : False := by
  cases s with
  | nil => simp [hasPrefix] at h1
  | cons c cs =>
    have e1 : c = 'U' := by
      simp only [hasPrefix] at h1
      rw [List.isPrefixOf_iff_prefix] at h1
      obtain ⟨t, ht⟩ := h1
      have := congrArg List.head? ht
      simpa using this.symm
    have e2 : c = 'T' := by
      simp only [hasPrefix] at h2
      rw [List.isPrefixOf_iff_prefix] at h2
      obtain ⟨t, ht⟩ := h2
      have := congrArg List.head? ht
      simpa using this.symm
    rw [e1] at e2
    exact absurd e2 (by decide)

/-- C16: after `InitUnixtimeMacros` completes, in whatever order the registries
were visited, no token is a key of both `UnixtimeMacros` and `PrintTimeMacros`. -/
theorem time_maps_disjoint (oc ob om : GoMap (List GoString)) (st st2 : State)
    (h : InitUnixtimeMacrosIn oc ob om st = .ok st2) (k : GoString) :
    ¬ ((mapGet st2.UnixtimeMacros k).isSome = true ∧
       (mapGet st2.PrintTimeMacros k).isSome = true) := by
  have htk := timeKeysCompiled_InitUnixtimeMacrosIn oc ob om st st2 h
  rintro ⟨h1, h2⟩
  cases hu : mapGet st2.UnixtimeMacros k with
  | none => rw [hu] at h1; simp at h1
  | some u =>
    cases hp : mapGet st2.PrintTimeMacros k with
    | none => rw [hp] at h2; simp at h2
    | some p => exact not_both_time_prefixes _ (htk.1 k u hu) (htk.2 k p hp)

/-- C16, instance: the state of the time-macro examples and the token
`{%TIME-2DAYS}`. -/
theorem time_maps_disjoint_witness :
    InitUnixtimeMacros timeState = .ok compiledTimeState ∧
    ¬ ((mapGet compiledTimeState.UnixtimeMacros "\x7b%TIME-2DAYS\x7d".toList).isSome = true ∧
       (mapGet compiledTimeState.PrintTimeMacros "\x7b%TIME-2DAYS\x7d".toList).isSome = true) :=
  ⟨by decide,
   time_maps_disjoint timeState.CommandMacros timeState.Base64Macros timeState.Md5Macros
     timeState compiledTimeState (by decide) "\x7b%TIME-2DAYS\x7d".toList⟩

/-! ## Claim on environment tokens -/

/-- C11 (code defect): a field made of the token `{$TIME}` is registered and
`InitUnixtimeMacros` completes; the token is then a key of `PrintTimeMacros`, and
with the environment variable `TIME` set to `noon` its resolution is the
calendar rendering of the reference time, not `noon`.  A field made of
`{$TIMEOUT}` makes `InitUnixtimeMacros` stop with a fatal error. -/
theorem env_token_compiled_as_time :
    mapSlice envTimeState.CommandMacros "c".toList = ["\x7b$TIME\x7d".toList] ∧
    InitUnixtimeMacros envTimeState = .ok compiledEnvTimeState ∧
    mapGet compiledEnvTimeState.PrintTimeMacros "\x7b$TIME\x7d".toList
      = some ⟨0, printTimeLayout⟩ ∧
    Ext.withEnv.getenv "TIME".toList = "noon".toList ∧
    runnerMacro Ext.withEnv 1 compiledEnvTimeState "c".toList "\x7b$TIME\x7d".toList [] [] 0
      = .ok (Ext.withEnv.timeFormat 0 printTimeLayout) ∧
    runnerMacro Ext.withEnv 1 compiledEnvTimeState "c".toList "\x7b$TIME\x7d".toList [] [] 0
      ≠ .ok "noon".toList ∧
    InitUnixtimeMacros (InitMacros State.initial "c".toList "\x7b$TIMEOUT\x7d".toList)
      = .fatal "TIME macro TIMEOUT: time modifier OUT is not supported".toList := by
  decide

/-! ## Claims on the column-header index -/

theorem colToken_injective (v w : GoString) (h : colToken v = colToken w) : v = w := by
  unfold colToken at h
  have := List.append_cancel_right h
  simpa using this

theorem mapGet_headLoop_of_not_mem (cols : GoMap Int) (i : Nat) (vals : List GoString)
    (k : GoString) (h : ∀ v ∈ vals, k ≠ colToken v) :
    mapGet (headLoop cols i vals) k = mapGet cols k := by
  induction vals generalizing cols i with
  | nil => rfl
  | cons v vs ih =>
    rw [headLoop, ih _ _ (fun w hw => h w (List.mem_cons_of_mem _ hw))]
    exact mapGet_mapSet_other _ (h v (List.mem_cons_self _ _)) _

theorem mapGet_headLoop_of_mem (cols : GoMap Int) (i j : Nat) (vals : List GoString)
    (v : GoString) (hnd : vals.Nodup) (hj : vals[j]? = some v) :
    mapGet (headLoop cols i vals) (colToken v) = some (Int.ofNat (i + j)) := by
  induction vals generalizing cols i j with
  | nil => simp at hj
  | cons w ws ih =>
    rw [List.nodup_cons] at hnd
    cases j with
    | zero =>
      simp only [List.getElem?_cons_zero, Option.some.injEq] at hj
      subst hj
      rw [headLoop, mapGet_headLoop_of_not_mem]
      · exact mapGet_mapSet_same _ _ _
      · intro x hx e
        have := colToken_injective _ _ e
        rw [this] at hnd
        exact hnd.1 hx
    | succ j =>
      simp only [List.getElem?_cons_succ] at hj
      rw [headLoop, ih _ (i + 1) j hnd.2 hj]
      congr 2
      omega

theorem length_le_mapSet {V : Type} (m : GoMap V) (k : GoString) (v : V) :
    1 ≤ (mapSet m k v).length ∧ m.length ≤ (mapSet m k v).length := by
  induction m with
  | nil => simp [mapSet]
  | cons p m ih =>
    obtain ⟨k1, v1⟩ := p
    by_cases h : k = k1
    · simp [mapSet, h]
    · simp only [mapSet, h, if_false, List.length_cons]
      omega

theorem length_le_headLoop (cols : GoMap Int) (i : Nat) (vals : List GoString) :
    cols.length ≤ (headLoop cols i vals).length := by
  induction vals generalizing cols i with
  | nil => exact Nat.le_refl _
  | cons v vs ih =>
    rw [headLoop]
    exact Nat.le_trans (length_le_mapSet cols _ _).2 (ih _ _)

theorem splitLoop_ne_nil (sep : GoString) (k : Nat) (s : GoString) : splitLoop sep k s ≠ [] := by
  cases k with
  | zero => simp [splitLoop]
  | succ k =>
    rw [splitLoop]
    split <;> simp

theorem hasInputColHeaders_HeadInputColumns (st : State) (header : GoString)
    (hsep : st.KvDelimeter ≠ []) : HasInputColHeaders (HeadInputColumns st header) = true := by
  have hne : stringsSplit header st.KvDelimeter ≠ [] := by
    simp only [stringsSplit, hsep, if_false]
    exact splitLoop_ne_nil _ _ _
  unfold HasInputColHeaders HeadInputColumns
  cases hs : stringsSplit header st.KvDelimeter with
  | nil => exact absurd hs hne
  | cons v vs =>
    simp only [headLoop, decide_eq_true_eq]
    have h1 := (length_le_mapSet st.inputColHeaders (colToken v) (Int.ofNat 0)).1
    have h2 := length_le_headLoop (mapSet st.inputColHeaders (colToken v) (Int.ofNat 0)) (0 + 1) vs
    have e : ('{' :: '%' :: v ++ ['}'] : GoString) = colToken v := rfl
    rw [e]
    omega

theorem _runnerMacro_column (ext : Ext) (rm : GoString → Res) (st : State)
    (command decl row : GoString) (sessionVars : GoMap GoString) (reqTime : Int)
    (hw : wellFormed decl = true)
    (hu : mapGet st.UnixtimeMacros decl = none) (hp : mapGet st.PrintTimeMacros decl = none)
    (h1 : decl ≠ "\x7b%KEY\x7d".toList) (h2 : decl ≠ "\x7b%VAL\x7d".toList)
    (h3 : decl ≠ "\x7b%MD5SUM\x7d".toList) (h4 : decl ≠ "\x7b%BASE64ENC\x7d".toList)
    (h5 : hasPrefix decl ['{', '$'] = false) (i : Int)
    (hi : (∃ ds, findCsvIndex decl = some ds ∧ strconvAtoi ds = i) ∨
      (findCsvIndex decl = none ∧ inputColumnIndex st decl = i))
    (hi0 : 0 ≤ i) :
    _runnerMacro ext rm st command decl row sessionVars reqTime
      = match goIndex (stringsSplit row st.KvDelimeter) i with
        | some r => .ok r
        | none => .panic := by
  have hge : i ≥ 0 := hi0
  rcases hi with ⟨ds, hc, hv⟩ | ⟨hc, hv⟩
  · simp only [_runnerMacro, hw, hu, hp, h1, h2, h3, h4, h5, hc, hv, hge, Bool.not_true,
      Bool.false_eq_true, if_false, if_true]
  · simp only [_runnerMacro, hw, hu, hp, h1, h2, h3, h4, h5, hc, hv, hge, Bool.not_true,
      Bool.false_eq_true, if_false, if_true]

theorem goIndex_of_getElem? (arr : List GoString) (i : Nat) (f : GoString)
    (h : arr[i]? = some f) : goIndex arr (Int.ofNat i) = some f := by
  unfold goIndex
  simp [h]

theorem csvToken_eq (ds : GoString) :
    csvToken ds = '{' :: '%' :: 'C' :: 'S' :: 'V' :: '[' :: (ds ++ [']', '}']) := by
  simp [csvToken, csvOpen]

theorem sliceAt_of_ne (c : Char) (cs : GoString) (h : c ≠ '[') : sliceAt (c :: cs) = none := by
  simp [sliceAt, h]

theorem findSlice_of_not_mem (s : GoString) (h : '[' ∉ s) : findSlice s = none := by
  induction s with
  | nil => rfl
  | cons c cs ih =>
    have hc : c ≠ '[' := fun e => h (by simp [e])
    rw [findSlice, sliceAt_of_ne c cs hc]
    exact ih (fun hm => h (List.mem_cons_of_mem _ hm))

theorem findSlice_csvToken (ds : GoString) (hd : ∀ c ∈ ds, c.isDigit = true) :
    findSlice (csvToken ds) = none := by
  have hb : '[' ∉ ds ++ [']', '}'] := by
    intro hm
    rw [List.mem_append] at hm
    rcases hm with hm | hm
    · exact absurd (hd _ hm) (by decide)
    · exact absurd hm (by decide)
  have h0 : sliceAt ('[' :: (ds ++ [']', '}'])) = none := by
    simp only [sliceAt, takeWhile_append_stop ds ']' ['}'] hd (by decide),
      dropWhile_append_stop ds ']' ['}'] hd (by decide)]
    simp
  rw [csvToken_eq]
  simp only [findSlice, sliceAt_of_ne '{' _ (by decide), sliceAt_of_ne '%' _ (by decide),
    sliceAt_of_ne 'C' _ (by decide), sliceAt_of_ne 'S' _ (by decide),
    sliceAt_of_ne 'V' _ (by decide), h0]
  exact findSlice_of_not_mem _ hb

theorem findCsvIndex_csvToken (ds : GoString) (hne : ds ≠ [])
    (hd : ∀ c ∈ ds, c.isDigit = true) : findCsvIndex (csvToken ds) = some ds := by
  rw [csvToken_eq]
  have hp : csvOpen.isPrefixOf ('{' :: '%' :: 'C' :: 'S' :: 'V' :: '[' :: (ds ++ [']', '}']))
      = true := by
    simp [csvOpen]
  have hdrop : ('{' :: '%' :: 'C' :: 'S' :: 'V' :: '[' :: (ds ++ [']', '}'])).drop csvOpen.length
      = ds ++ [']', '}'] := by
    simp [csvOpen]
  simp only [findCsvIndex, hp, hdrop, takeWhile_append_stop ds ']' ['}'] hd (by decide),
    dropWhile_append_stop ds ']' ['}'] hd (by decide)]
  simp [hne]

theorem wellFormed_colToken (v : GoString) : wellFormed (colToken v) = true := by
  have := wellFormed_append ['{', '%'] v (Or.inl (by decide))
  exact this

theorem hasPrefix_env_colToken (v : GoString) : hasPrefix (colToken v) ['{', '$'] = false := by
  simp [hasPrefix, colToken, List.isPrefixOf]

theorem colToken_ne_of_not_builtin (v : GoString) (h : v ∉ builtinNames) :
    colToken v ≠ "\x7b%KEY\x7d".toList ∧ colToken v ≠ "\x7b%VAL\x7d".toList ∧
    colToken v ≠ "\x7b%MD5SUM\x7d".toList ∧ colToken v ≠ "\x7b%BASE64ENC\x7d".toList := by
  have e1 : ("\x7b%KEY\x7d".toList : GoString) = colToken "KEY".toList := by decide
  have e2 : ("\x7b%VAL\x7d".toList : GoString) = colToken "VAL".toList := by decide
  have e3 : ("\x7b%MD5SUM\x7d".toList : GoString) = colToken "MD5SUM".toList := by decide
  have e4 : ("\x7b%BASE64ENC\x7d".toList : GoString) = colToken "BASE64ENC".toList := by decide
  simp only [builtinNames, List.mem_cons, List.mem_singleton, List.not_mem_nil, or_false,
    not_or] at h
  rw [e1, e2, e3, e4]
  exact ⟨fun e => h.1 (colToken_injective _ _ e), fun e => h.2.1 (colToken_injective _ _ e),
    fun e => h.2.2.1 (colToken_injective _ _ e), fun e => h.2.2.2 (colToken_injective _ _ e)⟩

theorem csvToken_plain (ds : GoString) :
    wellFormed (csvToken ds) = true ∧ hasPrefix (csvToken ds) ['{', '$'] = false ∧
    hasPrefix ((csvToken ds).drop 2) "UNIXTIME".toList = false ∧
    hasPrefix ((csvToken ds).drop 2) "TIME".toList = false ∧
    csvToken ds ≠ "\x7b%KEY\x7d".toList ∧ csvToken ds ≠ "\x7b%VAL\x7d".toList ∧
    csvToken ds ≠ "\x7b%MD5SUM\x7d".toList ∧ csvToken ds ≠ "\x7b%BASE64ENC\x7d".toList := by
  have hw : wellFormed (csvToken ds) = true := by
    have := wellFormed_append ['{', '%'] ('C' :: 'S' :: 'V' :: '[' :: (ds ++ [']'])) (Or.inl (by decide))
    rw [csvToken_eq]
    simpa using this
  have e1 : ("\x7b%KEY\x7d".toList : GoString) = ['{', '%', 'K', 'E', 'Y', '}'] := by decide
  have e2 : ("\x7b%VAL\x7d".toList : GoString) = ['{', '%', 'V', 'A', 'L', '}'] := by decide
  have e3 : ("\x7b%MD5SUM\x7d".toList : GoString)
      = ['{', '%', 'M', 'D', '5', 'S', 'U', 'M', '}'] := by decide
  have e4 : ("\x7b%BASE64ENC\x7d".toList : GoString)
      = ['{', '%', 'B', 'A', 'S', 'E', '6', '4', 'E', 'N', 'C', '}'] := by decide
  have u1 : ("UNIXTIME".toList : GoString) = ['U', 'N', 'I', 'X', 'T', 'I', 'M', 'E'] := by
    decide
  have u2 : ("TIME".toList : GoString) = ['T', 'I', 'M', 'E'] := by decide
  rw [e1, e2, e3, e4, u1, u2]
  refine ⟨hw, ?_, ?_, ?_, ?_, ?_, ?_, ?_⟩
  · simp [hasPrefix, csvToken_eq, List.isPrefixOf]
  · rw [csvToken_eq]
    simp [hasPrefix, List.isPrefixOf]
  · rw [csvToken_eq]
    simp [hasPrefix, List.isPrefixOf]
  all_goals
    rw [csvToken_eq]
    intro e
    simp at e

/-- C12 (as stated, refuted): the header line `a[0:1],b` has two distinct names
and gives the token `{%a[0:1]}` the position 0, the name is neither a built-in
nor a time macro name, and the row `xyz,w` has two fields; yet resolving
`{%a[0:1]}` does not return the field `xyz`: the token is read as a slice of
`{%a}` and the resolution panics. -/
theorem column_header_with_slice_text :
    stringsSplit "a[0:1],b".toList State.initial.KvDelimeter = ["a[0:1]".toList, "b".toList] ∧
    inputColumnIndex sliceHeaderState (colToken "a[0:1]".toList) = 0 ∧
    stringsSplit "xyz,w".toList sliceHeaderState.KvDelimeter = ["xyz".toList, "w".toList] ∧
    "a[0:1]".toList ∉ builtinNames ∧
    mapGet sliceHeaderState.UnixtimeMacros (colToken "a[0:1]".toList) = none ∧
    mapGet sliceHeaderState.PrintTimeMacros (colToken "a[0:1]".toList) = none ∧
    runnerMacro Ext.sample 1 sliceHeaderState "c".toList (colToken "a[0:1]".toList)
      "xyz,w".toList [] 0 = .panic := by
  decide

/-- C12 (amended): with a non-empty delimiter and pairwise distinct header names,
after `HeadInputColumns` on an empty index `HasInputColHeaders` is true,
`inputColumnIndex` gives every token built from a header name the position of
the name and -1 to every other token, and on a data row that has a field at
position `i` the token of the name at position `i` resolves to that field,
provided the token is not a registered time macro, the name is not a built-in
name, and the token neither carries a slice annotation nor holds the indexed
column form.  The indexed form with digits of value `i` resolves to the same
field. -/
theorem column_header_resolution (ext : Ext) (depth : Nat) (st : State)
    (command header row : GoString) (sessionVars : GoMap GoString) (reqTime : Int)
    (hsep : st.KvDelimeter ≠ []) (hempty : st.inputColHeaders = [])
    (hnd : (stringsSplit header st.KvDelimeter).Nodup) (htk : TimeKeysCompiled st) :
    HasInputColHeaders (HeadInputColumns st header) = true ∧
    (∀ (i : Nat) v, (stringsSplit header st.KvDelimeter)[i]? = some v →
      inputColumnIndex (HeadInputColumns st header) (colToken v) = (i : Int)) ∧
    (∀ tok, (∀ v ∈ stringsSplit header st.KvDelimeter, tok ≠ colToken v) →
      inputColumnIndex (HeadInputColumns st header) tok = -1) ∧
    (∀ (i : Nat) v f, (stringsSplit header st.KvDelimeter)[i]? = some v →
      (stringsSplit row st.KvDelimeter)[i]? = some f →
      v ∉ builtinNames →
      mapGet st.UnixtimeMacros (colToken v) = none →
      mapGet st.PrintTimeMacros (colToken v) = none →
      findSlice (colToken v) = none → findCsvIndex (colToken v) = none →
      runnerMacro ext (depth + 1) (HeadInputColumns st header) command (colToken v) row
        sessionVars reqTime = .ok f) ∧
    (∀ (i : Nat) ds f, (stringsSplit row st.KvDelimeter)[i]? = some f →
      ds ≠ [] → (∀ c ∈ ds, c.isDigit = true) → decimalValue ds = i → i < 2 ^ 63 →
      runnerMacro ext (depth + 1) (HeadInputColumns st header) command (csvToken ds) row
        sessionVars reqTime = .ok f) := by
  have hidx : ∀ (i : Nat) v, (stringsSplit header st.KvDelimeter)[i]? = some v →
      inputColumnIndex (HeadInputColumns st header) (colToken v) = (i : Int) := by
    intro i v hv
    have := mapGet_headLoop_of_mem st.inputColHeaders 0 i _ v hnd hv
    simp only [inputColumnIndex, HeadInputColumns, this, Nat.zero_add]
    rfl
  refine ⟨hasInputColHeaders_HeadInputColumns st header hsep, hidx, ?_, ?_, ?_⟩
  · intro tok htok
    have := mapGet_headLoop_of_not_mem st.inputColHeaders 0 _ tok htok
    rw [hempty] at this
    simp only [inputColumnIndex, HeadInputColumns, hempty, this, mapGet]
  · intro i v f hv hf hb hu hp hs hc
    obtain ⟨h1, h2, h3, h4⟩ := colToken_ne_of_not_builtin v hb
    rw [runnerMacro_plain ext depth _ command (colToken v) row sessionVars reqTime hs,
      _runnerMacro_column ext _ (HeadInputColumns st header) command (colToken v) row
        sessionVars reqTime (wellFormed_colToken v) hu hp h1 h2 h3 h4
        (hasPrefix_env_colToken v) (i : Int) (Or.inr ⟨hc, hidx i v hv⟩) (by omega)]
    have hg := goIndex_of_getElem? _ i f hf
    simp only [HeadInputColumns, Int.ofNat_eq_coe] at hg ⊢
    rw [hg]
  · intro i ds f hf hne hd hval hlt
    obtain ⟨hw, h5, hpu, hpt, h1, h2, h3, h4⟩ := csvToken_plain ds
    obtain ⟨hu, hp⟩ := not_time_key st htk (csvToken ds) hpu hpt
    have hat : strconvAtoi ds = (i : Int) := by
      rw [strconvAtoi_digits ds hne hd, hval, if_pos hlt]
    rw [runnerMacro_plain ext depth _ command (csvToken ds) row sessionVars reqTime
        (findSlice_csvToken ds hd),
      _runnerMacro_column ext _ (HeadInputColumns st header) command (csvToken ds) row
        sessionVars reqTime hw hu hp h1 h2 h3 h4 h5 (i : Int)
        (Or.inl ⟨ds, findCsvIndex_csvToken ds hne hd, hat⟩) (by omega)]
    have hg := goIndex_of_getElem? _ i f hf
    simp only [HeadInputColumns, Int.ofNat_eq_coe] at hg ⊢
    rw [hg]

/-- C12 (amended), instance: the header `id,name,amount` and the row
`1,Alice,42`: `{%name}` gives `Alice` and `{%CSV[2]}` gives `42`. -/
theorem column_header_resolution_witness :
    runnerMacro Ext.sample 1 headerState "c".toList (colToken "name".toList)
      "1,Alice,42".toList [] 0 = .ok "Alice".toList ∧
    runnerMacro Ext.sample 1 headerState "c".toList (csvToken "2".toList)
      "1,Alice,42".toList [] 0 = .ok "42".toList :=
  have h := column_header_resolution Ext.sample 0 State.initial "c".toList
    "id,name,amount".toList "1,Alice,42".toList [] 0 (by decide) rfl (by decide)
    timeKeysCompiled_initial
  ⟨h.2.2.2.1 1 "name".toList "Alice".toList (by decide) (by decide) (by decide) (by decide)
      (by decide) (by decide) (by decide),
   h.2.2.2.2 2 "2".toList "42".toList (by decide) (by decide) (by decide) (by decide)
      (by decide)⟩

/-! ## Claims on the checksum macro -/

theorem _runnerMacro_commandMacros (ext : Ext) (rm : GoString → Res) (st : State)
    (cm : GoMap (List GoString)) (command declaration inputData : GoString)
    (sessionVars : GoMap GoString) (reqTime : Int) :
    _runnerMacro ext rm { st with CommandMacros := cm } command declaration inputData
        sessionVars reqTime
      = _runnerMacro ext rm st command declaration inputData sessionVars reqTime := rfl

theorem runnerMacro_commandMacros (ext : Ext) (depth : Nat) (st : State)
    (cm : GoMap (List GoString)) (command declaration inputData : GoString)
    (sessionVars : GoMap GoString) (reqTime : Int) :
    runnerMacro ext depth { st with CommandMacros := cm } command declaration inputData
        sessionVars reqTime
      = runnerMacro ext depth st command declaration inputData sessionVars reqTime := by
  induction depth generalizing declaration with
  | zero => rfl
  | succ d ih =>
    have hrm : (fun tok => runnerMacro ext d { st with CommandMacros := cm } command tok
          inputData sessionVars reqTime)
        = (fun tok => runnerMacro ext d st command tok inputData sessionVars reqTime) :=
      funext (fun tok => ih tok)
    simp only [runnerMacro, hrm, _runnerMacro_commandMacros]

theorem _runnerMacro_md5sum (ext : Ext) (rm : GoString → Res) (st : State)
    (command inputData : GoString) (sessionVars : GoMap GoString) (reqTime : Int)
    (htk : TimeKeysCompiled st) :
    _runnerMacro ext rm st command md5sumToken inputData sessionVars reqTime
      = (substLoop rm id (mapSlice st.Md5Macros command)
          ((mapGet st.Md5Inputs command).getD [])).map
          (fun testMd5 => (ext.md5Hex testMd5).map Char.toUpper) := by
  obtain ⟨h1, h2⟩ := not_time_key st htk md5sumToken (by decide) (by decide)
  have hw : wellFormed md5sumToken = true := by decide
  have n1 : ¬ ("\x7b%MD5SUM\x7d".toList = "\x7b%KEY\x7d".toList) := by decide
  have n2 : ¬ ("\x7b%MD5SUM\x7d".toList = "\x7b%VAL\x7d".toList) := by decide
  simp only [md5sumToken] at h1 h2 hw ⊢
  simp only [_runnerMacro, hw, h1, h2, Bool.not_true, Bool.false_eq_true, if_false, n1, n2,
    if_true]
  cases substLoop rm id (mapSlice st.Md5Macros command)
    ((mapGet st.Md5Inputs command).getD []) <;> rfl

theorem toUpper_hex (c : Char) (h : c ∈ lowerHexDigits) : c.toUpper ∈ upperHexDigits := by
  have : ∀ d ∈ lowerHexDigits, d.toUpper ∈ upperHexDigits := by decide
  exact this c h

theorem md5_registered (st : State) (cmd template : GoString) (hne : template ≠ []) :
    mapGet (InitMd5Macro st cmd template).Md5Inputs cmd = some template ∧
    mapSlice (InitMd5Macro st cmd template).Md5Macros cmd
      = firstSeen (findAllTokens '%' template) ++ firstSeen (findAllTokens '$' template) := by
  have hl : ¬ template.length = 0 := by
    intro h
    exact hne (List.eq_nil_of_length_eq_zero h)
  unfold InitMd5Macro
  simp only [hl, if_false, foldl_addMd5Macro, mapSlice_foldl_addMacroTo_same,
    mapGet_mapSet_same, mapSlice_mapSet_same, true_and]
  rw [foldl_addUnique_eq, foldl_addUnique_eq]
  simp only [List.nil_append, List.not_mem_nil, not_false_eq_true, decide_True,
    List.filter_true]
  congr 1
  rw [List.filter_eq_self]
  intro y hy
  obtain ⟨r, hr⟩ := findAllLoop_head '$' _ _ _ (mem_of_mem_firstSeen _ _ hy)
  simp only [decide_eq_true_eq]
  intro hmem
  obtain ⟨r2, hr2⟩ := findAllLoop_head '%' _ _ _ (mem_of_mem_firstSeen _ _ hmem)
  rw [hr] at hr2
  simp at hr2

/-- C13: for a command whose checksum input template is registered, in a state
whose time maps hold time macros only, and when every token of the command's
checksum-scoped list resolves, `{%MD5SUM}` resolves to the upper-case text of
the digest of the template in which the tokens of that list have been replaced,
one pass per token, by their resolved values.  With a digest of 32 hexadecimal
digits the result has 32 characters, all upper-case hexadecimal digits, and it
does not depend on the command's main token list. -/
theorem md5sum_resolution (ext : Ext) (depth : Nat) (st : State)
    (command template row : GoString) (sessionVars : GoMap GoString) (reqTime : Int)
    (hreg : mapGet st.Md5Inputs command = some template)
    (htk : TimeKeysCompiled st)
    (hres : ∀ t ∈ mapSlice st.Md5Macros command,
      (runnerMacro ext depth st command t row sessionVars reqTime).isOk = true)
    (hmd5 : HexDigest ext) :
    runnerMacro ext (depth + 1) st command md5sumToken row sessionVars reqTime
      = .ok ((ext.md5Hex (substSequential
          (fun t => (runnerMacro ext depth st command t row sessionVars reqTime).value)
          (mapSlice st.Md5Macros command) template)).map Char.toUpper) ∧
    ((ext.md5Hex (substSequential
        (fun t => (runnerMacro ext depth st command t row sessionVars reqTime).value)
        (mapSlice st.Md5Macros command) template)).map Char.toUpper).length = 32 ∧
    (∀ c ∈ (ext.md5Hex (substSequential
        (fun t => (runnerMacro ext depth st command t row sessionVars reqTime).value)
        (mapSlice st.Md5Macros command) template)).map Char.toUpper, c ∈ upperHexDigits) ∧
    (∀ cm, runnerMacro ext (depth + 1) { st with CommandMacros := cm } command md5sumToken row
        sessionVars reqTime
      = runnerMacro ext (depth + 1) st command md5sumToken row sessionVars reqTime) := by
  refine ⟨?_, ?_, ?_, ?_⟩
  · rw [runnerMacro_plain ext depth st command md5sumToken row sessionVars reqTime (by decide),
      _runnerMacro_md5sum ext _ st command row sessionVars reqTime htk,
      substLoop_ok _ _ _ _ hres, hreg]
    rfl
  · rw [List.length_map]
    exact (hmd5 _).1
  · intro c hc
    rw [List.mem_map] at hc
    obtain ⟨d, hd, e⟩ := hc
    rw [← e]
    exact toUpper_hex d ((hmd5 _).2 d hd)
  · intro cm
    exact runnerMacro_commandMacros ext (depth + 1) st cm command md5sumToken row sessionVars
      reqTime

theorem hexDigest_digest : HexDigest Ext.digest := by
  intro s
  refine ⟨by simp [Ext.digest], ?_⟩
  intro c hc
  simp only [Ext.digest, List.mem_replicate] at hc
  rw [hc.2]
  split <;> decide

/-- C13, instance: the template `{%KEY}-secret` registered by `InitMd5Macro` and
the input row `foo,bar`: the result is the upper-case text of the digest of
`foo-secret`. -/
theorem md5sum_resolution_witness :
    mapGet md5State.Md5Inputs "c".toList = some "\x7b%KEY\x7d-secret".toList ∧
    mapSlice md5State.Md5Macros "c".toList = ["\x7b%KEY\x7d".toList] ∧
    runnerMacro Ext.digest 2 md5State "c".toList md5sumToken "foo,bar".toList [] 0
      = .ok ((Ext.digest.md5Hex "foo-secret".toList).map Char.toUpper) :=
  ⟨by decide, by decide,
   (md5sum_resolution Ext.digest 1 md5State "c".toList "\x7b%KEY\x7d-secret".toList
      "foo,bar".toList [] 0 (by decide) timeKeysCompiled_initial (by decide)
      hexDigest_digest).1.trans (by decide)⟩

/-! ## Claims on the nesting depth of resolution -/

theorem substLoop_congr (rm1 rm2 : GoString → Res) (post : GoString → GoString)
    (toks : List GoString) (field : GoString) (h : ∀ t ∈ toks, rm1 t = rm2 t) :
    substLoop rm1 post toks field = substLoop rm2 post toks field := by
  induction toks generalizing field with
  | nil => rfl
  | cons t toks ih =>
    rw [substLoop, substLoop, h t (List.mem_cons_self _ _)]
    cases rm2 t with
    | ok v => exact ih _ (fun t2 h2 => h t2 (List.mem_cons_of_mem _ h2))
    | panic => rfl
    | diverge => rfl

theorem substLoop_ne_diverge (rm : GoString → Res) (post : GoString → GoString)
    (toks : List GoString) (field : GoString) (h : ∀ t ∈ toks, rm t ≠ .diverge) :
    substLoop rm post toks field ≠ .diverge := by
  induction toks generalizing field with
  | nil => simp [substLoop]
  | cons t toks ih =>
    have ht := h t (List.mem_cons_self _ _)
    rw [substLoop]
    cases hr : rm t with
    | ok v => exact ih _ (fun t2 h2 => h t2 (List.mem_cons_of_mem _ h2))
    | panic => simp
    | diverge => exact absurd hr ht

theorem _runnerMacro_congr (ext : Ext) (rm1 rm2 : GoString → Res) (st : State)
    (command declaration inputData : GoString) (sessionVars : GoMap GoString) (reqTime : Int)
    (h : ∀ t ∈ mapSlice st.Md5Macros command ++ mapSlice st.Base64Macros command,
      rm1 t = rm2 t) :
    _runnerMacro ext rm1 st command declaration inputData sessionVars reqTime
      = _runnerMacro ext rm2 st command declaration inputData sessionVars reqTime := by
  have e1 := substLoop_congr rm1 rm2 id (mapSlice st.Md5Macros command)
    ((mapGet st.Md5Inputs command).getD [])
    (fun t ht => h t (List.mem_append_left _ ht))
  have e2 := substLoop_congr rm1 rm2 id (mapSlice st.Base64Macros command)
    ((mapGet st.Base64Inputs command).getD [])
    (fun t ht => h t (List.mem_append_right _ ht))
  simp only [_runnerMacro, e1, e2]

theorem _runnerMacro_plain_rm (ext : Ext) (rm1 rm2 : GoString → Res) (st : State)
    (command declaration inputData : GoString) (sessionVars : GoMap GoString) (reqTime : Int)
    (h1 : declaration ≠ md5sumToken) (h2 : declaration ≠ base64Token) :
    _runnerMacro ext rm1 st command declaration inputData sessionVars reqTime
      = _runnerMacro ext rm2 st command declaration inputData sessionVars reqTime := by
  simp only [md5sumToken, base64Token] at h1 h2
  simp only [_runnerMacro, h1, h2, if_false]

theorem _runnerMacro_ne_diverge (ext : Ext) (rm : GoString → Res) (st : State)
    (command declaration inputData : GoString) (sessionVars : GoMap GoString) (reqTime : Int)
    (h : ∀ t ∈ mapSlice st.Md5Macros command ++ mapSlice st.Base64Macros command,
      rm t ≠ .diverge) :
    _runnerMacro ext rm st command declaration inputData sessionVars reqTime ≠ .diverge := by
  have e1 := substLoop_ne_diverge rm id (mapSlice st.Md5Macros command)
    ((mapGet st.Md5Inputs command).getD [])
    (fun t ht => h t (List.mem_append_left _ ht))
  have e2 := substLoop_ne_diverge rm id (mapSlice st.Base64Macros command)
    ((mapGet st.Base64Inputs command).getD [])
    (fun t ht => h t (List.mem_append_right _ ht))
  intro hd
  simp only [_runnerMacro] at hd
  repeat' (split at hd)
  all_goals
    first
      | (simp at hd; done)
      | contradiction


theorem runnerMacro_congr (ext : Ext) (d1 d2 : Nat) (st : State)
    (command tok inputData : GoString) (sessionVars : GoMap GoString) (reqTime : Int)
    (h : ∀ t ∈ mapSlice st.Md5Macros command ++ mapSlice st.Base64Macros command,
      runnerMacro ext d1 st command t inputData sessionVars reqTime
        = runnerMacro ext d2 st command t inputData sessionVars reqTime) :
    runnerMacro ext (d1 + 1) st command tok inputData sessionVars reqTime
      = runnerMacro ext (d2 + 1) st command tok inputData sessionVars reqTime := by
  have e : ∀ decl, _runnerMacro ext
        (fun t => runnerMacro ext d1 st command t inputData sessionVars reqTime)
        st command decl inputData sessionVars reqTime
      = _runnerMacro ext
        (fun t => runnerMacro ext d2 st command t inputData sessionVars reqTime)
        st command decl inputData sessionVars reqTime :=
    fun decl => _runnerMacro_congr ext _ _ st command decl inputData sessionVars reqTime h
  simp only [runnerMacro, e]

theorem runnerMacro_simple (ext : Ext) (d1 d2 : Nat) (st : State)
    (command tok inputData : GoString) (sessionVars : GoMap GoString) (reqTime : Int)
    (h1 : baseForm tok ≠ md5sumToken) (h2 : baseForm tok ≠ base64Token) :
    runnerMacro ext (d1 + 1) st command tok inputData sessionVars reqTime
      = runnerMacro ext (d2 + 1) st command tok inputData sessionVars reqTime := by
  cases hs : findSlice tok with
  | none =>
    simp only [baseForm, hs] at h1 h2
    simp only [runnerMacro, hs]
    rw [_runnerMacro_plain_rm ext _
      (fun t => runnerMacro ext d2 st command t inputData sessionVars reqTime)
      st command tok inputData sessionVars reqTime h1 h2]
  | some p =>
    obtain ⟨a, b⟩ := p
    simp only [baseForm, hs] at h1 h2
    simp only [runnerMacro, hs]
    rw [_runnerMacro_plain_rm ext _
      (fun t => runnerMacro ext d2 st command t inputData sessionVars reqTime)
      st command _ inputData sessionVars reqTime h1 h2]

theorem runnerMacro_ne_diverge (ext : Ext) (d : Nat) (st : State)
    (command tok inputData : GoString) (sessionVars : GoMap GoString) (reqTime : Int)
    (h : ∀ t ∈ mapSlice st.Md5Macros command ++ mapSlice st.Base64Macros command,
      runnerMacro ext d st command t inputData sessionVars reqTime ≠ .diverge) :
    runnerMacro ext (d + 1) st command tok inputData sessionVars reqTime ≠ .diverge := by
  have e : ∀ decl, _runnerMacro ext
        (fun t => runnerMacro ext d st command t inputData sessionVars reqTime)
        st command decl inputData sessionVars reqTime ≠ .diverge :=
    fun decl => _runnerMacro_ne_diverge ext _ st command decl inputData sessionVars reqTime h
  intro hd
  simp only [runnerMacro] at hd
  repeat' (split at hd)
  all_goals
    first
      | (simp at hd; done)
      | exact e _ (by assumption)

theorem runnerMacro_simple_ne_diverge (ext : Ext) (d : Nat) (st : State)
    (command tok inputData : GoString) (sessionVars : GoMap GoString) (reqTime : Int)
    (h1 : baseForm tok ≠ md5sumToken) (h2 : baseForm tok ≠ base64Token) :
    runnerMacro ext (d + 1) st command tok inputData sessionVars reqTime ≠ .diverge := by
  have e : ∀ decl, decl ≠ md5sumToken → decl ≠ base64Token → _runnerMacro ext
        (fun t => runnerMacro ext d st command t inputData sessionVars reqTime)
        st command decl inputData sessionVars reqTime ≠ .diverge := by
    intro decl n1 n2
    rw [_runnerMacro_plain_rm ext _ (fun _ => .ok []) st command decl inputData sessionVars
      reqTime n1 n2]
    exact _runnerMacro_ne_diverge ext _ st command decl inputData sessionVars reqTime
      (fun t _ => by simp)
  intro hd
  cases hs : findSlice tok with
  | none =>
    simp only [baseForm, hs] at h1 h2
    simp only [runnerMacro, hs] at hd
    split at hd
    · simp at hd
    · exact e _ h1 h2 hd
  | some p =>
    obtain ⟨a, b⟩ := p
    simp only [baseForm, hs] at h1 h2
    simp only [runnerMacro, hs] at hd
    repeat' (split at hd)
    all_goals
      first
        | (simp at hd; done)
        | exact e _ h1 h2 (by assumption)

/-- C18: when no token of the command's checksum-scoped and encoding-scoped
lists has `{%MD5SUM}` or `{%BASE64ENC}` for its base form, a nesting budget of
two `runnerMacro` activations is enough: resolution of any token and rendering
of any field by `RunnerMacros` and `RunnerMacrosRegexp` end (with a string or a
panic, never by exhausting the budget), and a larger budget gives the same
result. -/
theorem resolution_depth_two (ext : Ext) (st : State) (command : GoString)
    (h : NoCompositeNesting st command) :
    (∀ tok inputData sessionVars reqTime,
      runnerMacro ext 2 st command tok inputData sessionVars reqTime ≠ .diverge) ∧
    (∀ k tok inputData sessionVars reqTime,
      runnerMacro ext (k + 2) st command tok inputData sessionVars reqTime
        = runnerMacro ext 2 st command tok inputData sessionVars reqTime) ∧
    (∀ inputData sessionVars reqTime field,
      RunnerMacros ext 2 st command inputData sessionVars reqTime field ≠ .diverge ∧
      RunnerMacrosRegexp ext 2 st command inputData sessionVars reqTime field ≠ .diverge) ∧
    (∀ k inputData sessionVars reqTime field,
      RunnerMacros ext (k + 2) st command inputData sessionVars reqTime field
        = RunnerMacros ext 2 st command inputData sessionVars reqTime field ∧
      RunnerMacrosRegexp ext (k + 2) st command inputData sessionVars reqTime field
        = RunnerMacrosRegexp ext 2 st command inputData sessionVars reqTime field) := by
  have h2 : ∀ tok inputData sessionVars reqTime,
      runnerMacro ext 2 st command tok inputData sessionVars reqTime ≠ .diverge := by
    intro tok inputData sessionVars reqTime
    apply runnerMacro_ne_diverge ext 1
    intro t ht
    exact runnerMacro_simple_ne_diverge ext 0 st command t inputData sessionVars reqTime
      (h t ht).1 (h t ht).2
  have hk : ∀ k tok inputData sessionVars reqTime,
      runnerMacro ext (k + 2) st command tok inputData sessionVars reqTime
        = runnerMacro ext 2 st command tok inputData sessionVars reqTime := by
    intro k tok inputData sessionVars reqTime
    apply runnerMacro_congr ext (k + 1) 1
    intro t ht
    exact runnerMacro_simple ext k 0 st command t inputData sessionVars reqTime
      (h t ht).1 (h t ht).2
  refine ⟨h2, hk, ?_, ?_⟩
  · intro inputData sessionVars reqTime field
    exact ⟨substLoop_ne_diverge _ _ _ _ (fun t _ => h2 t inputData sessionVars reqTime),
      substLoop_ne_diverge _ _ _ _ (fun t _ => h2 t inputData sessionVars reqTime)⟩
  · intro k inputData sessionVars reqTime field
    exact ⟨substLoop_congr _ _ _ _ _ (fun t _ => hk k t inputData sessionVars reqTime),
      substLoop_congr _ _ _ _ _ (fun t _ => hk k t inputData sessionVars reqTime)⟩

/-- C18, instance: the command of the nesting example; a budget of one is not
enough for `{%MD5SUM}`, a budget of two gives the value and a budget of five the
same value. -/
theorem resolution_depth_two_witness :
    runnerMacro Ext.sample 1 nestingState "c".toList md5sumToken "foo,bar".toList [] 0
      = .diverge ∧
    runnerMacro Ext.sample 2 nestingState "c".toList md5sumToken "foo,bar".toList [] 0
      = .ok "MD5:FOO-SECRET".toList ∧
    runnerMacro Ext.sample (3 + 2) nestingState "c".toList md5sumToken "foo,bar".toList [] 0
      = runnerMacro Ext.sample 2 nestingState "c".toList md5sumToken "foo,bar".toList [] 0 ∧
    RunnerMacros Ext.sample 2 nestingState "c".toList "foo,bar".toList [] 0
        "\x7b%MD5SUM\x7d \x7b%BASE64ENC\x7d".toList
      = .ok "MD5:FOO-SECRET b64:b".toList :=
  ⟨by decide, by decide,
   (resolution_depth_two Ext.sample nestingState "c".toList
      (by unfold NoCompositeNesting; decide)).2.1 3 md5sumToken "foo,bar".toList [] 0,
   by decide⟩

/-! ## Claims on the abort of initialization -/

theorem goSlice_innerDecl (tok : GoString) (hlen : 3 ≤ tok.length) :
    goSlice tok 2 ((tok.length : Int) - 1) = some (innerDecl tok) := by
  unfold goSlice innerDecl
  have hc : (0 : Int) ≤ 2 ∧ (2 : Int) ≤ (tok.length : Int) - 1 ∧
      (tok.length : Int) - 1 ≤ (tok.length : Int) := by omega
  rw [if_pos hc, List.dropLast_eq_take]
  congr 2
  simp
  omega

theorem parseTimeModifier_error (arg e : GoString) (h : parseTimeModifier arg = .error e) :
    e = notSupported arg := by
  unfold parseTimeModifier at h
  repeat' (split at h)
  all_goals
    first
      | (simp at h; done)
      | (simp only [Parsed.error.injEq] at h; exact h.symm)

theorem rejected_iff (arg : GoString) :
    rejected arg = true ↔ parseTimeModifier arg = .error (notSupported arg) := by
  unfold rejected
  cases h : parseTimeModifier arg with
  | ok d => simp
  | error e => simp [parseTimeModifier_error arg e h]

theorem rejected_false_iff (arg : GoString) :
    rejected arg = false ↔ ∃ d, parseTimeModifier arg = .ok d := by
  unfold rejected
  cases h : parseTimeModifier arg with
  | ok d => simp
  | error e => simp

theorem initUnixtimeMacro_other (st : State) (tok : GoString) (hlen : 3 ≤ tok.length)
    (hp : hasPrefix (innerDecl tok) "UNIXTIME".toList = false) :
    initUnixtimeMacro st tok = .ok st := by
  simp only [initUnixtimeMacro, goSlice_innerDecl tok hlen, hp, Bool.false_eq_true, if_false]

theorem initUnixtimeMacro_ok (st : State) (tok : GoString) (hlen : 3 ≤ tok.length)
    (hp : hasPrefix (innerDecl tok) "UNIXTIME".toList = true) (d : Int)
    (hd : parseTimeModifier (unixtimeModifier (innerDecl tok)) = .ok d) :
    initUnixtimeMacro st tok
      = .ok { st with UnixtimeMacros :=
                mapSet st.UnixtimeMacros tok ⟨d, unixtimeFormat (innerDecl tok)⟩ } := by
  unfold unixtimeModifier at hd
  simp only [initUnixtimeMacro, goSlice_innerDecl tok hlen, hp, if_true, hd, unixtimeFormat]

theorem initUnixtimeMacro_fatal (st : State) (tok : GoString) (hlen : 3 ≤ tok.length)
    (hp : hasPrefix (innerDecl tok) "UNIXTIME".toList = true)
    (hd : rejected (unixtimeModifier (innerDecl tok)) = true) :
    initUnixtimeMacro st tok = .fatal (unixtimeFatal tok) := by
  rw [rejected_iff] at hd
  unfold unixtimeModifier at hd
  simp only [initUnixtimeMacro, goSlice_innerDecl tok hlen, hp, if_true, hd, unixtimeFatal,
    unixtimeModifier]

theorem initPrintTimeMacro_other (st : State) (tok : GoString) (hlen : 3 ≤ tok.length)
    (hp : hasPrefix (innerDecl tok) "TIME".toList = false) :
    initPrintTimeMacro st tok = .ok st := by
  simp only [initPrintTimeMacro, goSlice_innerDecl tok hlen, hp, Bool.false_eq_true, if_false]

theorem initPrintTimeMacro_ok (st : State) (tok : GoString) (hlen : 3 ≤ tok.length)
    (hp : hasPrefix (innerDecl tok) "TIME".toList = true) (d : Int)
    (hd : parseTimeModifier ((innerDecl tok).drop 4) = .ok d) :
    initPrintTimeMacro st tok
      = .ok { st with PrintTimeMacros :=
                mapSet st.PrintTimeMacros tok ⟨d, printTimeLayout⟩ } := by
  simp only [initPrintTimeMacro, goSlice_innerDecl tok hlen, hp, if_true, hd]

theorem initPrintTimeMacro_fatal (st : State) (tok : GoString) (hlen : 3 ≤ tok.length)
    (hp : hasPrefix (innerDecl tok) "TIME".toList = true)
    (hd : rejected ((innerDecl tok).drop 4) = true) :
    initPrintTimeMacro st tok = .fatal (printTimeFatal tok) := by
  rw [rejected_iff] at hd
  simp only [initPrintTimeMacro, goSlice_innerDecl tok hlen, hp, if_true, hd, printTimeFatal]

theorem compiled_set_unixtime (st : State) (tok t : GoString) (d : Int)
    (hd : parseTimeModifier (unixtimeModifier (innerDecl tok)) = .ok d)
    (h : Compiled st t) :
    Compiled { st with
      UnixtimeMacros := mapSet st.UnixtimeMacros tok ⟨d, unixtimeFormat (innerDecl tok)⟩ } t := by
  refine ⟨?_, h.2⟩
  intro hp
  obtain ⟨d1, h1, h2⟩ := h.1 hp
  refine ⟨d1, h1, ?_⟩
  by_cases e : t = tok
  · subst e
    rw [h1] at hd
    simp only [Parsed.ok.injEq] at hd
    rw [hd]
    exact mapGet_mapSet_same _ _ _
  · simp only
    rw [mapGet_mapSet_other _ e]
    exact h2

theorem compiled_set_printTime (st : State) (tok t : GoString) (d : Int)
    (hd : parseTimeModifier ((innerDecl tok).drop 4) = .ok d)
    (h : Compiled st t) :
    Compiled { st with
      PrintTimeMacros := mapSet st.PrintTimeMacros tok ⟨d, printTimeLayout⟩ } t := by
  refine ⟨h.1, ?_⟩
  intro hp
  obtain ⟨d1, h1, h2⟩ := h.2 hp
  refine ⟨d1, h1, ?_⟩
  by_cases e : t = tok
  · subst e
    rw [h1] at hd
    simp only [Parsed.ok.injEq] at hd
    rw [hd]
    exact mapGet_mapSet_same _ _ _
  · simp only
    rw [mapGet_mapSet_other _ e]
    exact h2

theorem compileToken_cases (st : State) (tok : GoString) (hlen : 3 ≤ tok.length) :
    (∃ st2, compileToken st tok = .ok st2 ∧ badTimeToken tok = false ∧ Compiled st2 tok ∧
      ∀ t, Compiled st t → Compiled st2 t) ∨
    (∃ msg, compileToken st tok = .fatal msg ∧ FatalFor tok msg) := by
  cases hU : hasPrefix (innerDecl tok) "UNIXTIME".toList with
  | true =>
    have hT : hasPrefix (innerDecl tok) "TIME".toList = false := by
      cases hT : hasPrefix (innerDecl tok) "TIME".toList with
      | false => rfl
      | true => exact absurd (not_both_time_prefixes _ hU hT) id
    cases hr : rejected (unixtimeModifier (innerDecl tok)) with
    | true =>
      right
      refine ⟨unixtimeFatal tok, ?_, Or.inl ⟨by rw [badUnixtime, hU, hr]; rfl, rfl⟩⟩
      simp only [compileToken, initUnixtimeMacro_fatal st tok hlen hU hr]
    | false =>
      left
      obtain ⟨d, hd⟩ := (rejected_false_iff _).1 hr
      refine ⟨{ st with
          UnixtimeMacros := mapSet st.UnixtimeMacros tok ⟨d, unixtimeFormat (innerDecl tok)⟩ },
        ?_, by rw [badTimeToken, badUnixtime, badPrintTime, hU, hT]; simp [hr], ?_, ?_⟩
      · simp only [compileToken, initUnixtimeMacro_ok st tok hlen hU d hd]
        exact initPrintTimeMacro_other _ tok hlen hT
      · refine ⟨fun _ => ⟨d, hd, mapGet_mapSet_same _ _ _⟩, ?_⟩
        intro hp
        rw [hT] at hp
        exact absurd hp (by decide)
      · intro t ht
        exact compiled_set_unixtime st tok t d hd ht
  | false =>
    have h1 : initUnixtimeMacro st tok = .ok st := initUnixtimeMacro_other st tok hlen hU
    cases hT : hasPrefix (innerDecl tok) "TIME".toList with
    | false =>
      left
      refine ⟨st, ?_, by rw [badTimeToken, badUnixtime, badPrintTime, hU, hT]; rfl, ?_, fun _ h => h⟩
      · simp only [compileToken, h1]
        exact initPrintTimeMacro_other st tok hlen hT
      · constructor <;> intro hp
        · rw [hU] at hp; exact absurd hp (by decide)
        · rw [hT] at hp; exact absurd hp (by decide)
    | true =>
      cases hr : rejected ((innerDecl tok).drop 4) with
      | true =>
        right
        refine ⟨printTimeFatal tok, ?_, Or.inr ⟨by rw [badPrintTime, hT, hr]; rfl, rfl⟩⟩
        simp only [compileToken, h1]
        exact initPrintTimeMacro_fatal st tok hlen hT hr
      | false =>
        left
        obtain ⟨d, hd⟩ := (rejected_false_iff _).1 hr
        refine ⟨{ st with
            PrintTimeMacros := mapSet st.PrintTimeMacros tok ⟨d, printTimeLayout⟩ },
          ?_, by rw [badTimeToken, badUnixtime, badPrintTime, hU, hT]; simp [hr], ?_, ?_⟩
        · simp only [compileToken, h1]
          exact initPrintTimeMacro_ok st tok hlen hT d hd
        · refine ⟨?_, fun _ => ⟨d, hd, mapGet_mapSet_same _ _ _⟩⟩
          intro hp
          rw [hU] at hp
          exact absurd hp (by decide)
        · intro t ht
          exact compiled_set_printTime st tok t d hd ht

theorem compileTokens_cases (toks : List GoString) (st : State)
    (hlen : ∀ t ∈ toks, 3 ≤ t.length) :
    (∃ st2, compileTokens toks st = .ok st2 ∧ (∀ t ∈ toks, badTimeToken t = false) ∧
      (∀ t ∈ toks, Compiled st2 t) ∧ ∀ t, Compiled st t → Compiled st2 t) ∨
    (∃ t ∈ toks, ∃ msg, compileTokens toks st = .fatal msg ∧ FatalFor t msg) := by
  induction toks generalizing st with
  | nil => exact Or.inl ⟨st, rfl, by simp, by simp, fun _ h => h⟩
  | cons a toks ih =>
    rcases compileToken_cases st a (hlen a (List.mem_cons_self _ _)) with
      ⟨st1, h1, hb, hc, hk⟩ | ⟨msg, h1, hf⟩
    · rcases ih st1 (fun t ht => hlen t (List.mem_cons_of_mem _ ht)) with
        ⟨st2, h2, hb2, hc2, hk2⟩ | ⟨t, ht, msg, h2, hf⟩
      · left
        refine ⟨st2, by simp only [compileTokens, h1, h2], ?_, ?_, fun t h => hk2 t (hk t h)⟩
        · intro t ht
          rcases List.mem_cons.1 ht with e | e
          · rw [e]; exact hb
          · exact hb2 t e
        · intro t ht
          rcases List.mem_cons.1 ht with e | e
          · rw [e]; exact hk2 a hc
          · exact hc2 t e
      · right
        exact ⟨t, List.mem_cons_of_mem _ ht, msg, by simp only [compileTokens, h1, h2], hf⟩
    · right
      exact ⟨a, List.mem_cons_self _ _, msg, by simp only [compileTokens, h1], hf⟩

theorem compileTokens_append (l1 l2 : List GoString) (st : State) :
    compileTokens (l1 ++ l2) st = (compileTokens l1 st).andThen (compileTokens l2) := by
  induction l1 generalizing st with
  | nil => rfl
  | cons a l1 ih =>
    simp only [List.cons_append, compileTokens]
    cases compileToken st a with
    | ok st1 => exact ih st1
    | fatal msg => rfl
    | panic => rfl

theorem compileRegistry_eq (m : GoMap (List GoString)) (st : State) :
    compileRegistry m st = compileTokens (flatTokens m) st := by
  induction m generalizing st with
  | nil => rfl
  | cons p m ih =>
    obtain ⟨k, toks⟩ := p
    have e : flatTokens ((k, toks) :: m) = toks ++ flatTokens m := by
      simp [flatTokens]
    rw [e, compileTokens_append, compileRegistry]
    cases compileTokens toks st with
    | ok st1 => exact ih st1
    | fatal msg => rfl
    | panic => rfl

theorem InitUnixtimeMacrosIn_eq (oc ob om : GoMap (List GoString)) (st : State) :
    InitUnixtimeMacrosIn oc ob om st
      = compileTokens (flatTokens oc ++ (flatTokens ob ++ flatTokens om))
          { st with PrintTimeMacros := [], UnixtimeMacros := [] } := by
  have e : ∀ s : State, InitRes.andThen (compileRegistry oc s)
        (fun st1 => InitRes.andThen (compileRegistry ob st1) (compileRegistry om))
      = compileTokens (flatTokens oc ++ (flatTokens ob ++ flatTokens om)) s := by
    intro s
    rw [compileTokens_append, compileRegistry_eq]
    cases compileTokens (flatTokens oc) s with
    | ok st1 =>
      show InitRes.andThen (compileRegistry ob st1) (compileRegistry om)
        = compileTokens (flatTokens ob ++ flatTokens om) st1
      rw [compileTokens_append, compileRegistry_eq]
      cases compileTokens (flatTokens ob) st1 with
      | ok st2 => exact compileRegistry_eq om st2
      | fatal msg => rfl
      | panic => rfl
    | fatal msg => rfl
    | panic => rfl
  rw [← e]
  unfold InitUnixtimeMacrosIn
  dsimp only
  generalize compileRegistry oc { st with PrintTimeMacros := [], UnixtimeMacros := [] } = r
  cases r with
  | ok st1 => cases compileRegistry ob st1 <;> rfl
  | fatal msg => rfl
  | panic => rfl

theorem mem_flatTokens_perm (m1 m2 : GoMap (List GoString)) (h : m1.Perm m2) (t : GoString) :
    t ∈ flatTokens m1 ↔ t ∈ flatTokens m2 := by
  simp only [flatTokens, List.mem_flatten, List.mem_map]
  constructor
  · rintro ⟨l, ⟨p, hp, e⟩, ht⟩
    exact ⟨l, ⟨p, (h.mem_iff).1 hp, e⟩, ht⟩
  · rintro ⟨l, ⟨p, hp, e⟩, ht⟩
    exact ⟨l, ⟨p, (h.mem_iff).2 hp, e⟩, ht⟩

theorem mem_visit_iff (oc ob om : GoMap (List GoString)) (st : State)
    (hv : VisitOrder oc ob om st) (t : GoString) :
    t ∈ flatTokens oc ++ (flatTokens ob ++ flatTokens om) ↔ t ∈ registryTokens st := by
  obtain ⟨h1, h2, h3⟩ := hv
  simp only [registryTokens, List.mem_append, mem_flatTokens_perm _ _ h1,
    mem_flatTokens_perm _ _ h2, mem_flatTokens_perm _ _ h3, or_assoc]

theorem fatalFor_contains (t msg : GoString) (h : FatalFor t msg) :
    innerDecl t <:+: msg ∧ offendingModifier t <:+: msg := by
  rcases h with ⟨hb, e⟩ | ⟨hb, e⟩
  · have hU : hasPrefix (innerDecl t) "UNIXTIME".toList = true := by
      simp only [badUnixtime, Bool.and_eq_true] at hb
      exact hb.1
    rw [e, offendingModifier, if_pos hU]
    constructor
    · exact ⟨"UNIXTIME macro ".toList,
        [':', ' '] ++ notSupported (unixtimeModifier (innerDecl t)),
        by simp [unixtimeFatal]⟩
    · exact ⟨"UNIXTIME macro ".toList ++ innerDecl t ++ [':', ' '] ++ "time modifier ".toList,
        " is not supported".toList, by simp [unixtimeFatal, notSupported]⟩
  · have hT : hasPrefix (innerDecl t) "TIME".toList = true := by
      simp only [badPrintTime, Bool.and_eq_true] at hb
      exact hb.1
    have hU : ¬ hasPrefix (innerDecl t) "UNIXTIME".toList = true :=
      fun hU => not_both_time_prefixes _ hU hT
    rw [e, offendingModifier, if_neg hU]
    constructor
    · exact ⟨"TIME macro ".toList, [':', ' '] ++ notSupported ((innerDecl t).drop 4),
        by simp [printTimeFatal]⟩
    · exact ⟨"TIME macro ".toList ++ innerDecl t ++ [':', ' '] ++ "time modifier ".toList,
        " is not supported".toList, by simp [printTimeFatal, notSupported]⟩

theorem badTimeToken_of_fatalFor (t msg : GoString) (h : FatalFor t msg) :
    badTimeToken t = true := by
  rcases h with ⟨hb, _⟩ | ⟨hb, _⟩
  · simp [badTimeToken, hb]
  · simp [badTimeToken, hb]

/-- C15: when every registered token has at least three characters (as every
token found by scanning has), `InitUnixtimeMacros`, in whatever order it visits
the registries, stops with `log.Fatalf` if and only if some token of the main,
encoding-scoped or checksum-scoped registry is a `UNIXTIME` or `TIME` macro
whose modifier `parseTimeModifier` rejects; it never panics; the fatal message is
the one of such a token and holds the declaration of the token and the
rejected modifier; and when there is no such token it completes with every
registered `UNIXTIME` or `TIME` token a key of the corresponding map with the
parsed offset. -/
theorem InitUnixtimeMacros_abort_iff (oc ob om : GoMap (List GoString)) (st : State)
    (hv : VisitOrder oc ob om st) (hlen : ∀ t ∈ registryTokens st, 3 ≤ t.length) :
    ((∃ msg, InitUnixtimeMacrosIn oc ob om st = .fatal msg) ↔
      ∃ t ∈ registryTokens st, badTimeToken t = true) ∧
    InitUnixtimeMacrosIn oc ob om st ≠ .panic ∧
    (∀ msg, InitUnixtimeMacrosIn oc ob om st = .fatal msg →
      ∃ t ∈ registryTokens st, FatalFor t msg ∧ innerDecl t <:+: msg ∧
        offendingModifier t <:+: msg) ∧
    ((∀ t ∈ registryTokens st, badTimeToken t = false) →
      ∃ st2, InitUnixtimeMacrosIn oc ob om st = .ok st2 ∧
        ∀ t ∈ registryTokens st, Compiled st2 t) := by
  have hmem := mem_visit_iff oc ob om st hv
  have hl : ∀ t ∈ flatTokens oc ++ (flatTokens ob ++ flatTokens om), 3 ≤ t.length :=
    fun t ht => hlen t ((hmem t).1 ht)
  rw [InitUnixtimeMacrosIn_eq]
  rcases compileTokens_cases _ { st with PrintTimeMacros := [], UnixtimeMacros := [] } hl with
    ⟨st2, h2, hb, hc, _⟩ | ⟨t, ht, msg, h2, hf⟩
  · rw [h2]
    refine ⟨⟨?_, ?_⟩, by simp, ?_, ?_⟩
    · rintro ⟨msg, hm⟩
      simp at hm
    · rintro ⟨t, ht, hbad⟩
      rw [hb t ((hmem t).2 ht)] at hbad
      exact absurd hbad (by decide)
    · intro msg hm
      simp at hm
    · intro _
      exact ⟨st2, rfl, fun t ht => hc t ((hmem t).2 ht)⟩
  · rw [h2]
    refine ⟨⟨fun _ => ⟨t, (hmem t).1 ht, badTimeToken_of_fatalFor t msg hf⟩,
      fun _ => ⟨msg, rfl⟩⟩, by simp, ?_, ?_⟩
    · intro msg2 hm
      simp only [InitRes.fatal.injEq] at hm
      rw [← hm]
      exact ⟨t, (hmem t).1 ht, hf, fatalFor_contains t msg hf⟩
    · intro hall
      have := hall t ((hmem t).1 ht)
      rw [badTimeToken_of_fatalFor t msg hf] at this
      exact absurd this (by decide)

/-- C15, instance: the state of the rejected-modifier example, visited in the
stored order: initialization stops, and the message names the declaration
`TIME+4BANANAS` and the modifier `+4BANANAS`. -/
theorem InitUnixtimeMacros_abort_iff_witness :
    (∀ t ∈ registryTokens badTimeState, 3 ≤ t.length) ∧
    (∃ msg, InitUnixtimeMacrosIn badTimeState.CommandMacros badTimeState.Base64Macros
      badTimeState.Md5Macros badTimeState = .fatal msg) ∧
    InitUnixtimeMacros badTimeState
      = .fatal "TIME macro TIME+4BANANAS: time modifier +4BANANAS is not supported".toList :=
  ⟨by decide,
   (InitUnixtimeMacros_abort_iff badTimeState.CommandMacros badTimeState.Base64Macros
      badTimeState.Md5Macros badTimeState
      ⟨List.Perm.refl _, List.Perm.refl _, List.Perm.refl _⟩ (by decide)).1.2
      ⟨"\x7b%TIME+4BANANAS\x7d".toList, by decide, by decide⟩,
   by decide⟩

/-! ## Claims on sliced time macros -/

theorem lazyToBrace_shape (s m rest : GoString) (h : lazyToBrace s = some (m, rest)) :
    ∃ body, m = body ++ ['}'] ∧ '}' ∉ body ∧ '\n' ∉ body := by
  induction s generalizing m rest with
  | nil => simp [lazyToBrace] at h
  | cons c cs ih =>
    simp only [lazyToBrace] at h
    split at h
    · rename_i hc
      simp only [Option.some.injEq, Prod.mk.injEq] at h
      exact ⟨[], by rw [← h.1, hc]; rfl, by simp, by simp⟩
    · rename_i hc
      split at h
      · simp at h
      · rename_i hn
        cases hl : lazyToBrace cs with
        | none => simp [hl] at h
        | some p =>
          obtain ⟨m1, r1⟩ := p
          rw [hl] at h
          simp only [Option.map_some', Option.some.injEq, Prod.mk.injEq] at h
          obtain ⟨body, e, h1, h2⟩ := ih m1 r1 hl
          refine ⟨c :: body, by rw [← h.1, e]; rfl, ?_, ?_⟩
          · simp only [List.mem_cons, not_or]
            exact ⟨fun e => hc e.symm, h1⟩
          · simp only [List.mem_cons, not_or]
            exact ⟨fun e => hn e.symm, h2⟩

theorem tokenAt_scanned (sigil : Char) (hs : sigil = '%' ∨ sigil = '$') (s m rest : GoString)
    (h : tokenAt sigil s = some (m, rest)) : Scanned m := by
  match s, h with
  | c0 :: c1 :: t, h =>
    simp only [tokenAt] at h
    split at h
    · rename_i hc
      cases hl : lazyToBrace t with
      | none => simp [hl] at h
      | some p =>
        obtain ⟨m1, r1⟩ := p
        rw [hl] at h
        simp only [Option.map_some', Option.some.injEq, Prod.mk.injEq] at h
        obtain ⟨body, e, h1, h2⟩ := lazyToBrace_shape t m1 r1 hl
        exact ⟨sigil, body, by rw [← h.1, hc.1, hc.2, e], hs, h1, h2⟩
    · simp at h

theorem findAllLoop_scanned (sigil : Char) (hs : sigil = '%' ∨ sigil = '$') (k : Nat)
    (s m : GoString) (h : m ∈ findAllLoop sigil k s) : Scanned m := by
  induction k generalizing s with
  | zero => simp [findAllLoop] at h
  | succ k ih =>
    cases s with
    | nil => simp [findAllLoop] at h
    | cons c cs =>
      simp only [findAllLoop] at h
      cases ht : tokenAt sigil (c :: cs) with
      | none =>
        simp only [ht] at h
        exact ih cs h
      | some p =>
        obtain ⟨m1, rest⟩ := p
        simp only [ht, List.mem_cons] at h
        rcases h with h | h
        · subst h
          exact tokenAt_scanned sigil hs _ _ _ ht
        · exact ih rest h

theorem allScanned_mapSet (m : GoMap (List GoString)) (k : GoString) (v : List GoString)
    (hm : AllScanned m) (hv : ∀ t ∈ v, Scanned t) : AllScanned (mapSet m k v) := by
  intro p hp
  rcases mem_mapSet m k v p hp with h | h
  · rw [h]; exact hv
  · exact hm p h

theorem scanned_mapSlice (m : GoMap (List GoString)) (k : GoString) (hm : AllScanned m) :
    ∀ t ∈ mapSlice m k, Scanned t := by
  unfold mapSlice
  cases h : mapGet m k with
  | none => simp
  | some l =>
    obtain ⟨k1, hk⟩ := mem_of_mapGet m k l h
    simpa using hm _ hk

theorem allScanned_addMacroTo (m : GoMap (List GoString)) (cmd t : GoString)
    (hm : AllScanned m) (ht : Scanned t) : AllScanned (addMacroTo m cmd t) := by
  unfold addMacroTo
  by_cases hc : arrayContains (mapSlice m cmd) t = true
  · simpa [hc] using hm
  · simp only [hc, Bool.not_false, if_true]
    apply allScanned_mapSet m cmd _ hm
    intro u hu
    rcases List.mem_append.1 hu with h | h
    · exact scanned_mapSlice m cmd hm u h
    · rw [List.mem_singleton.1 h]; exact ht

theorem allScanned_foldl_addMacroTo (toks : List GoString) (m : GoMap (List GoString))
    (cmd : GoString) (hm : AllScanned m) (ht : ∀ t ∈ toks, Scanned t) :
    AllScanned (toks.foldl (fun a t => addMacroTo a cmd t) m) := by
  induction toks generalizing m with
  | nil => exact hm
  | cons t toks ih =>
    exact ih _ (allScanned_addMacroTo m cmd t hm (ht t (List.mem_cons_self _ _)))
      (fun u hu => ht u (List.mem_cons_of_mem _ hu))

theorem allScanned_scan (field : GoString) (m : GoMap (List GoString)) (cmd : GoString)
    (hm : AllScanned m) :
    AllScanned ((findAllTokens '$' field).foldl (fun a t => addMacroTo a cmd t)
      ((findAllTokens '%' field).foldl (fun a t => addMacroTo a cmd t) m)) := by
  apply allScanned_foldl_addMacroTo
  · apply allScanned_foldl_addMacroTo _ _ _ hm
    exact fun t ht => findAllLoop_scanned '%' (Or.inl rfl) _ _ t ht
  · exact fun t ht => findAllLoop_scanned '$' (Or.inr rfl) _ _ t ht

theorem registriesScanned_InitMacros (st : State) (cmd field : GoString)
    (h : AllScanned st.CommandMacros ∧ AllScanned st.Base64Macros ∧ AllScanned st.Md5Macros) :
    AllScanned (InitMacros st cmd field).CommandMacros ∧
      AllScanned (InitMacros st cmd field).Base64Macros ∧
      AllScanned (InitMacros st cmd field).Md5Macros := by
  obtain ⟨h1, h2, h3⟩ := h
  unfold InitMacros
  simp only [foldl_addCommandMacro]
  refine ⟨?_, ?_, ?_⟩
  · apply allScanned_scan
    cases hg : mapGet st.CommandMacros cmd with
    | none => exact allScanned_mapSet _ _ _ h1 (by simp)
    | some l => exact h1
  · cases hg : mapGet st.CommandMacros cmd <;> exact h2
  · cases hg : mapGet st.CommandMacros cmd <;> exact h3

theorem registriesScanned_InitMd5Macro (st : State) (cmd md5Input : GoString)
    (h : AllScanned st.CommandMacros ∧ AllScanned st.Base64Macros ∧ AllScanned st.Md5Macros) :
    AllScanned (InitMd5Macro st cmd md5Input).CommandMacros ∧
      AllScanned (InitMd5Macro st cmd md5Input).Base64Macros ∧
      AllScanned (InitMd5Macro st cmd md5Input).Md5Macros := by
  obtain ⟨h1, h2, h3⟩ := h
  unfold InitMd5Macro
  by_cases he : md5Input.length = 0
  · simpa [he] using ⟨h1, h2, h3⟩
  · simp only [he, if_false, foldl_addMd5Macro]
    refine ⟨h1, h2, ?_⟩
    apply allScanned_scan
    exact allScanned_mapSet _ _ _ h3 (by simp)

theorem registriesScanned_InitBase64Macro (st : State) (cmd base64Input : GoString)
    (h : AllScanned st.CommandMacros ∧ AllScanned st.Base64Macros ∧ AllScanned st.Md5Macros) :
    AllScanned (InitBase64Macro st cmd base64Input).CommandMacros ∧
      AllScanned (InitBase64Macro st cmd base64Input).Base64Macros ∧
      AllScanned (InitBase64Macro st cmd base64Input).Md5Macros := by
  obtain ⟨h1, h2, h3⟩ := h
  unfold InitBase64Macro
  by_cases he : base64Input.length = 0
  · simpa [he] using ⟨h1, h2, h3⟩
  · simp only [he, if_false, foldl_addBase64Macro]
    refine ⟨h1, ?_, h3⟩
    apply allScanned_scan
    exact allScanned_mapSet _ _ _ h2 (by simp)

theorem registriesScanned_foldl (calls : List InitCall) (st : State)
    (h : AllScanned st.CommandMacros ∧ AllScanned st.Base64Macros ∧ AllScanned st.Md5Macros) :
    AllScanned (calls.foldl InitCall.apply st).CommandMacros ∧
      AllScanned (calls.foldl InitCall.apply st).Base64Macros ∧
      AllScanned (calls.foldl InitCall.apply st).Md5Macros := by
  induction calls generalizing st with
  | nil => exact h
  | cons c calls ih =>
    apply ih
    cases c with
    | initMacros cmd field => exact registriesScanned_InitMacros st cmd field h
    | initSessionLogMacros sessionLog => exact registriesScanned_InitMacros st _ sessionLog h
    | initMd5Macro cmd md5Input => exact registriesScanned_InitMd5Macro st cmd md5Input h
    | initBase64Macro cmd base64Input =>
      exact registriesScanned_InitBase64Macro st cmd base64Input h

theorem mem_flatTokens (m : GoMap (List GoString)) (t : GoString) :
    t ∈ flatTokens m ↔ ∃ p ∈ m, t ∈ p.2 := by
  simp only [flatTokens, List.mem_flatten, List.mem_map]
  constructor
  · rintro ⟨l, ⟨p, hp, e⟩, ht⟩
    exact ⟨p, hp, by rw [e]; exact ht⟩
  · rintro ⟨p, hp, ht⟩
    exact ⟨p.2, ⟨p, hp, rfl⟩, ht⟩

theorem scanned_of_registered (calls : List InitCall) (t : GoString)
    (ht : t ∈ registryTokens (runCalls calls)) : Scanned t := by
  have h0 : AllScanned State.initial.CommandMacros ∧ AllScanned State.initial.Base64Macros ∧
      AllScanned State.initial.Md5Macros :=
    ⟨fun p hp => by simp [State.initial] at hp, fun p hp => by simp [State.initial] at hp,
      fun p hp => by simp [State.initial] at hp⟩
  obtain ⟨h1, h2, h3⟩ := registriesScanned_foldl calls State.initial h0
  simp only [registryTokens, List.mem_append, mem_flatTokens] at ht
  rcases ht with (⟨p, hp, hm⟩ | ⟨p, hp, hm⟩) | ⟨p, hp, hm⟩
  · exact h1 p hp t hm
  · exact h2 p hp t hm
  · exact h3 p hp t hm

theorem length_of_scanned (t : GoString) (h : Scanned t) : 3 ≤ t.length := by
  obtain ⟨sigil, body, e, _, _, _⟩ := h
  rw [e]
  simp

theorem innerDecl_of_scanned (sigil : Char) (body : GoString) :
    innerDecl ('{' :: sigil :: (body ++ ['}'])) = body := by
  simp [innerDecl]

theorem sliceAt_digits (s a b : GoString) (h : sliceAt s = some (a, b)) :
    (∀ d ∈ a, d.isDigit = true) ∧ (∀ d ∈ b, d.isDigit = true) := by
  cases s with
  | nil => simp [sliceAt] at h
  | cons c cs =>
    simp only [sliceAt] at h
    split at h
    · simp only [Option.some.injEq, Prod.mk.injEq] at h
      obtain ⟨ea, eb⟩ := h
      rw [← ea, ← eb]
      exact ⟨fun d hd => List.mem_takeWhile_imp hd, fun d hd => List.mem_takeWhile_imp hd⟩
    · simp at h

theorem findSlice_digits (s a b : GoString) (h : findSlice s = some (a, b)) :
    (∀ d ∈ a, d.isDigit = true) ∧ (∀ d ∈ b, d.isDigit = true) := by
  induction s with
  | nil => simp [findSlice] at h
  | cons c cs ih =>
    simp only [findSlice] at h
    cases hs : sliceAt (c :: cs) with
    | some r =>
      rw [hs] at h
      simp only [Option.some.injEq] at h
      rw [h] at hs
      exact sliceAt_digits _ a b hs
    | none =>
      rw [hs] at h
      exact ih h

theorem sliceAt_shape (s a b : GoString) (h : sliceAt s = some (a, b)) :
    ∃ post, s = sliceText a b ++ post := by
  cases s with
  | nil => simp [sliceAt] at h
  | cons c cs =>
    simp only [sliceAt] at h
    split at h
    · rename_i hc
      obtain ⟨hc1, _, hc3, _, hc5⟩ := hc
      simp only [Option.some.injEq, Prod.mk.injEq] at h
      obtain ⟨ea, eb⟩ := h
      cases hr1 : cs.dropWhile Char.isDigit with
      | nil => simp [hr1] at hc3
      | cons y r1 =>
        simp only [hr1, List.head?_cons, Option.some.injEq] at hc3
        simp only [hr1, List.drop_succ_cons, List.drop_zero] at hc5 eb
        obtain ⟨post, hpost⟩ := List.isPrefixOf_iff_prefix.1 hc5
        refine ⟨post, ?_⟩
        have e1 : cs = a ++ ':' :: r1 := by
          rw [← ea, ← hc3, ← hr1, List.takeWhile_append_dropWhile]
        have e2 : r1 = b ++ (r1.dropWhile Char.isDigit) := by
          rw [← eb, List.takeWhile_append_dropWhile]
        rw [hc1, e1, e2, ← hpost]
        simp [sliceText]
    · simp at h

theorem findSlice_shape (s a b : GoString) (h : findSlice s = some (a, b)) :
    ∃ pre post, s = pre ++ sliceText a b ++ post := by
  induction s with
  | nil => simp [findSlice] at h
  | cons c cs ih =>
    simp only [findSlice] at h
    cases hs : sliceAt (c :: cs) with
    | some r =>
      rw [hs] at h
      simp only [Option.some.injEq] at h
      rw [h] at hs
      obtain ⟨post, e⟩ := sliceAt_shape _ a b hs
      exact ⟨[], post, by rw [e]; rfl⟩
    | none =>
      rw [hs] at h
      obtain ⟨pre, post, e⟩ := ih h
      exact ⟨c :: pre, post, by rw [e]; rfl⟩

theorem eq_of_append_brace (x y post : GoString) (hy : '}' ∉ y)
    (h : y ++ ['}'] = x ++ '}' :: post) : x = y ∧ post = [] := by
  induction y generalizing x with
  | nil =>
    cases x with
    | nil => simpa using h.symm
    | cons c x =>
      simp only [List.nil_append, List.cons_append, List.cons.injEq] at h
      have := h.2
      simp at this
  | cons d y ih =>
    cases x with
    | nil =>
      simp only [List.cons_append, List.nil_append, List.cons.injEq] at h
      exact absurd (by rw [h.1]; exact List.mem_cons_self _ _) hy
    | cons c x =>
      simp only [List.cons_append, List.cons.injEq] at h
      obtain ⟨e1, e2⟩ := ih x (fun hm => hy (List.mem_cons_of_mem _ hm)) h.2
      exact ⟨by rw [h.1, e1], e2⟩

theorem innerDecl_of_sliced (tok a b : GoString) (hsc : Scanned tok)
    (hs : findSlice tok = some (a, b)) :
    ∃ pre, innerDecl tok = pre ++ sliceBrackets a b ∧ '\n' ∉ innerDecl tok := by
  obtain ⟨sigil, body, e, hsig, hb, hn⟩ := hsc
  obtain ⟨pre, post, e2⟩ := findSlice_shape tok a b hs
  have e3 : ('{' :: sigil :: body) ++ ['}'] = (pre ++ sliceBrackets a b) ++ '}' :: post := by
    have : ('{' :: sigil :: body) ++ ['}'] = tok := by rw [e]; rfl
    rw [this, e2]
    simp [sliceText, sliceBrackets]
  have hy : '}' ∉ '{' :: sigil :: body := by
    simp only [List.mem_cons, not_or]
    refine ⟨by decide, ?_, hb⟩
    rcases hsig with h | h <;> rw [h] <;> decide
  obtain ⟨e4, _⟩ := eq_of_append_brace _ _ post hy e3
  rw [e, innerDecl_of_scanned]
  refine ⟨pre.drop 2, ?_, hn⟩
  cases pre with
  | nil =>
    simp only [sliceBrackets, List.nil_append, List.cons_append, List.cons.injEq] at e4
    exact absurd e4.1 (by decide)
  | cons p pre =>
    cases pre with
    | nil =>
      simp only [sliceBrackets, List.cons_append, List.nil_append, List.cons.injEq] at e4
      rcases hsig with h | h <;> rw [h] at e4 <;> exact absurd e4.2.1 (by decide)
    | cons q pre =>
      simp only [List.cons_append, List.cons.injEq] at e4
      rw [← e4.2.2]
      rfl

theorem suffix_of_drop_prefix (w rest pre ann : GoString) (x : Char) (hx : x ∉ w)
    (h : w ++ rest = pre ++ x :: ann) : (x :: ann) <:+ rest := by
  induction w generalizing pre with
  | nil => exact ⟨pre, by rw [← h]; rfl⟩
  | cons c w ih =>
    cases pre with
    | nil =>
      simp only [List.cons_append, List.nil_append, List.cons.injEq] at h
      exact absurd (by rw [h.1]; exact List.mem_cons_self _ _) hx
    | cons p pre =>
      simp only [List.cons_append, List.cons.injEq] at h
      exact ih pre (fun hm => hx (List.mem_cons_of_mem _ hm)) h.2

theorem isPrefixOf_append_of_last (old s t : GoString) (x : Char)
    (hl : old.getLast? = some x) (hx : x ∉ t) :
    old.isPrefixOf (s ++ t) = old.isPrefixOf s := by
  induction old generalizing s t with
  | nil => simp at hl
  | cons o os ih =>
    cases s with
    | nil =>
      cases t with
      | nil => rfl
      | cons c t =>
        cases os with
        | nil =>
          simp only [List.getLast?_singleton, Option.some.injEq] at hl
          have : o ≠ c := by
            intro e
            apply hx
            rw [← hl, e]
            exact List.mem_cons_self _ _
          simp [List.isPrefixOf, this]
        | cons o2 os =>
          have hl2 : (o2 :: os).getLast? = some x := by
            rw [← hl, List.getLast?_cons_cons]
          have := ih [] t hl2 (fun hm => hx (List.mem_cons_of_mem _ hm))
          simp only [List.nil_append] at this
          simp only [List.nil_append, List.isPrefixOf, this, Bool.and_false]
    | cons c s =>
      cases os with
      | nil => simp [List.isPrefixOf]
      | cons o2 os =>
        have hl2 : (o2 :: os).getLast? = some x := by
          rw [← hl, List.getLast?_cons_cons]
        have := ih s t hl2 hx
        simp only [List.cons_append, List.isPrefixOf, List.append_eq, this]

theorem cutAt_none_of_last (old t : GoString) (x : Char)
    (hl : old.getLast? = some x) (hx : x ∉ t) : cutAt old t = none := by
  apply cutAt_none_of_not_occurs
  rintro ⟨p, q, e⟩
  apply hx
  rw [e]
  have : x ∈ old := List.mem_of_getLast?_eq_some hl
  simp [this]

theorem cutAt_append_of_last (old s t : GoString) (x : Char)
    (hl : old.getLast? = some x) (hx : x ∉ t) :
    cutAt old (s ++ t) = (cutAt old s).map (fun p => (p.1, p.2 ++ t)) := by
  induction s with
  | nil =>
    rw [List.nil_append, cutAt_none_of_last old t x hl hx]
    rfl
  | cons c s ih =>
    have hp := isPrefixOf_append_of_last old (c :: s) t x hl hx
    simp only [List.cons_append] at hp
    simp only [List.cons_append, cutAt, List.append_eq, hp]
    by_cases hc : old.isPrefixOf (c :: s) = true
    · have hle : old.length ≤ (c :: s).length :=
        (List.isPrefixOf_iff_prefix.1 hc).length_le
      simp only [hc, if_true, Option.map_some', Option.some.injEq, Prod.mk.injEq, true_and]
      rw [← List.cons_append, List.drop_append_of_le_length hle]
    · simp only [hc, Bool.false_eq_true, if_false, ih, Option.map_map]
      rfl

theorem replaceLoop_append_of_last (old new t : GoString) (x : Char)
    (hl : old.getLast? = some x) (hx : x ∉ t) (k : Nat) (s : GoString) :
    replaceLoop old new k (s ++ t) = replaceLoop old new k s ++ t := by
  induction k generalizing s with
  | zero => rfl
  | succ k ih =>
    simp only [replaceLoop, cutAt_append_of_last old s t x hl hx]
    cases cutAt old s with
    | none => rfl
    | some p =>
      simp only [Option.map_some', ih, List.append_assoc]

theorem mem_replaceLoop_nil (old : GoString) (k : Nat) (s : GoString) (c : Char)
    (h : c ∈ replaceLoop old [] k s) : c ∈ s := by
  induction k generalizing s with
  | zero => exact h
  | succ k ih =>
    simp only [replaceLoop] at h
    cases hc : cutAt old s with
    | none =>
      rw [hc] at h
      exact h
    | some p =>
      obtain ⟨a, rest⟩ := p
      rw [hc] at h
      have e := (firstCut_of_cutAt old s a rest hc).1
      simp only [List.append_nil, List.mem_append] at h
      rw [e]
      rcases h with h | h
      · simp [h]
      · simp [ih rest h]

theorem getLast?_hexMarkerAt (s m : GoString) (h : hexMarkerAt s = some m) :
    m.getLast? = some 'x' := by
  cases s with
  | nil => simp [hexMarkerAt] at h
  | cons c cs =>
    simp only [hexMarkerAt] at h
    split at h
    · simp only [Option.some.injEq] at h
      rw [← h, List.getLast?_append]
      rfl
    · simp at h

theorem getLast?_findHexMarker (arg : GoString) (h : findHexMarker arg ≠ []) :
    (findHexMarker arg).getLast? = some 'x' := by
  induction arg with
  | nil => exact absurd rfl h
  | cons c cs ih =>
    cases hm : hexMarkerAt (c :: cs) with
    | some m =>
      rw [findHexMarker, hm]
      exact getLast?_hexMarkerAt _ m hm
    | none =>
      rw [findHexMarker, hm] at h ⊢
      exact ih h

theorem getLast?_dropWhile (p : Char → Bool) (l : GoString) (x : Char)
    (hl : l.getLast? = some x) (hx : p x = false) : (l.dropWhile p).getLast? = some x := by
  induction l with
  | nil => simp at hl
  | cons c cs ih =>
    rw [List.dropWhile_cons]
    split
    · rename_i hc
      cases cs with
      | nil =>
        simp only [List.getLast?_singleton, Option.some.injEq] at hl
        rw [hl, hx] at hc
        exact absurd hc (by decide)
      | cons d ds =>
        apply ih
        rw [← hl, List.getLast?_cons_cons]
    · exact hl

theorem modifierAt_last (s g1 g2 : GoString) (x : Char) (h : modifierAt s = some (g1, g2))
    (hl : s.getLast? = some x) (hs : x ≠ '+' ∧ x ≠ '-') (hd : x.isDigit = false)
    (hn : '\n' ∉ s) : g2.getLast? = some x := by
  cases s with
  | nil => simp [modifierAt] at h
  | cons c cs =>
    simp only [modifierAt] at h
    split at h
    · rename_i hc
      simp only [Option.some.injEq, Prod.mk.injEq] at h
      rw [← h.2]
      have hcs : cs.getLast? = some x := by
        cases cs with
        | nil =>
          simp only [List.getLast?_singleton, Option.some.injEq] at hl
          rcases hc.1 with e | e
          · exact absurd (hl ▸ e) hs.1
          · exact absurd (hl ▸ e) hs.2
        | cons d ds => rw [← hl, List.getLast?_cons_cons]
      have hall : (cs.dropWhile Char.isDigit).takeWhile (fun d => decide (d ≠ '\n'))
          = cs.dropWhile Char.isDigit := by
        rw [List.takeWhile_eq_self_iff]
        intro d hdm
        have hd1 : d ∈ cs := (List.dropWhile_sublist _).subset hdm
        have : d ≠ '\n' := fun e => hn (e ▸ List.mem_cons_of_mem _ hd1)
        simpa using this
      rw [hall]
      exact getLast?_dropWhile _ cs x hcs hd
    · simp at h

theorem findModifier_last (s g1 g2 : GoString) (x : Char) (h : findModifier s = some (g1, g2))
    (hl : s.getLast? = some x) (hs : x ≠ '+' ∧ x ≠ '-') (hd : x.isDigit = false)
    (hn : '\n' ∉ s) : g2.getLast? = some x := by
  induction s with
  | nil => simp [findModifier] at h
  | cons c cs ih =>
    simp only [findModifier] at h
    cases hm : modifierAt (c :: cs) with
    | some r =>
      rw [hm] at h
      simp only [Option.some.injEq] at h
      rw [h] at hm
      exact modifierAt_last _ g1 g2 x hm hl hs hd hn
    | none =>
      rw [hm] at h
      cases cs with
      | nil => simp [findModifier] at h
      | cons d ds =>
        apply ih h
        · rw [← hl, List.getLast?_cons_cons]
        · exact fun hm => hn (List.mem_cons_of_mem _ hm)

theorem rejected_of_last (arg : GoString) (hl : arg.getLast? = some ']')
    (hn : '\n' ∉ arg) : rejected arg = true := by
  have hne : arg ≠ [] := by
    rintro rfl
    simp at hl
  rw [rejected_iff]
  cases hf : findModifier arg with
  | none =>
    have h0 : arg.length ≠ 0 := by simpa using hne
    simp only [parseTimeModifier, h0, if_false, hf]
  | some p =>
    obtain ⟨g1, g2⟩ := p
    have hg := findModifier_last arg g1 g2 ']' hf hl (by decide) (by decide) hn
    have hU : ∀ U : GoString, U.getLast? ≠ some ']' → ¬ g2 = U := fun U hU e => hU (e ▸ hg)
    rw [parseTimeModifier_of_findModifier arg g1 g2 hne hf]
    rw [if_neg (not_or.2 ⟨hU _ (by decide), hU _ (by decide)⟩),
      if_neg (not_or.2 ⟨hU _ (by decide), hU _ (by decide)⟩),
      if_neg (not_or.2 ⟨hU _ (by decide), hU _ (by decide)⟩),
      if_neg (not_or.2 ⟨hU _ (by decide), hU _ (by decide)⟩),
      if_neg (not_or.2 ⟨hU _ (by decide), hU _ (by decide)⟩)]

theorem not_mem_sliceBrackets (a b : GoString) (x : Char) (hx : x.isDigit = false)
    (h1 : x ≠ '[') (h2 : x ≠ ':') (h3 : x ≠ ']')
    (ha : ∀ d ∈ a, d.isDigit = true) (hb : ∀ d ∈ b, d.isDigit = true) :
    x ∉ sliceBrackets a b := by
  intro hm
  simp only [sliceBrackets, List.cons_append, List.append_assoc, List.mem_cons, List.mem_append,
    List.nil_append, List.not_mem_nil, or_false] at hm
  rcases hm with e | e | e | e | e
  · exact h1 e
  · rw [ha x e] at hx
    exact absurd hx (by decide)
  · exact h2 e
  · rw [hb x e] at hx
    exact absurd hx (by decide)
  · exact h3 e

theorem getLast?_sliceBrackets (u a b : GoString) :
    (u ++ sliceBrackets a b).getLast? = some ']' := by
  have : u ++ sliceBrackets a b = (u ++ '[' :: a ++ ':' :: b) ++ [']'] := by
    simp [sliceBrackets]
  rw [this, List.getLast?_append]
  rfl

theorem modifier_of_sliced_tail (w rest pre a b : GoString) (hw : '[' ∉ w)
    (h : w ++ rest = pre ++ sliceBrackets a b) : sliceBrackets a b <:+ rest := by
  have e : sliceBrackets a b = '[' :: (a ++ ':' :: b ++ [']']) := by
    simp [sliceBrackets]
  rw [e] at h ⊢
  exact suffix_of_drop_prefix w rest pre _ '[' hw h

theorem unixtimeModifier_of_sliced (rest a b : GoString) (hn : '\n' ∉ rest)
    (ha : ∀ d ∈ a, d.isDigit = true) (hb : ∀ d ∈ b, d.isDigit = true)
    (h : sliceBrackets a b <:+ rest) :
    sliceBrackets a b <:+ unixtimeModifier ("UNIXTIME".toList ++ rest) ∧
      '\n' ∉ unixtimeModifier ("UNIXTIME".toList ++ rest) := by
  have hd : ("UNIXTIME".toList ++ rest).drop 8 = rest := rfl
  unfold unixtimeModifier
  rw [hd]
  by_cases hf : (findHexMarker rest).length > 0
  · rw [if_pos hf]
    have hne : findHexMarker rest ≠ [] := by
      intro e
      rw [e] at hf
      exact absurd hf (by decide)
    have hl := getLast?_findHexMarker rest hne
    have hx : 'x' ∉ sliceBrackets a b :=
      not_mem_sliceBrackets a b 'x' (by decide) (by decide) (by decide) (by decide) ha hb
    obtain ⟨u, hu⟩ := h
    have hr : stringsReplace rest (findHexMarker rest) [] (-1)
        = replaceLoop (findHexMarker rest) [] (rest.length + 1) rest := by
      simp only [stringsReplace, hne, if_false]
      rfl
    rw [hr]
    constructor
    · have key := replaceLoop_append_of_last (findHexMarker rest) [] (sliceBrackets a b) 'x'
        hl hx (rest.length + 1) u
      rw [hu] at key
      rw [key]
      exact ⟨_, rfl⟩
    · exact fun hm => hn (mem_replaceLoop_nil _ _ _ _ hm)
  · rw [if_neg hf]
    exact ⟨h, hn⟩

theorem offendingModifier_of_sliced (tok a b : GoString) (hsc : Scanned tok)
    (hp : hasPrefix (innerDecl tok) "TIME".toList = true ∨
      hasPrefix (innerDecl tok) "UNIXTIME".toList = true)
    (hs : findSlice tok = some (a, b)) :
    sliceBrackets a b <:+ offendingModifier tok ∧ '\n' ∉ offendingModifier tok := by
  obtain ⟨pre, e, hn⟩ := innerDecl_of_sliced tok a b hsc hs
  obtain ⟨ha, hb⟩ := findSlice_digits tok a b hs
  unfold offendingModifier
  by_cases hU : hasPrefix (innerDecl tok) "UNIXTIME".toList = true
  · rw [if_pos hU]
    obtain ⟨rest, hrest⟩ := List.isPrefixOf_iff_prefix.1 hU
    have hsuf := modifier_of_sliced_tail "UNIXTIME".toList rest pre a b (by decide)
      (hrest.trans e)
    have hnr : '\n' ∉ rest := fun hm => hn (by rw [← hrest]; exact List.mem_append_right _ hm)
    rw [← hrest]
    exact unixtimeModifier_of_sliced rest a b hnr ha hb hsuf
  · rw [if_neg hU]
    have hT : hasPrefix (innerDecl tok) "TIME".toList = true := by
      rcases hp with h | h
      · exact h
      · exact absurd h hU
    obtain ⟨rest, hrest⟩ := List.isPrefixOf_iff_prefix.1 hT
    have hsuf := modifier_of_sliced_tail "TIME".toList rest pre a b (by decide)
      (hrest.trans e)
    have hd : (innerDecl tok).drop 4 = rest := by
      rw [← hrest]
      rfl
    rw [hd]
    exact ⟨hsuf, fun hm => hn (by rw [← hrest]; exact List.mem_append_right _ hm)⟩

theorem badTimeToken_of_rejected (tok : GoString)
    (hp : hasPrefix (innerDecl tok) "TIME".toList = true ∨
      hasPrefix (innerDecl tok) "UNIXTIME".toList = true)
    (hr : rejected (offendingModifier tok) = true) : badTimeToken tok = true := by
  unfold offendingModifier at hr
  by_cases hU : hasPrefix (innerDecl tok) "UNIXTIME".toList = true
  · rw [if_pos hU] at hr
    rw [badTimeToken, badUnixtime, hU, hr]
    rfl
  · rw [if_neg hU] at hr
    have hT : hasPrefix (innerDecl tok) "TIME".toList = true := by
      rcases hp with h | h
      · exact h
      · exact absurd h hU
    rw [badTimeToken, badPrintTime, hT, hr]
    simp

/-- C19: in a state built by the registration calls, a registered token whose
inner declaration starts with `TIME` or `UNIXTIME` and that carries a slice
annotation `[a:b]` makes `InitUnixtimeMacros` stop with `log.Fatalf`, in
whatever order the registries are visited: the text handed to
`parseTimeModifier` ends with the annotation `[a:b]`, `parseTimeModifier`
rejects it, and the initialization never completes. -/
theorem sliced_time_macro_aborts (calls : List InitCall) (oc ob om : GoMap (List GoString))
    (hv : VisitOrder oc ob om (runCalls calls)) (tok a b : GoString)
    (ht : tok ∈ registryTokens (runCalls calls))
    (hp : hasPrefix (innerDecl tok) "TIME".toList = true ∨
      hasPrefix (innerDecl tok) "UNIXTIME".toList = true)
    (hs : findSlice tok = some (a, b)) :
    sliceBrackets a b <:+ offendingModifier tok ∧
    rejected (offendingModifier tok) = true ∧
    (∃ msg, InitUnixtimeMacrosIn oc ob om (runCalls calls) = .fatal msg) ∧
    ∀ st2, InitUnixtimeMacrosIn oc ob om (runCalls calls) ≠ .ok st2 := by
  have hsc := scanned_of_registered calls tok ht
  obtain ⟨hsuf, hn⟩ := offendingModifier_of_sliced tok a b hsc hp hs
  have hr : rejected (offendingModifier tok) = true := by
    obtain ⟨u, hu⟩ := hsuf
    apply rejected_of_last _ _ hn
    rw [← hu]
    exact getLast?_sliceBrackets u a b
  have hbad := badTimeToken_of_rejected tok hp hr
  have hmem := mem_visit_iff oc ob om (runCalls calls) hv
  have hl : ∀ t ∈ flatTokens oc ++ (flatTokens ob ++ flatTokens om), 3 ≤ t.length :=
    fun t htm => length_of_scanned t (scanned_of_registered calls t ((hmem t).1 htm))
  refine ⟨hsuf, hr, ?_⟩
  rw [InitUnixtimeMacrosIn_eq]
  rcases compileTokens_cases _
      { runCalls calls with PrintTimeMacros := [], UnixtimeMacros := [] } hl with
    ⟨st2, _, hb, _, _⟩ | ⟨t, _, msg, h2, _⟩
  · rw [hb tok ((hmem tok).2 ht)] at hbad
    exact absurd hbad (by decide)
  · rw [h2]
    exact ⟨⟨msg, rfl⟩, fun st2 h => by simp at h⟩

/-- C19, instance: the field `{%UNIXTIME[0:10]}` registers a token with the
annotation `[0:10]`; the modifier handed to `parseTimeModifier` is `[0:10]`, and
`InitUnixtimeMacros` stops with the message for the declaration
`UNIXTIME[0:10]`. -/
theorem sliced_time_macro_aborts_witness :
    "\x7b%UNIXTIME[0:10]\x7d".toList ∈ registryTokens (runCalls slicedTimeCalls) ∧
    findSlice "\x7b%UNIXTIME[0:10]\x7d".toList = some ("0".toList, "10".toList) ∧
    offendingModifier "\x7b%UNIXTIME[0:10]\x7d".toList = "[0:10]".toList ∧
    (∃ msg, InitUnixtimeMacrosIn (runCalls slicedTimeCalls).CommandMacros
      (runCalls slicedTimeCalls).Base64Macros (runCalls slicedTimeCalls).Md5Macros
      (runCalls slicedTimeCalls) = .fatal msg) ∧
    InitUnixtimeMacros (runCalls slicedTimeCalls)
      = .fatal "UNIXTIME macro UNIXTIME[0:10]: time modifier [0:10] is not supported".toList :=
  ⟨by decide, by decide, by decide,
   (sliced_time_macro_aborts slicedTimeCalls (runCalls slicedTimeCalls).CommandMacros
      (runCalls slicedTimeCalls).Base64Macros (runCalls slicedTimeCalls).Md5Macros
      ⟨List.Perm.refl _, List.Perm.refl _, List.Perm.refl _⟩
      "\x7b%UNIXTIME[0:10]\x7d".toList "0".toList "10".toList
      (by decide) (Or.inr (by decide)) (by decide)).2.2.1,
   by decide⟩

/-! ## Checksum templates whose tokens do not resolve -/

theorem timeKeysCompiled_of_empty (st : State) (h1 : st.UnixtimeMacros = [])
    (h2 : st.PrintTimeMacros = []) : TimeKeysCompiled st := by
  constructor
  · intro k u h
    rw [h1] at h
    simp [mapGet] at h
  · intro k u h
    rw [h2] at h
    simp [mapGet] at h

theorem md5sum_self_diverges (ext : Ext) (depth : Nat) (row : GoString)
    (sessionVars : GoMap GoString) (reqTime : Int) :
    runnerMacro ext depth selfMd5State "c".toList md5sumToken row sessionVars reqTime
      = .diverge := by
  induction depth with
  | zero => rfl
  | succ d ih =>
    have hl : mapSlice selfMd5State.Md5Macros "c".toList = [md5sumToken] := by decide
    rw [runnerMacro_plain ext d selfMd5State "c".toList md5sumToken row sessionVars reqTime
        (by decide),
      _runnerMacro_md5sum ext _ selfMd5State "c".toList row sessionVars reqTime
        (timeKeysCompiled_of_empty _ (by decide) (by decide)), hl]
    simp only [substLoop, ih]
    rfl

theorem md5sum_short_row_panics (ext : Ext) (depth : Nat) (sessionVars : GoMap GoString)
    (reqTime : Int) :
    runnerMacro ext (depth + 2) shortRowMd5State "c".toList md5sumToken "foo,bar".toList
      sessionVars reqTime = .panic := by
  have hl : mapSlice shortRowMd5State.Md5Macros "c".toList = ["\x7b%CSV[9]\x7d".toList] := by
    decide
  have hc : runnerMacro ext (depth + 1) shortRowMd5State "c".toList "\x7b%CSV[9]\x7d".toList
      "foo,bar".toList sessionVars reqTime = .panic := by
    rw [runnerMacro_plain ext depth shortRowMd5State "c".toList _ "foo,bar".toList sessionVars
      reqTime (by decide)]
    rfl
  rw [runnerMacro_plain ext (depth + 1) shortRowMd5State "c".toList md5sumToken _ sessionVars
      reqTime (by decide),
    _runnerMacro_md5sum ext _ shortRowMd5State "c".toList _ sessionVars reqTime
      (timeKeysCompiled_of_empty _ (by decide) (by decide)), hl]
  simp only [substLoop, hc]
  rfl

/-- C13, counterexample: a registered non-empty checksum template does not make
`{%MD5SUM}` return a digest.  With the template `{%MD5SUM}` the resolution of
`{%MD5SUM}` calls itself and exhausts every nesting budget; with the template
`{%CSV[9]}` and the input row `foo,bar` it panics at every budget that admits
the nested call. -/
theorem md5sum_unresolved_template :
    mapGet selfMd5State.Md5Inputs "c".toList = some "\x7b%MD5SUM\x7d".toList ∧
    (∀ depth, runnerMacro Ext.digest depth selfMd5State "c".toList md5sumToken
      "foo,bar".toList [] 0 = .diverge) ∧
    mapGet shortRowMd5State.Md5Inputs "c".toList = some "\x7b%CSV[9]\x7d".toList ∧
    (∀ depth, runnerMacro Ext.digest (depth + 2) shortRowMd5State "c".toList md5sumToken
      "foo,bar".toList [] 0 = .panic) :=
  ⟨by decide, fun depth => md5sum_self_diverges Ext.digest depth _ _ _, by decide,
    fun depth => md5sum_short_row_panics Ext.digest depth _ _⟩

end GoRunner
